import Mathlib

/-!
# gz-sort: external merge sort over gzip-compressed line files

A shallow embedding of `gz-sort.c` and a verification of its specification.

The program is embedded at two levels.

* `GzSort.Raw` follows `load_line_gz` byte by byte: the 16384-byte read buffer, the
  spill-over buffer `line` and the indexes `buf_i`, `line_i`, `read_len`.
* `GzSort` follows the sort itself (`presort_pass`, `merge_pass`, `middle_passes`, the
  un-threaded branch of `main`) with a file held as the list of its lines: a reader is the
  list of lines it has not delivered yet, a writer the list of lines put so far. The
  parallel sort (`nway_line_gz`, `nway_chop_and_presort`, `sort_thread_fn`, `heap_add`,
  `heap_pop`, `nway_merge_pass`) is followed at the same level; the array `strs` is the
  list of its slots, NULL being `none`, and the functions that may call `strcmp` on a NULL
  pointer return an `Option`.

The theorem `GzSort.Raw.line_reader_agrees` links the two levels: on a file of
newline-terminated, NUL-free lines the byte-level reader returns what the line-level reader
returns, as long as the bytes of its buffer that no read has overwritten hold no newline.
Outside that condition the list of lines of the line level is the list of the lines that
the byte-level reader delivers, which may end with a line delivered a second time.

The presort at the line level holds the content of `buffer` as the list of the lines copied
to it, which is what the code has there as long as every copy stays inside the
`presort_bytes + 1` bytes allocated. `presort_pass_copies` lists the copies and
`copies_fit` says that they stay inside; they do exactly when no line is longer than
`presort_bytes` (`presort_pass_copies_fit`), and the theorems on what the presort and the
sort write start from that condition.

Memory that the program reads without having written it is a parameter of the embedding:
the bytes of the read buffer (`stack`), the content of a fresh `line` (`junk`), the field
`unique` of a worker (`stale`) and the memory from `strs[MAX_THREADS]` on (`beyond`).

Two functions list what the code does to memory rather than what it computes:
`presort_pass_copies` gives the calls of `strcpy` into the presort buffer with the offset of
each, and `heap_pop_reads` the indices of the slots that `heap_pop` reads. Both follow the
loops of `presort_pass` and `heap_pop` step by step.

Integers of the source (`int`, `int64_t`) are `Int` or `Nat`. The one conversion that the
embedding follows is that of the `int64_t` run lengths which `merge_pass` passes to the
parameter `int skip` of `skip_lines_gz` (`int_arg`); no other overflow is followed. `while`
loops are structural recursions on a fuel argument, and the callers pass a fuel computed
from the sizes of the files; the theorems show that this fuel is enough.
-/

namespace GzSort

/-! ## Lines and `strcmp` -/

/-- A line: the bytes of a NUL-terminated C string, the terminator left out. -/
abbrev Line := List Nat

/-- The libc function `strcmp` on two NUL-terminated strings: the bytes are compared as
unsigned values from the left, and a string that ends first is the smaller one. Only the
sign of the result is fixed by C; here it is `-1`, `0` or `1`. -/
def strcmp : Line → Line → Int
  | [], [] => 0
  | [], _ :: _ => -1
  | _ :: _, [] => 1
  | a :: as, b :: bs => if a < b then -1 else if b < a then 1 else strcmp as bs

/-- Byte-wise lexicographic order on lines, `strcmp a b <= 0`. -/
def LineLE (a b : Line) : Prop := strcmp a b ≤ 0

instance : DecidableRel LineLE := fun a b => inferInstanceAs (Decidable (strcmp a b ≤ 0))

/-! ## The line-level state -/

/-- The fields of `gzBucket` that the sort uses, with the file seen as a list of lines.
For a reader `f` holds the lines `load_line_gz` has not returned yet, for a writer the lines
written so far. `line` is the C string stored at `g->line`. -/
structure gzBucket where
  f : List Line
  line : Line
  subset_counter : Int
  line_counter : Int
  nway_lines : Int
  nway_skips : Int
deriving DecidableEq, Repr

/-- The fields of `miscBucket` that the sort uses. `line_log` is the array of
`log_len + 1` slots. -/
structure miscBucket where
  total_lines : Int
  presort_bytes : Int
  line_log : List Int
  log_len : Nat
  unique : Int
  nway : Int
deriving DecidableEq, Repr

/-- The function `init_gz`: `file` is the content of the file opened (empty for a file opened
for writing) and `junk` the C string that the freshly allocated, never initialised `line`
holds. `nway_lines` and `nway_skips` are not set by `init_gz`. -/
def init_gz (file : List Line) (junk : Line) : gzBucket :=
  { f := file, line := junk, subset_counter := 0, line_counter := 0,
    nway_lines := 0, nway_skips := 0 }

/-- The function `load_line_gz` at the level of lines: the next line of the file, or `none`
(NULL) when the file has no line left. `GzSort.Raw.load_line_gz` is the byte-level
function; it returns these lines when the read buffer holds no stale newline
(`Raw.line_reader_agrees`), and with a stale newline it returns one line more, so that `f`
is then the list of the lines it delivers. -/
def load_line_gz (g : gzBucket) : Option Line × gzBucket :=
  match g.f with
  | [] => (none, g)
  | l :: ls => (some l, { g with f := ls, line_counter := g.line_counter + 1 })

/-- The function `subset_lines_gz`. -/
def subset_lines_gz (g : gzBucket) : Option Line × gzBucket :=
  if g.subset_counter ≤ 0 then (none, g)
  else load_line_gz { g with subset_counter := g.subset_counter - 1 }

/-- The loop of `skip_lines_gz`, `n` iterations. -/
def skip_loop : Nat → gzBucket → gzBucket
  | 0, g => g
  | n + 1, g => skip_loop n (load_line_gz g).2

/-- The function `skip_lines_gz`: `for (i=0; i<skip; i++) load_line_gz(g)`. The parameter
`skip` is an `int`: a caller that holds an `int64_t` passes `int_arg` of it. -/
def skip_lines_gz (g : gzBucket) (skip : Int) : gzBucket :=
  skip_loop skip.toNat g

/-- The conversion of an `int64_t` argument to the `int` parameter `skip` of
`skip_lines_gz`: the value itself when it lies between `-2^31` and `2^31 - 1`, and
otherwise the value of that range that differs from it by a multiple of `2^32` (the
conversion as gcc defines it). -/
def int_arg (x : Int) : Int := (x + 2147483648) % 4294967296 - 2147483648

/-- The function `nway_line_gz`. The field `nway_skips` holds the value of the `int`
expression `NWAY_WINDOW * (misc->nway-1)`, which the call of `skip_lines_gz` leaves as it
is. -/
def nway_line_gz (g : gzBucket) : Option Line × gzBucket :=
  if g.subset_counter ≤ 0 then
    subset_lines_gz { skip_lines_gz g g.nway_skips with subset_counter := g.nway_lines }
  else subset_lines_gz g

/-- The results of `n` successive calls of the line-level `load_line_gz`. -/
def line_calls : Nat → gzBucket → List (Option Line)
  | 0, _ => []
  | n + 1, g => (load_line_gz g).1 :: line_calls n (load_line_gz g).2

/-! ## Presort -/

/-- The comparison `qsort_compare` on two slots that both hold a string (every slot below
`strings_i` does, so the NULL branches are not taken). -/
def qsort_compare (a b : Line) : Int := strcmp a b

/-- The libc call `qsort(strings, strings_i, sizeof(char*), qsort_compare)`, seen through the
strings the sorted pointers point to. Lines that compare equal are equal byte for byte, so
every correct sort yields this same list of lines. -/
def qsort (strings : List Line) : List Line :=
  strings.insertionSort (fun a b => qsort_compare a b ≤ 0)

/-- The loop `for (i = lo; i < lo + n; i++) line_log[i] = -1`. -/
def clear_log : Nat → List Int → Nat → List Int
  | 0, log, _ => log
  | n + 1, log, i => clear_log n (log.set i (-1)) (i + 1)

/-- The call `realloc(line_log, sizeof(int64_t) * (log_len+1))`: the old slots are kept, the
new ones hold no defined value (they are cleared by the caller before being read). -/
def realloc_log (log : List Int) (log_len : Nat) : List Int :=
  log ++ List.replicate (log_len + 1 - log.length) 0

/-- The inner loop `while (!eob)` of `presort_pass`. It returns the line `str1` that did not
fit (or `none` at end of input, when `eof` is set), the reader, `buf_i` and the lines
buffered in `strings`. The list `strings` stands for the slots of the array below
`strings_i`, seen through the lines copied to `buffer`; the growth of the array and the
warning printed for a line of `presort_bytes - 1` bytes or more change nothing else and
are left out. -/
def presort_fill (line_gz : gzBucket → Option Line × gzBucket) (presort_bytes : Int) :
    Nat → gzBucket → Int → List Line → Option Line × gzBucket × Int × List Line
  | 0, in1, buf_i, strings => (none, in1, buf_i, strings)
  | fuel + 1, in1, buf_i, strings =>
    match line_gz in1 with
    | (none, in1') => (none, in1', buf_i, strings)
    | (some str1, in1') =>
      if buf_i + str1.length + 1 ≥ presort_bytes then (some str1, in1', buf_i, strings)
      else presort_fill line_gz presort_bytes fuel in1' (buf_i + str1.length + 1)
        (strings ++ [str1])

/-- The state of the outer loop of `presort_pass`. -/
structure presortState where
  in1 : gzBucket
  out : gzBucket
  misc : miscBucket
  log_i : Nat
  buf_i : Int
  strings : List Line
deriving DecidableEq, Repr

/-- The part of the outer loop body of `presort_pass` after the inner loop: sort and write
the buffered lines, save the line count in `line_log` (growing the log when
`log_i+3 >= log_len`). -/
def presort_flush (s : presortState) : presortState :=
  let sorted := qsort s.strings
  let out := { s.out with f := s.out.f ++ sorted,
                          line_counter := s.out.line_counter + sorted.length }
  let lines : Int := sorted.length
  let misc :=
    if s.log_i + 3 ≥ s.misc.log_len then
      let log_len := s.misc.log_len * 2
      { s.misc with
        log_len := log_len,
        line_log := clear_log (log_len + 1 - s.log_i)
          (realloc_log s.misc.line_log log_len) s.log_i }
    else s.misc
  let misc := { misc with line_log := misc.line_log.set s.log_i lines }
  { s with out := out, misc := misc, log_i := s.log_i + 1, buf_i := 0, strings := [] }

/-- The outer loop `while (!eof)` of `presort_pass`. The leftover line `str1` is put back
with `strcpy(buffer+buf_i, str1)` at `buf_i = 0`, without a test of its size: the state
given here is the one the code reaches when the line fits in the `presort_bytes + 1` bytes
of `buffer`. When it does not, the copy overruns the buffer and the run is not defined;
`presort_pass_copies` lists the copies and `copies_fit` says that they all fit, which is so
exactly when no line is longer than `presort_bytes`. -/
def presort_loop (line_gz : gzBucket → Option Line × gzBucket) :
    Nat → presortState → presortState
  | 0, s => s
  | fuel + 1, s =>
    let r := presort_fill line_gz s.misc.presort_bytes (s.in1.f.length + 1)
      s.in1 s.buf_i s.strings
    let s1 := presort_flush { s with in1 := r.2.1, buf_i := r.2.2.1, strings := r.2.2.2 }
    match r.1 with
    | none => s1
    | some str1 =>
      presort_loop line_gz fuel { s1 with buf_i := str1.length + 1, strings := [str1] }

/-- The function `presort_pass`. -/
def presort_pass (in1 out : gzBucket) (misc : miscBucket)
    (line_gz : gzBucket → Option Line × gzBucket) : gzBucket × gzBucket × miscBucket :=
  let in1 := { in1 with line_counter := 0 }
  let misc := { misc with line_log := clear_log (misc.log_len + 1) misc.line_log 0 }
  let s := presort_loop line_gz (in1.f.length + 1)
    { in1 := in1, out := out, misc := misc, log_i := 0, buf_i := 0, strings := [] }
  (s.in1, s.out, s.misc)

/-- The function `first_pass`: `input` is the content of `input_path`; the result is the
content written to `output_path` and the updated `misc`. The slots of the log that `malloc`
returns hold no defined value; `presort_pass` clears them all before it reads one. -/
def first_pass (input : List Line) (misc : miscBucket) (junk : Line) :
    List Line × miscBucket :=
  let in1 := init_gz input junk
  let out := init_gz [] junk
  let in1 := { in1 with line_counter := 0 }
  let misc := { misc with log_len := 1024, line_log := List.replicate (1024 + 1) 0 }
  let r := presort_pass in1 out misc load_line_gz
  (r.2.1.f, { r.2.2 with total_lines := r.1.line_counter })

/-! ## Pairwise merge -/

/-- The writing step of the merge loop of `merge_pass`: without `unique` the line is written
and counted; with `unique` it is written, remembered in `out->line` and counted only when
it differs from `out->line`. -/
def merge_write (unique : Int) (out : gzBucket) (str3 : Line) : gzBucket :=
  if unique = 0 then
    { out with f := out.f ++ [str3], line_counter := out.line_counter + 1 }
  else if strcmp str3 out.line ≠ 0 then
    { out with f := out.f ++ [str3], line := str3, line_counter := out.line_counter + 1 }
  else out

/-- The loop `while (str1!=NULL || str2!=NULL)` of `merge_pass`. -/
def merge_loop (unique : Int) :
    Nat → Option Line → Option Line → gzBucket → gzBucket → gzBucket →
      gzBucket × gzBucket × gzBucket
  | 0, _, _, in1, in2, out => (in1, in2, out)
  | fuel + 1, str1, str2, in1, in2, out =>
    match str1, str2 with
    | none, none => (in1, in2, out)
    | some a, some b =>
      let cmp := strcmp a b
      let str3 := if cmp < 0 then a else b
      let out := merge_write unique out str3
      if cmp < 0 then
        merge_loop unique fuel (subset_lines_gz in1).1 (some b) (subset_lines_gz in1).2 in2 out
      else
        merge_loop unique fuel (some a) (subset_lines_gz in2).1 in1 (subset_lines_gz in2).2 out
    | some a, none =>
      merge_loop unique fuel (subset_lines_gz in1).1 none (subset_lines_gz in1).2 in2
        (merge_write unique out a)
    | none, some b =>
      merge_loop unique fuel none (subset_lines_gz in2).1 in1 (subset_lines_gz in2).2
        (merge_write unique out b)

/-- The state of the outer loop of `merge_pass`. -/
structure mergeState where
  in1 : gzBucket
  in2 : gzBucket
  out : gzBucket
  misc : miscBucket
  log_i : Nat
deriving DecidableEq, Repr

/-- One iteration of the loop `while (1)` of `merge_pass`: the flag is `false` when the
iteration leaves the loop through `break`. The sizes are `int64_t` values of the log, and
the calls of `skip_lines_gz` convert them to `int`. -/
def merge_pair (unique : Int) (s : mergeState) : Bool × mergeState :=
  let size1 := s.misc.line_log.getD s.log_i 0
  let size2 := s.misc.line_log.getD (s.log_i + 1) 0
  let r1 := subset_lines_gz { s.in1 with subset_counter := size1 }
  let r2 := subset_lines_gz { s.in2 with subset_counter := size2 }
  if r1.1 = none ∧ r2.1 = none then
    (false, { s with in1 := r1.2, in2 := r2.2 })
  else
    let m := merge_loop unique (r1.2.f.length + r2.2.f.length + 2) r1.1 r2.1 r1.2 r2.2 s.out
    let log := ((s.misc.line_log.set s.log_i (-1)).set (s.log_i + 1) (-1)).set
      (s.log_i / 2) (size1 + size2)
    let log :=
      if size1 = -1 ∨ size2 = -1 then log.set (s.log_i / 2) (log.getD (s.log_i / 2) 0 + 1)
      else log
    let log_i := s.log_i + 2
    let in1 := skip_lines_gz m.1 (int_arg size2)
    let in2 := skip_lines_gz m.2.1 (int_arg (log.getD log_i 0))
    (true, { in1 := in1, in2 := in2, out := m.2.2,
             misc := { s.misc with line_log := log }, log_i := log_i })

/-- The loop `while (1)` of `merge_pass`. -/
def merge_pairs (unique : Int) : Nat → mergeState → mergeState
  | 0, s => s
  | fuel + 1, s =>
    match merge_pair unique s with
    | (false, s1) => s1
    | (true, s1) => merge_pairs unique fuel s1

/-- The state of `merge_pass` when it enters its loop: `in2` has skipped the first run. -/
def merge_start (in1 in2 out : gzBucket) (misc : miscBucket) : mergeState :=
  { in1 := in1, in2 := skip_lines_gz in2 (int_arg (misc.line_log.getD 0 0)), out := out,
    misc := misc, log_i := 0 }

/-- The function `merge_pass`. -/
def merge_pass (in1 in2 out : gzBucket) (misc : miscBucket) (unique : Int) : mergeState :=
  merge_pairs unique (in1.f.length + in2.f.length + 1) (merge_start in1 in2 out misc)

/-- The state of the loop of `middle_passes`: `file` is the content of `input_path`. -/
structure middleState where
  file : List Line
  misc : miscBucket
  unique : Int
  line_counter : Int
deriving DecidableEq, Repr

/-- The loop `while (misc->line_log[1] != -1)` of `middle_passes`: each pass reads the file
at `input_path` through two readers, writes `output_path`, and the written file is renamed
to `input_path`. The average that `typical_segment` computes goes into the report only and
is left out. -/
def middle_loop (junk : Line) : Nat → middleState → middleState
  | 0, s => s
  | fuel + 1, s =>
    if s.misc.line_log.getD 1 0 ≠ -1 then
      let unique := if s.misc.line_log.getD 2 0 = -1 then s.misc.unique else s.unique
      let m := merge_pass (init_gz s.file junk) (init_gz s.file junk) (init_gz [] junk)
        s.misc unique
      middle_loop junk fuel
        { file := m.out.f, misc := m.misc, unique := unique,
          line_counter := m.out.line_counter }
    else s

/-- The function `middle_passes`: `input` is the content of `input_path`. The result holds
the content of `input_path` when the function returns, the log, and `line_counter`, which
the function subtracts from `total_lines` for its report. -/
def middle_passes (input : List Line) (misc : miscBucket) (junk : Line) : middleState :=
  middle_loop junk misc.line_log.length
    { file := input, misc := misc, unique := 0, line_counter := 0 }

/-- The `misc` that `main` hands to `first_pass` in the un-threaded branch. -/
def main_misc (presort_bytes : Int) (unique : Int) : miscBucket :=
  { total_lines := 0, presort_bytes := presort_bytes, line_log := [], log_len := 0,
    unique := unique, nway := 0 }

/-- The un-threaded branch of `main` (`if (!misc.nway)`), from the content of the source
file to the content of the destination file: `first_pass`, then `middle_passes` on the
temporary file, which is renamed to the destination. `presort_bytes` is the budget after
the adjustments of `main`, `unique` the flag set by `-u`. -/
def main_unthreaded (input : List Line) (presort_bytes : Int) (unique : Int) (junk : Line) :
    List Line :=
  let r := first_pass input (main_misc presort_bytes unique) junk
  (middle_passes r.1 r.2 junk).file

/-! ## Functions used to state the properties -/

/-- The two-way merge that the loop of `merge_pass` computes on two runs: the head of the
first run is taken when `strcmp` is negative, the head of the second one otherwise. -/
def merge2 : List Line → List Line → List Line
  | [], bs => bs
  | a :: as, [] => a :: as
  | a :: as, b :: bs =>
    if strcmp a b < 0 then a :: merge2 as (b :: bs) else b :: merge2 (a :: as) bs

/-- A reader stands in a run: `str` is the line it holds (the first line of `run`, or NULL
when the run is used up), its file continues with the other lines of `run` and then `rest`,
and `subset_counter` counts the lines of `run` still in the file. -/
def RunAt (str : Option Line) (g : gzBucket) (run rest : List Line) : Prop :=
  match run with
  | [] => str = none ∧ g.f = rest ∧ g.subset_counter ≤ 0
  | x :: xs => str = some x ∧ g.f = xs ++ rest ∧ g.subset_counter = xs.length

/-- The lines `l` offered one after the other to the writing step of `merge_pass`. -/
def merge_write_all (unique : Int) (out : gzBucket) (l : List Line) : gzBucket :=
  l.foldl (merge_write unique) out

/-- The runs of the working file after one merge pass without `unique`: each pair of
adjacent runs is replaced by its two-way merge, an unpaired last run is kept. -/
def pair_runs : List (List Line) → List (List Line)
  | [] => []
  | [a] => [a]
  | a :: b :: rest => merge2 a b :: pair_runs rest

/-- No pair of runs handled together by `merge_pass` is empty: an empty pair gives two NULL
lines at the start of the pair, which is also how the loop detects the end of the log. -/
def live_pairs : List (List Line) → Prop
  | [] => True
  | [a] => a ≠ []
  | a :: b :: rest => (a ≠ [] ∨ b ≠ []) ∧ live_pairs rest

/-- The lengths of the runs, as they stand in `line_log`. -/
def run_lengths (rs : List (List Line)) : List Int := rs.map (fun r => (r.length : Int))

/-- The state of `merge_pass` at the start of a pair: `done` holds the entries already
written at the front of the log, `rs` the runs not merged yet, whose lengths follow in the
log after the cleared slots, with `pad` slots equal to `-1` after them; `in1` stands at the
first line of the first run of `rs`, `in2` at the first line of its second run. -/
structure MergeInv (rs : List (List Line)) (pad : Nat) (done : List Int) (s : mergeState) :
    Prop where
  log_i : s.log_i = 2 * done.length
  log : s.misc.line_log
    = done ++ (List.replicate done.length (-1) ++ (run_lengths rs ++ List.replicate pad (-1)))
  in1 : s.in1.f = rs.flatten
  in2 : s.in2.f = rs.tail.flatten

/-- The state of `merge_pass` at the start of a pair when the readers may stand before the
runs they should read: the log is as in `MergeInv`, and each reader has at least as many
lines left as the runs not merged yet hold for it. -/
structure MergeLog (rs : List (List Line)) (pad : Nat) (done : List Int) (s : mergeState) :
    Prop where
  log_i : s.log_i = 2 * done.length
  log : s.misc.line_log
    = done ++ (List.replicate done.length (-1) ++ (run_lengths rs ++ List.replicate pad (-1)))
  in1 : rs.flatten.length ≤ s.in1.f.length
  in2 : rs.tail.flatten.length ≤ s.in2.f.length

/-- A line source for `presort_pass`: call after call, `line_gz` returns the lines of
`view g` and then NULL, and `count` goes up by one with each line returned. -/
structure LineSource (line_gz : gzBucket → Option Line × gzBucket)
    (view : gzBucket → List Line) (count : gzBucket → Int) : Prop where
  none_view : ∀ g, (line_gz g).1 = none →
    view g = [] ∧ view (line_gz g).2 = [] ∧ count (line_gz g).2 = count g
  some_view : ∀ g l, (line_gz g).1 = some l →
    view g = l :: view (line_gz g).2 ∧ count (line_gz g).2 = count g + 1
  bound : ∀ g, (view g).length ≤ g.f.length

/-- The log of `presort_pass` when `done` holds the lengths of the runs written so far:
these entries are followed by `-1` up to slot `log_len`, and at least three slots follow
the next entry. -/
structure PresortLog (done : List Int) (s : presortState) : Prop where
  log_i : s.log_i = done.length
  log : s.misc.line_log = done ++ List.replicate (s.misc.log_len + 1 - done.length) (-1)
  room : done.length + 3 ≤ s.misc.log_len

/-- The lines of `l` that the writing step of a deduplicating pass writes when `prev` is the
string held in `out->line`: a line is written when it differs from the line written last. -/
def uniq_from (prev : Line) : List Line → List Line
  | [] => []
  | x :: xs => if strcmp x prev ≠ 0 then x :: uniq_from x xs else uniq_from prev xs

/-- The bytes the lines take in the presort buffer, each with its terminator. -/
def buffer_bytes (lines : List Line) : Int := (lines.map (fun l => (l.length : Int) + 1)).sum

/-- The live entries of a log: the slots that do not hold `-1`. -/
def live_entries (log : List Int) : List Int := log.filter (fun x => x ≠ -1)

/-- The log entries that one merge pass makes out of the entries `L`: the sum of each pair,
and an unpaired last entry as it is. -/
def pair_sums : List Int → List Int
  | [] => []
  | [a] => [a]
  | a :: b :: rest => (a + b) :: pair_sums rest

/-- The state of the loop of `merge_pass` after `k` iterations. -/
def merge_iter (unique : Int) (k : Nat) (s : mergeState) : mergeState :=
  (fun t => (merge_pair unique t).2)^[k] s

/-! ## The parallel sort: the partition of the input -/

/-- The constant `NWAY_WINDOW`: the number of consecutive lines a worker takes before it
skips to its next block. -/
def NWAY_WINDOW : Int := 1000

/-- The reader `in1` of `nway_chop_and_presort` when `presort_pass` is called: the source is
opened, `NWAY_WINDOW * thread_index` lines are skipped and the offsets are set up (`nway` is
`misc->nway`). -/
def nway_reader (input : List Line) (junk : Line) (thread_index nway : Int) : gzBucket :=
  let in1 := skip_lines_gz (init_gz input junk) (NWAY_WINDOW * thread_index)
  { in1 with subset_counter := NWAY_WINDOW, nway_lines := NWAY_WINDOW,
             nway_skips := NWAY_WINDOW * (nway - 1), line_counter := 0 }

/-- The lines that successive calls of `line_gz` return up to the first NULL: the lines that
`presort_pass` reads through `line_gz`. -/
def read_lines (line_gz : gzBucket → Option Line × gzBucket) : Nat → gzBucket → List Line
  | 0, _ => []
  | fuel + 1, g =>
    match line_gz g with
    | (none, _) => []
    | (some l, g') => l :: read_lines line_gz fuel g'

/-- The lines that worker `k` of `N` reads from the source: the calls of `nway_line_gz` on the
reader set up by `nway_chop_and_presort`. -/
def nway_lines_read (input : List Line) (junk : Line) (k N : Nat) : List Line :=
  read_lines nway_line_gz (input.length + 1) (nway_reader input junk k N)

/-- The lines of `l` that stand in a block of worker `k`, when the first line of `l` is the
line number `o` of the input: line `p` is in block `p / 1000`, and the blocks go to the
workers in turn. -/
def nway_pick (N k : Nat) : Nat → List Line → List Line
  | _, [] => []
  | o, x :: l =>
    if o / 1000 % N = k then x :: nway_pick N k (o + 1) l else nway_pick N k (o + 1) l

/-- The positions below `n` that stand in a block of worker `k`. -/
def nway_positions (N k n : Nat) : List Nat := (List.range n).filter (fun p => p / 1000 % N = k)

/-- The partition of worker `k` in the words of the specification: the lines at the input
positions `k + j*N`, every `N`-th line starting at offset `k`. -/
def every_nth_line (input : List Line) (k N : Nat) : List Line :=
  ((List.range input.length).filter (fun p => k ≤ p ∧ (p - k) % N = 0)).map
    (fun p => input.getD p [])

/-! ## The budget and the report of `main` and `middle_passes` -/

/-- The adjustments that `main` makes to `misc.presort_bytes` once the options are parsed:
`presort_bytes` is the value parsed from `-S` (or the default) and `nway` the value parsed
from `-P`. The division of C truncates toward zero. The comparison with `1e9` and the
subtraction of `0.5e9` are done in `double` by the source; they are exact for the budgets
below `2^53` that are followed here. -/
def main_presort_bytes (presort_bytes nway : Int) : Int :=
  let presort_bytes := if nway ≠ 0 then Int.tdiv presort_bytes nway else presort_bytes
  if presort_bytes < 1000000000 then Int.tdiv presort_bytes 2 else presort_bytes - 500000000

/-- The budget in the words of the specification: first `B` is replaced by `B/2` when
`B < 10^9` and by `B - 5*10^8` otherwise, then, if `N > 0`, the result is divided by `N`. -/
def spec_presort_bytes (B N : Int) : Int :=
  let B := if B < 1000000000 then B / 2 else B - 500000000
  if N > 0 then B / N else B

/-- The number that `middle_passes` prints as removed when `misc->unique` is set:
`misc->total_lines - line_counter`. -/
def removed_report (s : middleState) : Int := s.misc.total_lines - s.line_counter

/-! ## The parallel sort: the heap and the N-way merge -/

/-- The constant `MAX_THREADS`. -/
def MAX_THREADS : Nat := 64

/-- A non-NULL `char*` as `nway_merge_pass` handles it: `src` names the memory it points
into (the index `i` of the reader `nway_table[i].g` whose buffers hold the line, any other
number for a pointer that comes from none of the readers) and `str` is the C string found
there. A reader has one line in the array `strs` at a time, so two pointers into the same
reader that are compared are the same pointer. -/
structure strRef where
  src : Nat
  str : Line
deriving DecidableEq, Repr

/-- The call `strcmp(a, b)` on two pointers: `none` stands for the undefined behaviour of a
call on a NULL pointer. -/
def strcmp_ptr (a b : Option strRef) : Option Int :=
  match a, b with
  | some x, some y => some (strcmp x.str y.str)
  | _, _ => none

/-- The macro `heap_parent`. -/
def heap_parent (x : Nat) : Nat := (x - 1) / 2

/-- The macro `heap_child1`. -/
def heap_child1 (x : Nat) : Nat := x * 2 + 1

/-- The macro `heap_child2`. -/
def heap_child2 (x : Nat) : Nat := x * 2 + 2

/-- The loop `while (c > 0)` of `heap_add`. The list `heap` is the memory from `heap[0]` on,
`none` is NULL; a slot past the end of the list reads as NULL. -/
def heap_add_loop (str : Option strRef) :
    Nat → List (Option strRef) → Nat → Option (List (Option strRef))
  | 0, heap, _ => some heap
  | fuel + 1, heap, c =>
    if c > 0 then
      match strcmp_ptr (heap.getD (heap_parent c) none) str with
      | none => none
      | some cmp =>
        if cmp ≤ 0 then some heap
        else
          heap_add_loop str fuel
            ((heap.set c (heap.getD (heap_parent c) none)).set (heap_parent c) str)
            (heap_parent c)
    else some heap

/-- The function `heap_add`: `none` when it calls `strcmp` on a NULL pointer. -/
def heap_add (heap : List (Option strRef)) (str : Option strRef) (heap_tail : Nat) :
    Option (List (Option strRef)) :=
  heap_add_loop str (heap_tail + 1) (heap.set heap_tail str) heap_tail

/-- The loop `while (p < heap_tail)` of `heap_pop`. -/
def heap_pop_loop (last : Option strRef) (heap_tail : Nat) :
    Nat → List (Option strRef) → Nat → Option (List (Option strRef))
  | 0, heap, _ => some heap
  | fuel + 1, heap, p =>
    if p < heap_tail then
      let c1 := if heap.getD (heap_child1 p) none = none then p else heap_child1 p
      let c2 := if heap.getD (heap_child2 p) none = none then p else heap_child2 p
      match strcmp_ptr (heap.getD c1 none) (heap.getD c2 none) with
      | none => none
      | some cmp12 =>
        let c := if cmp12 > 0 then c2 else c1
        match strcmp_ptr (heap.getD p none) (heap.getD c none) with
        | none => none
        | some cmp =>
          if cmp ≤ 0 then some heap
          else heap_pop_loop last heap_tail fuel ((heap.set p (heap.getD c none)).set c last) c
    else some heap

/-- The function `heap_pop`: `none` when it calls `strcmp` on a NULL pointer or reads
`heap[-1]`. -/
def heap_pop (heap : List (Option strRef)) (heap_tail : Nat) :
    Option (List (Option strRef)) :=
  if heap_tail = 0 then none
  else
    let last := heap.getD (heap_tail - 1) none
    let heap := (heap.set 0 last).set (heap_tail - 1) none
    if heap_tail = 1 then some heap
    else heap_pop_loop last heap_tail (heap_tail + 1) heap 0

/-- A reader of `nway_merge_pass`: the bucket `*nway_table[i].g` at line level, and its
field `str`, the pointer that the last successful `load_line_gz` on it returned. Before the
first line `str` holds no defined value; it is taken to differ from every pointer in
`strs`. -/
structure nwayReader where
  g : gzBucket
  str : Option strRef
deriving DecidableEq, Repr

/-- The call `load_line_gz(nway_table[i].g)` with the pointer it returns. -/
def load_line_ptr (i : Nat) (r : nwayReader) : Option strRef × nwayReader :=
  match load_line_gz r.g with
  | (none, g) => (none, { g := g, str := r.str })
  | (some l, g) => (some { src := i, str := l }, { g := g, str := some { src := i, str := l } })

/-- The state of `nway_merge_pass`. -/
structure nwayState where
  strs : List (Option strRef)
  heap_tail : Nat
  table : List nwayReader
  out : gzBucket
deriving DecidableEq, Repr

/-- The loop `for (i=0; i<count; i++) heap_add(strs, load_line_gz(nway_table[i].g),
heap_tail++)`: `n` is the number of readers left and `i` the index. -/
def nway_seed : Nat → Nat → nwayState → Option nwayState
  | 0, _, s => some s
  | n + 1, i, s =>
    match s.table.get? i with
    | none => none
    | some r =>
      match heap_add s.strs (load_line_ptr i r).1 s.heap_tail with
      | none => none
      | some strs =>
        nway_seed n (i + 1)
          { s with strs := strs, heap_tail := s.heap_tail + 1,
                   table := s.table.set i (load_line_ptr i r).2 }

/-- The writing step of `nway_merge_pass`. Without `unique` the line is written (and not
counted); with `unique` it is written, remembered in `out.line` and counted when it differs
from `out.line`. -/
def nway_write (unique : Int) (out : gzBucket) (str : Line) : gzBucket :=
  if unique = 0 then { out with f := out.f ++ [str] }
  else if strcmp str out.line ≠ 0 then
    { out with f := out.f ++ [str], line := str, line_counter := out.line_counter + 1 }
  else out

/-- The search `for (i=0; i<count; i++) if (strs[0] != nway_table[i].g->str) continue;`:
the first index at or after `i` whose reader holds the pointer `strs0`, among the `n`
readers left. -/
def nway_find (strs0 : Option strRef) (table : List nwayReader) : Nat → Nat → Option Nat
  | 0, _ => none
  | n + 1, i =>
    match table.get? i with
    | none => none
    | some r => if strs0 ≠ r.str then nway_find strs0 table n (i + 1) else some i

/-- The body of the loop `while (strs[0] != NULL)` of `nway_merge_pass`, entered with
`strs[0]` equal to `r`. -/
def nway_step (count : Nat) (unique : Int) (s : nwayState) (r : strRef) : Option nwayState :=
  let out := nway_write unique s.out r.str
  match nway_find (some r) s.table count 0 with
  | none => some { s with out := out }
  | some i =>
    match heap_pop s.strs s.heap_tail, s.table.get? i with
    | some strs, some rd =>
      match (load_line_ptr i rd).1 with
      | none =>
        some { strs := strs, heap_tail := s.heap_tail - 1,
               table := s.table.set i (load_line_ptr i rd).2, out := out }
      | some str =>
        match heap_add strs (some str) (s.heap_tail - 1) with
        | none => none
        | some strs2 =>
          some { strs := strs2, heap_tail := s.heap_tail - 1 + 1,
                 table := s.table.set i (load_line_ptr i rd).2, out := out }
    | _, _ => none

/-- The loop `while (strs[0] != NULL)` of `nway_merge_pass`. -/
def nway_loop (count : Nat) (unique : Int) : Nat → nwayState → Option nwayState
  | 0, s => some s
  | fuel + 1, s =>
    match s.strs.getD 0 none with
    | none => some s
    | some r =>
      match nway_step count unique s r with
      | none => none
      | some s1 => nway_loop count unique fuel s1

/-- The state of `nway_merge_pass` when the files are open and `strs[0 .. MAX_THREADS-1]` is
cleared: `files` holds the contents of the files `nway_table[i].out_path`, and `beyond` the
values found in the memory from `strs[MAX_THREADS]` on, which the function does not
initialise (slot `MAX_THREADS` is the last slot of the array). -/
def nway_start (files : List (List Line)) (junk : Line) (beyond : List (Option strRef)) :
    nwayState :=
  { strs := List.replicate MAX_THREADS none ++ beyond, heap_tail := 0,
    table := files.map (fun f => { g := init_gz f junk, str := none }),
    out := init_gz [] junk }

/-- The function `nway_merge_pass`, from the contents of the `count` sorted files to the
state in which it leaves its loop (`out.f` is the content of the destination file); `none`
when the run meets undefined behaviour. The loop is given as many iterations as the files
have lines, and one more: it has ended when `strs[0]` is NULL in the state returned. -/
def nway_merge_pass (files : List (List Line)) (unique : Int) (junk : Line)
    (beyond : List (Option strRef)) : Option nwayState :=
  match nway_seed files.length 0 (nway_start files junk beyond) with
  | none => none
  | some s => nway_loop files.length unique (files.flatten.length + 1) s

/-- The string a slot of `strs` points to (the empty string for a NULL slot). -/
def slot_key (a : Option strRef) : Line :=
  match a with
  | some x => x.str
  | none => []

/-- The slots `0 .. t-1` of the heap array. -/
def heap_entries (heap : List (Option strRef)) (t : Nat) : List (Option strRef) :=
  (List.range t).map (fun i => heap.getD i none)

/-- The heap array invariant of `nway_merge_pass`: the slots below `heap_tail = t` hold
pointers in min-heap order (each parent at most its children under `strcmp`), and the slots
from `t` up to `cap` hold NULL. -/
structure HeapOK (heap : List (Option strRef)) (t cap : Nat) : Prop where
  len : cap ≤ heap.length
  full : ∀ i, i < t → heap.getD i none ≠ none
  clear : ∀ i, t ≤ i → i < cap → heap.getD i none = none
  order : ∀ i, 0 < i → i < t →
    strcmp (slot_key (heap.getD (heap_parent i) none)) (slot_key (heap.getD i none)) ≤ 0

/-- The pointers that the readers of `nway_merge_pass` have in the heap when `P` holds, for
each reader from number `o` on, the lines it has not seen written yet: one pointer to the
first line of each list that is not empty. -/
def nway_heads : Nat → List (List Line) → List (Option strRef)
  | _, [] => []
  | o, [] :: P => nway_heads (o + 1) P
  | o, (l :: _) :: P => some { src := o, str := l } :: nway_heads (o + 1) P

/-- The lines `l` offered one after the other to the writing step of `nway_merge_pass`. -/
def nway_write_all (unique : Int) (out : gzBucket) (l : List Line) : gzBucket :=
  l.foldl (nway_write unique) out

/-- The state of `nway_merge_pass` in its loop, when `P` holds for each reader the lines of
its file not written yet: the heap holds one pointer to the first line of each reader that
has one, each reader stands after that line and remembers the pointer in `str`. -/
structure NwayInv (P : List (List Line)) (cap : Nat) (s : nwayState) : Prop where
  len : s.table.length = P.length
  heap : HeapOK s.strs s.heap_tail cap
  entries : (heap_entries s.strs s.heap_tail).Perm (nway_heads 0 P)
  file : ∀ i rd, s.table.get? i = some rd → rd.g.f = (P.getD i []).tail
  cur : ∀ i rd l rest, s.table.get? i = some rd → P.getD i [] = l :: rest →
    rd.str = some { src := i, str := l }
  src : ∀ i rd x, s.table.get? i = some rd → rd.str = some x → x.src = i
  sorted : ∀ p ∈ P, p.Sorted LineLE

/-! ## The parallel sort: the workers and `main` -/

/-- The function `nway_chop_and_presort` of worker `thread_index`: `input` is the content of
the source file; the result is the content written to the temporary file and the updated
`misc`. -/
def nway_chop_and_presort (input : List Line) (junk : Line) (thread_index : Int)
    (misc : miscBucket) : List Line × miscBucket :=
  let in1 := nway_reader input junk thread_index misc.nway
  let out := init_gz [] junk
  let misc := { misc with log_len := 1024, line_log := List.replicate (1024 + 1) 0 }
  let r := presort_pass in1 out misc nway_line_gz
  (r.2.1.f, { r.2.2 with total_lines := r.2.1.line_counter })

/-- The function `sort_thread_fn`: the content of the file `out_path` of the worker when the
thread ends (`nway_chop_and_presort`, then `middle_passes` on the temporary file, which is
renamed to `out_path`). -/
def sort_thread_fn (input : List Line) (junk : Line) (thread_index : Int)
    (misc : miscBucket) : List Line :=
  let r := nway_chop_and_presort input junk thread_index { misc with total_lines := 0 }
  (middle_passes r.1 r.2 junk).file

/-- The `misc` of a worker as `main` sets it up: `main` stores `nway` and `presort_bytes` in
`nway_table[i].misc` and nothing else, so `unique` is what the stack held at that place
(`stale_unique`); the log is allocated by `nway_chop_and_presort`. -/
def thread_misc (presort_bytes nway stale_unique : Int) : miscBucket :=
  { total_lines := 0, presort_bytes := presort_bytes, line_log := [], log_len := 0,
    unique := stale_unique, nway := nway }

/-- The threaded branch of `main` with `nway` workers (the value of `-P`, which `main` limits
to `MAX_THREADS`), from the content of the source file to the final state of
`nway_merge_pass` (`none` for undefined behaviour). The workers share no
state and `main` joins them all before the merge, so they are run one after the other.
`presort_bytes` is the budget after the adjustments of `main`, `unique` the flag set by `-u`,
`stale i` the value found in the field `unique` of worker `i`, and `beyond` the memory from
`strs[MAX_THREADS]` on. -/
def main_threaded (input : List Line) (presort_bytes unique : Int) (nway : Nat) (junk : Line)
    (stale : Nat → Int) (beyond : List (Option strRef)) : Option nwayState :=
  nway_merge_pass
    ((List.range nway).map
      (fun (i : Nat) =>
        sort_thread_fn input junk (i : Int) (thread_misc presort_bytes (nway : Int) (stale i))))
    unique junk beyond

/-! ## The copies into the presort buffer -/

/-- One call `strcpy(buffer+buf_i, str1)` of `presort_pass`: the value of `buf_i` at the
call and the line copied. The call writes the `str1.length + 1` bytes of the line and its
terminator from offset `buf_i` on, and `buf_i` is `buf_i + str1.length + 1` after it. -/
structure bufferCopy where
  buf_i : Int
  str1 : Line
deriving DecidableEq, Repr

/-- The calls of `strcpy` in the inner loop `while (!eob)` of `presort_pass`, in the order in
which they are made: the loop of `presort_fill`, with each copy listed in place of the line
added to `strings`. -/
def presort_fill_copies (line_gz : gzBucket → Option Line × gzBucket) (presort_bytes : Int) :
    Nat → gzBucket → Int → List bufferCopy
  | 0, _, _ => []
  | fuel + 1, in1, buf_i =>
    match line_gz in1 with
    | (none, _) => []
    | (some str1, in1') =>
      if buf_i + str1.length + 1 ≥ presort_bytes then []
      else
        { buf_i := buf_i, str1 := str1 } ::
          presort_fill_copies line_gz presort_bytes fuel in1' (buf_i + str1.length + 1)

/-- The calls of `strcpy` in the outer loop `while (!eof)` of `presort_pass`: in each
iteration the copies of the inner loop and then, when a line `str1` is left over, the copy
of that line to the start of the buffer, made after `buf_i = 0`. The states are those of
`presort_loop`. -/
def presort_loop_copies (line_gz : gzBucket → Option Line × gzBucket) :
    Nat → presortState → List bufferCopy
  | 0, _ => []
  | fuel + 1, s =>
    let r := presort_fill line_gz s.misc.presort_bytes (s.in1.f.length + 1)
      s.in1 s.buf_i s.strings
    let copies := presort_fill_copies line_gz s.misc.presort_bytes (s.in1.f.length + 1)
      s.in1 s.buf_i
    let s1 := presort_flush { s with in1 := r.2.1, buf_i := r.2.2.1, strings := r.2.2.2 }
    match r.1 with
    | none => copies
    | some str1 =>
      copies ++ { buf_i := s1.buf_i, str1 := str1 } ::
        presort_loop_copies line_gz fuel { s1 with buf_i := str1.length + 1, strings := [str1] }

/-- The calls of `strcpy` that `presort_pass` makes, from the first to the last. The
buffer they write to is `buffer = malloc(presort_bytes+1)`. -/
def presort_pass_copies (in1 out : gzBucket) (misc : miscBucket)
    (line_gz : gzBucket → Option Line × gzBucket) : List bufferCopy :=
  let in1 := { in1 with line_counter := 0 }
  let misc := { misc with line_log := clear_log (misc.log_len + 1) misc.line_log 0 }
  presort_loop_copies line_gz (in1.f.length + 1)
    { in1 := in1, out := out, misc := misc, log_i := 0, buf_i := 0, strings := [] }

/-- The calls of `strcpy` in the run of `presort_pass` that `first_pass` makes. -/
def first_pass_copies (input : List Line) (misc : miscBucket) (junk : Line) :
    List bufferCopy :=
  let in1 := init_gz input junk
  let out := init_gz [] junk
  let in1 := { in1 with line_counter := 0 }
  let misc := { misc with log_len := 1024, line_log := List.replicate (1024 + 1) 0 }
  presort_pass_copies in1 out misc load_line_gz

/-- Every copy of the list stays within `buffer = malloc(presort_bytes+1)`: it starts at an
offset that is not negative and ends, terminator included, at most `presort_bytes + 1`
bytes from the start. A run of `presort_pass` with a copy that does not fit writes past
the end of the allocation; what the program does from there on is not defined, and the
state that `presort_loop` gives for such a run says nothing of it. -/
def copies_fit (presort_bytes : Int) (copies : List bufferCopy) : Prop :=
  ∀ c ∈ copies, 0 ≤ c.buf_i ∧ c.buf_i + c.str1.length + 1 ≤ presort_bytes + 1

/-! ## The slots that `heap_pop` reads -/

/-- The indices of the slots of `heap` that the loop `while (p < heap_tail)` of `heap_pop`
reads, in the order of the reads. In an iteration at `p` these are `heap_child1(p)` and
`heap_child2(p)` (the two tests against NULL), `c1` and `c2` (the first `strcmp`), `p` and
`c` (the second `strcmp`) and `c` again (in `heap[p] = heap[c]`). The list ends where the
loop of `heap_pop_loop` ends, or with the call of `strcmp` on NULL. -/
def heap_pop_loop_reads (last : Option strRef) (heap_tail : Nat) :
    Nat → List (Option strRef) → Nat → List Nat
  | 0, _, _ => []
  | fuel + 1, heap, p =>
    if p < heap_tail then
      let c1 := if heap.getD (heap_child1 p) none = none then p else heap_child1 p
      let c2 := if heap.getD (heap_child2 p) none = none then p else heap_child2 p
      match strcmp_ptr (heap.getD c1 none) (heap.getD c2 none) with
      | none => [heap_child1 p, heap_child2 p, c1, c2]
      | some cmp12 =>
        let c := if cmp12 > 0 then c2 else c1
        match strcmp_ptr (heap.getD p none) (heap.getD c none) with
        | none => [heap_child1 p, heap_child2 p, c1, c2, p, c]
        | some cmp =>
          if cmp ≤ 0 then [heap_child1 p, heap_child2 p, c1, c2, p, c]
          else
            [heap_child1 p, heap_child2 p, c1, c2, p, c, c] ++
              heap_pop_loop_reads last heap_tail fuel
                ((heap.set p (heap.getD c none)).set c last) c
    else []

/-- The indices of the slots that `heap_pop(heap, heap_tail)` reads: slot `heap_tail - 1`
and then the slots read by the loop, which runs when `heap_tail` is not 1. For
`heap_tail = 0` the only read is that of `heap[-1]`, which has no index here. -/
def heap_pop_reads (heap : List (Option strRef)) (heap_tail : Nat) : List Nat :=
  if heap_tail = 0 then []
  else
    let last := heap.getD (heap_tail - 1) none
    let heap := (heap.set 0 last).set (heap_tail - 1) none
    if heap_tail = 1 then [heap_tail - 1]
    else (heap_tail - 1) :: heap_pop_loop_reads last heap_tail (heap_tail + 1) heap 0

/-! ## The byte-level reader -/

namespace Raw

/-- The constant `CHUNK`: the size of a read. -/
def CHUNK : Nat := 16384

/-- The constant `LINE_START`: the first capacity of the spill-over buffer `line`. -/
def LINE_START : Nat := 1024

/-- The fields of `gzBucket` that `load_line_gz` uses, byte by byte. `f` holds the
uncompressed bytes that `gzread` has not delivered yet; `buffer` is the array of `CHUNK + 1`
bytes; `line` holds the bytes of the spill-over buffer below `line_i` (the bytes above
`line_i` are never read before they are written again). -/
structure gzBucket where
  f : List Nat
  read_len : Nat
  buffer : List Nat
  buf_i : Nat
  line : List Nat
  line_len : Nat
  line_i : Nat
  line_counter : Int
deriving DecidableEq, Repr

/-- The call `gzread(g->f, &g->buffer, CHUNK)` with its result stored in `read_len`: up to
`CHUNK` bytes of the stream overwrite the start of `buffer`, the other bytes of `buffer`
keep their value. Fewer than `CHUNK` bytes are delivered only at the end of the stream. -/
def gzread (g : gzBucket) : gzBucket :=
  { g with
    f := g.f.drop CHUNK,
    buffer := g.f.take CHUNK ++ g.buffer.drop (g.f.take CHUNK).length,
    read_len := (g.f.take CHUNK).length }

/-- The function `init_gz` for a file opened for reading: `file` is the uncompressed content
and `stack` the bytes that `buffer`, which `init_gz` does not initialise, holds before the
first read. -/
def init_gz (file : List Nat) (stack : List Nat) : gzBucket :=
  gzread
    { f := file, read_len := 0, buffer := stack, buf_i := 0, line := [],
      line_len := LINE_START, line_i := 0, line_counter := 0 }

/-- The loop `while (g->line_i + length >= g->line_len) g->line_len *= 2` of
`append_line_gz`. -/
def grow_line (line_i length : Nat) : Nat → Nat → Nat
  | 0, line_len => line_len
  | fuel + 1, line_len =>
    if line_i + length ≥ line_len then grow_line line_i length fuel (line_len * 2)
    else line_len

/-- The function `append_line_gz`: `str` holds the `length` bytes to copy. -/
def append_line_gz (g : gzBucket) (str : List Nat) : gzBucket :=
  { g with
    line_len := grow_line g.line_i str.length (g.line_i + str.length + 1) g.line_len,
    line := g.line.take g.line_i ++ str,
    line_i := g.line_i + str.length }

/-- The loop `for (i=g->buf_i; i<CHUNK; i++)` of `load_line_gz`, up to its `break`: the
index of the first newline at or after `i`, or `CHUNK` when there is none below `CHUNK`. -/
def scan (buffer : List Nat) : Nat → Nat → Nat
  | 0, i => i
  | fuel + 1, i =>
    if i < CHUNK then
      if buffer.getD i 0 = 10 then i else scan buffer fuel (i + 1)
    else i

/-- The start of the body of the `while` loop of `load_line_gz`: out of buffer, load
more. -/
def load_fill (g : gzBucket) : gzBucket :=
  if g.buf_i ≥ g.read_len then { gzread g with buf_i := 0 } else g

/-- The rest of the body of the `while` loop of `load_line_gz`: the scan for a newline,
which is overwritten by NUL, and the three cases. The result is the C string `found` (or
`none` for NULL) and the new state. -/
def load_scan (g : gzBucket) : Option (List Nat) × gzBucket :=
  let i := scan g.buffer CHUNK g.buf_i
  if i = CHUNK then
    (none, { append_line_gz g ((g.buffer.drop g.buf_i).take (i - g.buf_i)) with
             buf_i := i + 1 })
  else
    let g := { g with buffer := g.buffer.set i 0, line_counter := g.line_counter + 1 }
    if g.line_i ≠ 0 then
      let g := append_line_gz g ((g.buffer.drop g.buf_i).take (i + 1 - g.buf_i))
      (some (g.line.takeWhile (fun b => b ≠ 0)), { g with line_i := 0, buf_i := i + 1 })
    else
      (some ((g.buffer.drop g.buf_i).takeWhile (fun b => b ≠ 0)), { g with buf_i := i + 1 })

/-- The loop `while (g->read_len)` of `load_line_gz`. -/
def load_loop : Nat → gzBucket → Option (List Nat) × gzBucket
  | 0, g => (none, g)
  | fuel + 1, g =>
    if g.read_len = 0 then (none, g)
    else
      match load_scan (load_fill g) with
      | (some found, g') => (some found, g')
      | (none, g') => load_loop fuel g'

/-- The function `load_line_gz`, byte by byte: the next line as a C string, or `none`
(NULL). -/
def load_line_gz (g : gzBucket) : Option (List Nat) × gzBucket :=
  load_loop (g.f.length + 2) g

/-- The results of `n` successive calls of `load_line_gz`. -/
def load_calls : Nat → gzBucket → List (Option (List Nat))
  | 0, _ => []
  | n + 1, g => (load_line_gz g).1 :: load_calls n (load_line_gz g).2

/-- The byte stream made of the lines `ls`, each followed by a newline. -/
def stream_of (ls : List (List Nat)) : List Nat := (ls.map (fun l => l ++ [10])).flatten


/-- No byte of `l` is a newline. -/
def NoNL (l : List Nat) : Prop := ∀ b ∈ l, b ≠ 10

/-- No byte of `l` is NUL. -/
def NoNul (l : List Nat) : Prop := ∀ b ∈ l, b ≠ 0

instance (l : List Nat) : Decidable (NoNL l) :=
  inferInstanceAs (Decidable (∀ b ∈ l, b ≠ 10))

instance (l : List Nat) : Decidable (NoNul l) :=
  inferInstanceAs (Decidable (∀ b ∈ l, b ≠ 0))

/-- The reader holds the unread bytes `D` in its buffer: they stand between `buf_i` and
`read_len`, no newline is left before them (each was overwritten by NUL) and none after
them below `CHUNK` (in the bytes that the last read did not overwrite). -/
def HasData (g : gzBucket) (D : List Nat) : Prop :=
  ∃ pre post, g.buffer = pre ++ (D ++ post) ∧ pre.length = g.buf_i ∧
    g.buf_i + D.length = g.read_len ∧ g.read_len ≤ CHUNK ∧ NoNL pre ∧
    NoNL (post.take (CHUNK - g.read_len)) ∧
    g.buffer.length = CHUNK + 1 ∧ (g.f ≠ [] → g.read_len = CHUNK)

/-- The reader has used up its buffer, and the buffer holds no newline below `CHUNK`. -/
def NeedRead (g : gzBucket) : Prop :=
  g.read_len ≤ g.buf_i ∧ NoNL (g.buffer.take CHUNK) ∧ g.buffer.length = CHUNK + 1 ∧
    g.read_len ≤ CHUNK ∧ (g.f ≠ [] → g.read_len = CHUNK)

/-- The reader stands in front of the bytes `D ++ g.f`: either `D` is not empty and lies
unread in the buffer, or the buffer is used up. -/
def Ready (g : gzBucket) (D : List Nat) : Prop :=
  (D ≠ [] ∧ HasData g D) ∨ (D = [] ∧ NeedRead g)

end Raw

/-! ## The order given by `strcmp` -/

theorem strcmp_self (a : Line) : strcmp a a = 0 := by
  induction a with
  | nil => rfl
  | cons x xs ih => simp [strcmp, ih]

theorem strcmp_eq_zero {a b : Line} (h : strcmp a b = 0) : a = b := by
  induction a generalizing b with
  | nil => cases b with
    | nil => rfl
    | cons y ys => simp [strcmp] at h
  | cons x xs ih => cases b with
    | nil => simp [strcmp] at h
    | cons y ys =>
      simp only [strcmp] at h
      split at h
      · omega
      · split at h
        · omega
        · have hxy : x = y := by omega
          rw [hxy, ih h]

theorem strcmp_eq_zero_iff (a b : Line) : strcmp a b = 0 ↔ a = b :=
  ⟨strcmp_eq_zero, fun h => h ▸ strcmp_self a⟩

theorem strcmp_swap (a b : Line) : strcmp b a = - strcmp a b := by
  induction a generalizing b with
  | nil => cases b <;> simp [strcmp]
  | cons x xs ih => cases b with
    | nil => simp [strcmp]
    | cons y ys =>
      simp only [strcmp]
      by_cases h1 : x < y
      · have h2 : ¬ y < x := by omega
        simp [h1, h2]
      · by_cases h2 : y < x
        · simp [h1, h2]
        · simp [h1, h2, ih]

theorem strcmp_trans {a b c : Line} (h1 : strcmp a b ≤ 0) (h2 : strcmp b c ≤ 0) :
    strcmp a c ≤ 0 := by
  induction a generalizing b c with
  | nil => cases c <;> simp [strcmp]
  | cons x xs ih => cases b with
    | nil => simp [strcmp] at h1
    | cons y ys => cases c with
      | nil => simp [strcmp] at h2
      | cons z zs =>
        simp only [strcmp] at h1 h2 ⊢
        by_cases hxy : x < y
        · have : x < z := by
            by_contra hxz
            by_cases hyz : y < z
            · omega
            · simp only [hyz, if_false] at h2
              by_cases hzy : z < y
              · simp [hzy] at h2
              · omega
          simp [this]
        · simp only [hxy, if_false] at h1
          by_cases hyx : y < x
          · simp [hyx] at h1
          · simp only [hyx, if_false] at h1
            have exy : x = y := by omega
            subst exy
            by_cases hxz : x < z
            · simp [hxz]
            · simp only [hxz, if_false] at h2 ⊢
              by_cases hzx : z < x
              · simp [hzx] at h2
              · simp only [hzx, if_false] at h2 ⊢
                exact ih h1 h2

instance : IsTotal Line LineLE := ⟨fun a b => by
  unfold LineLE
  have := strcmp_swap a b
  omega⟩

instance : IsTrans Line LineLE := ⟨fun _ _ _ h1 h2 => strcmp_trans h1 h2⟩

instance : IsAntisymm Line LineLE := ⟨fun a b h1 h2 => by
  unfold LineLE at h1 h2
  have := strcmp_swap a b
  exact strcmp_eq_zero (by omega)⟩

theorem qsort_sorted (l : List Line) : (qsort l).Sorted LineLE :=
  List.sorted_insertionSort LineLE l

theorem qsort_perm (l : List Line) : (qsort l).Perm l :=
  List.perm_insertionSort LineLE l

theorem merge2_perm (as bs : List Line) : (merge2 as bs).Perm (as ++ bs) := by
  induction as generalizing bs with
  | nil => simp [merge2]
  | cons a as iha =>
    induction bs with
    | nil => simp [merge2]
    | cons b bs ihb =>
      simp only [merge2]
      split
      · exact (iha (b :: bs)).cons a
      · exact (ihb.cons b).trans (List.perm_middle.symm)

theorem merge2_sorted {as bs : List Line} (ha : as.Sorted LineLE) (hb : bs.Sorted LineLE) :
    (merge2 as bs).Sorted LineLE := by
  induction as generalizing bs with
  | nil => simpa [merge2] using hb
  | cons a as iha =>
    induction bs with
    | nil => simpa [merge2] using ha
    | cons b bs ihb =>
      simp only [merge2]
      have ha' := List.sorted_cons.mp ha
      have hb' := List.sorted_cons.mp hb
      split
      · rename_i hlt
        refine List.sorted_cons.mpr ⟨?_, iha ha'.2 hb⟩
        intro c hc
        rcases List.mem_append.mp ((merge2_perm as (b :: bs)).subset hc) with h | h
        · exact ha'.1 c h
        · have hab : LineLE a b := by unfold LineLE; omega
          rcases List.mem_cons.mp h with h | h
          · exact h ▸ hab
          · exact strcmp_trans hab (hb'.1 c h)
      · rename_i hlt
        refine List.sorted_cons.mpr ⟨?_, ihb hb'.2⟩
        intro c hc
        have hba : LineLE b a := by
          unfold LineLE
          have := strcmp_swap a b
          omega
        rcases List.mem_append.mp ((merge2_perm (a :: as) bs).subset hc) with h | h
        · rcases List.mem_cons.mp h with h | h
          · exact h ▸ hba
          · exact strcmp_trans hba (ha'.1 c h)
        · exact hb'.1 c h

/-! ## Readers and the merge loop -/

theorem subset_lines_gz_runAt {g : gzBucket} {run rest : List Line}
    (hf : g.f = run ++ rest)
    (hc : g.subset_counter = run.length ∨ (run = [] ∧ g.subset_counter ≤ 0)) :
    RunAt (subset_lines_gz g).1 (subset_lines_gz g).2 run rest := by
  cases run with
  | nil =>
    have h0 : g.subset_counter ≤ 0 := by
      rcases hc with h | h
      · simp at h; omega
      · exact h.2
    simp [RunAt, subset_lines_gz, h0]
    simpa using hf
  | cons x xs =>
    have h1 : g.subset_counter = (xs.length : Int) + 1 := by
      rcases hc with h | h
      · simpa using h
      · simp at h
    have h0 : ¬ ((xs.length : Int) + 1 ≤ 0) := by omega
    simp [RunAt, subset_lines_gz, h0, load_line_gz, hf, h1]

theorem subset_lines_gz_runAt_tail {g : gzBucket} {xs rest : List Line}
    (hf : g.f = xs ++ rest) (hc : g.subset_counter = xs.length) :
    RunAt (subset_lines_gz g).1 (subset_lines_gz g).2 xs rest :=
  subset_lines_gz_runAt hf (Or.inl hc)

theorem merge2_nil_right (a : List Line) : merge2 a [] = a := by
  cases a <;> simp [merge2]

theorem merge_loop_spec (unique : Int) (X Y : List Line) :
    ∀ (fuel : Nat) (a b : List Line), a.length + b.length ≤ fuel →
    ∀ (str1 str2 : Option Line) (in1 in2 out : gzBucket),
      RunAt str1 in1 a X → RunAt str2 in2 b Y →
      (merge_loop unique fuel str1 str2 in1 in2 out).1.f = X ∧
      (merge_loop unique fuel str1 str2 in1 in2 out).2.1.f = Y ∧
      (merge_loop unique fuel str1 str2 in1 in2 out).2.2
        = merge_write_all unique out (merge2 a b) := by
  intro fuel
  induction fuel with
  | zero =>
    intro a b hlen str1 str2 in1 in2 out h1 h2
    have ha : a = [] := List.length_eq_zero.mp (by omega)
    have hb : b = [] := List.length_eq_zero.mp (by omega)
    subst ha hb
    exact ⟨h1.2.1, h2.2.1, by simp [merge_loop, merge2, merge_write_all]⟩
  | succ n ih =>
    intro a b hlen str1 str2 in1 in2 out h1 h2
    cases a with
    | nil =>
      obtain ⟨rfl, hf1, _⟩ := h1
      cases b with
      | nil =>
        obtain ⟨rfl, hf2, _⟩ := h2
        simp [merge_loop, merge2, merge_write_all, hf1, hf2]
      | cons y ys =>
        obtain ⟨rfl, hf2, hc2⟩ := h2
        have hr := subset_lines_gz_runAt_tail hf2 hc2
        have := ih [] ys (by simp at hlen ⊢; omega) none _ in1 _ (merge_write unique out y)
          ⟨rfl, hf1, by assumption⟩ hr
        simpa [merge_loop, merge2, merge_write_all] using this
    | cons x xs =>
      obtain ⟨rfl, hf1, hc1⟩ := h1
      have hr1 := subset_lines_gz_runAt_tail hf1 hc1
      cases b with
      | nil =>
        obtain ⟨rfl, hf2, hc2⟩ := h2
        have := ih xs [] (by simp at hlen ⊢; omega) _ none _ in2 (merge_write unique out x)
          hr1 ⟨rfl, hf2, hc2⟩
        simpa [merge_loop, merge2, merge2_nil_right, merge_write_all] using this
      | cons y ys =>
        obtain ⟨rfl, hf2, hc2⟩ := h2
        have hr2 := subset_lines_gz_runAt_tail hf2 hc2
        by_cases hlt : strcmp x y < 0
        · have := ih xs (y :: ys) (by simp at hlen ⊢; omega) _ (some y) _ in2
            (merge_write unique out x) hr1 ⟨rfl, hf2, hc2⟩
          simpa [merge_loop, merge2, merge_write_all, hlt] using this
        · have := ih (x :: xs) ys (by simp at hlen ⊢; omega) (some x) _ in1 _
            (merge_write unique out y) ⟨rfl, hf1, hc1⟩ hr2
          simpa [merge_loop, merge2, merge_write_all, hlt] using this

theorem merge_write_all_zero (out : gzBucket) (l : List Line) :
    merge_write_all 0 out l =
      { out with f := out.f ++ l, line_counter := out.line_counter + l.length } := by
  induction l generalizing out with
  | nil => simp [merge_write_all]
  | cons x xs ih =>
    have := ih (merge_write 0 out x)
    simp only [merge_write_all, List.foldl_cons] at this ⊢
    rw [this]
    simp [merge_write]
    omega

theorem skip_loop_f (n : Nat) (g : gzBucket) : (skip_loop n g).f = g.f.drop n := by
  induction n generalizing g with
  | zero => simp [skip_loop]
  | succ k ih =>
    simp only [skip_loop, ih]
    cases hg : g.f with
    | nil => simp [load_line_gz, hg]
    | cons l ls => simp [load_line_gz, hg]

theorem skip_lines_gz_f (g : gzBucket) (skip : Int) :
    (skip_lines_gz g skip).f = g.f.drop skip.toNat := skip_loop_f _ g

/-! ## One merge pass -/

theorem log_read (done : List Int) (k j : Nat) (hk : done.length = k) (tl : List Int) :
    (done ++ (List.replicate k (-1) ++ tl)).getD (2 * k + j) 0 = tl.getD j 0 := by
  rw [List.getD_append_right _ _ _ _ (by omega), List.getD_append_right _ _ _ _ (by simp; omega)]
  congr 1
  simp; omega

theorem set_append_add {α : Type} (s t : List α) (j : Nat) (x : α) :
    (s ++ t).set (s.length + j) x = s ++ t.set j x := by
  rw [List.set_append_right _ _ (by omega)]
  simp

theorem log_pair_update (done : List Int) (k : Nat) (hk : done.length = k) (a b v : Int)
    (tl : List Int) :
    (((done ++ (List.replicate k (-1) ++ a :: b :: tl)).set (2 * k) (-1)).set (2 * k + 1)
        (-1)).set k v
      = (done ++ [v]) ++ (List.replicate (k + 1) (-1) ++ tl) := by
  have i1 : 2 * k = done.length + ((List.replicate k (-1 : Int)).length + 0) := by simp; omega
  have i2 : 2 * k + 1 = done.length + ((List.replicate k (-1 : Int)).length + 1) := by
    simp; omega
  have s1 : (done ++ (List.replicate k (-1) ++ a :: b :: tl)).set (2 * k) (-1)
      = done ++ (List.replicate k (-1) ++ -1 :: b :: tl) := by
    rw [i1, set_append_add, set_append_add]; rfl
  have s2 : (done ++ (List.replicate k (-1) ++ -1 :: b :: tl)).set (2 * k + 1) (-1)
      = done ++ (List.replicate k (-1) ++ -1 :: -1 :: tl) := by
    rw [i2, set_append_add, set_append_add]; rfl
  have s3 : (done ++ (List.replicate k (-1) ++ -1 :: -1 :: tl)).set k v
      = done ++ (v :: (List.replicate (k + 1) (-1) ++ tl)) := by
    have e : List.replicate k (-1 : Int) ++ -1 :: -1 :: tl
        = -1 :: (List.replicate (k + 1) (-1) ++ tl) := by
      have : (-1 : Int) :: -1 :: tl = List.replicate 2 (-1) ++ tl := rfl
      rw [this, ← List.append_assoc, ← List.replicate_add]
      rfl
    rw [e]
    simp [hk]
  rw [s1, s2, s3]
  simp

theorem log_done_read (done : List Int) (k : Nat) (hk : done.length = k) (v : Int)
    (tl : List Int) : ((done ++ [v]) ++ tl).getD k 0 = v := by
  subst hk
  rw [List.append_assoc, List.getD_append_right _ _ _ _ (le_refl _)]
  simp

theorem log_done_set (done : List Int) (k : Nat) (hk : done.length = k) (v w : Int)
    (tl : List Int) : ((done ++ [v]) ++ tl).set k w = (done ++ [w]) ++ tl := by
  subst hk
  simp

theorem runAt_length_le {str : Option Line} {g : gzBucket} {run rest : List Line}
    (h : RunAt str g run rest) : run.length ≤ g.f.length + 1 := by
  cases run with
  | nil => simp
  | cons x xs =>
    obtain ⟨_, hf, _⟩ := h
    simp [hf]

theorem runAt_none {str : Option Line} {g : gzBucket} {run rest : List Line}
    (h : RunAt str g run rest) (hs : str = none) : run = [] := by
  cases run with
  | nil => rfl
  | cons x xs =>
    obtain ⟨h1, _, _⟩ := h
    simp [hs] at h1

theorem run_lengths_cons (r : List Line) (rs : List (List Line)) :
    run_lengths (r :: rs) = (r.length : Int) :: run_lengths rs := rfl

theorem int_arg_eq (x : Int) (h1 : -2147483648 ≤ x) (h2 : x < 2147483648) : int_arg x = x := by
  unfold int_arg
  omega

theorem int_arg_toNat_le (x : Int) (h : -2147483648 ≤ x) : (int_arg x).toNat ≤ x.toNat := by
  unfold int_arg
  omega

theorem int_arg_length (l : List Line) (h : (l.length : Int) < 2147483648) :
    (int_arg (l.length : Int)).toNat = l.length := by
  rw [int_arg_eq _ (by omega) h]
  simp

theorem int_arg_two_pow : (int_arg 2147483648).toNat = 0 := by decide

/-- One iteration of the loop of `merge_pass` whatever the lines at which the readers
stand: `in1` has the `A.length` lines `A` before it and `in2` the lines `B`, whose number is
the second size (`B` is empty when that size is `-1`). The iteration writes the merge of `A`
and `B`, stores the number of their lines in the log and moves the readers on by the
converted sizes. -/
theorem merge_pair_step (unique : Int) (A B X Y : List Line) (sb : Int) (tl done : List Int)
    (s : mergeState) (hi : s.log_i = 2 * done.length)
    (hlog : s.misc.line_log
      = done ++ (List.replicate done.length (-1) ++ ((A.length : Int) :: sb :: tl)))
    (hsb : sb = B.length ∨ (sb = -1 ∧ B = []))
    (hf1 : s.in1.f = A ++ X) (hf2 : s.in2.f = B ++ Y) (hlive : A ≠ [] ∨ B ≠ []) :
    (merge_pair unique s).1 = true ∧
    (merge_pair unique s).2.log_i = 2 * (done.length + 1) ∧
    (merge_pair unique s).2.misc = { s.misc with line_log :=
      (done ++ [(A.length : Int) + B.length]) ++
        (List.replicate (done.length + 1) (-1) ++ tl) } ∧
    (merge_pair unique s).2.out = merge_write_all unique s.out (merge2 A B) ∧
    (merge_pair unique s).2.in1.f = X.drop (int_arg sb).toNat ∧
    (merge_pair unique s).2.in2.f = Y.drop (int_arg (tl.getD 0 0)).toNat := by
  have hsz1 : s.misc.line_log.getD s.log_i 0 = (A.length : Int) := by
    rw [hi, hlog]
    have := log_read done done.length 0 rfl ((A.length : Int) :: sb :: tl)
    simpa using this
  have hsz2 : s.misc.line_log.getD (s.log_i + 1) 0 = sb := by
    rw [hi, hlog]
    have := log_read done done.length 1 rfl ((A.length : Int) :: sb :: tl)
    simpa using this
  have hr1 : RunAt (subset_lines_gz { s.in1 with subset_counter := (A.length : Int) }).1
      (subset_lines_gz { s.in1 with subset_counter := (A.length : Int) }).2 A X :=
    subset_lines_gz_runAt (by simp [hf1]) (Or.inl rfl)
  have hr2 : RunAt (subset_lines_gz { s.in2 with subset_counter := sb }).1
      (subset_lines_gz { s.in2 with subset_counter := sb }).2 B Y := by
    rcases hsb with h | ⟨h, hB⟩
    · exact subset_lines_gz_runAt (by simp [hf2]) (Or.inl h)
    · exact subset_lines_gz_runAt (by simp [hf2]) (Or.inr ⟨hB, by simp [h]⟩)
  have hnb : ¬ ((subset_lines_gz { s.in1 with subset_counter := (A.length : Int) }).1 = none ∧
      (subset_lines_gz { s.in2 with subset_counter := sb }).1 = none) := by
    rintro ⟨h1, h2⟩
    rcases hlive with hl | hl
    · exact hl (runAt_none hr1 h1)
    · exact hl (runAt_none hr2 h2)
  have hm := merge_loop_spec unique X Y
    ((subset_lines_gz { s.in1 with subset_counter := (A.length : Int) }).2.f.length +
      (subset_lines_gz { s.in2 with subset_counter := sb }).2.f.length + 2)
    A B (by have := runAt_length_le hr1; have := runAt_length_le hr2; omega)
    _ _ _ _ s.out hr1 hr2
  obtain ⟨hm1, hm2, hm3⟩ := hm
  have hk2 : s.log_i / 2 = done.length := by
    rw [hi, Nat.mul_div_cancel_left _ (by omega : 0 < 2)]
  have hlog' : ((s.misc.line_log.set s.log_i (-1)).set (s.log_i + 1) (-1)).set (s.log_i / 2)
      ((A.length : Int) + sb)
      = (done ++ [(A.length : Int) + sb]) ++
        (List.replicate (done.length + 1) (-1) ++ tl) := by
    rw [hk2, hi, hlog]
    exact log_pair_update done done.length rfl _ _ _ _
  have hnext : ∀ v : Int, ((done ++ [v]) ++
        (List.replicate (done.length + 1) (-1) ++ tl)).getD (s.log_i + 2) 0
      = tl.getD 0 0 := by
    intro v
    have := log_read (done ++ [v]) (done.length + 1) 0 (by simp) tl
    rw [hi]
    simpa [Nat.mul_add] using this
  rcases hsb with h | ⟨h, hB⟩
  · have hneg : ¬ ((A.length : Int) = -1 ∨ sb = -1) := by omega
    simp only [merge_pair, hsz1, hsz2, hnb, hneg, if_false, hlog', hnext]
    subst h
    refine ⟨trivial, by simp [hi]; omega, rfl, hm3, ?_, ?_⟩
    · rw [skip_lines_gz_f, hm1]
    · rw [skip_lines_gz_f, hm2]
  · subst hB
    have hor : ((A.length : Int) = -1 ∨ sb = -1) := Or.inr h
    simp only [merge_pair, hsz1, hsz2, hnb, hor, if_false, if_true, hlog']
    rw [hk2, log_done_read done done.length rfl, log_done_set done done.length rfl, hnext]
    have e1 : (A.length : Int) + sb + 1 = (A.length : Int) + (([] : List Line).length : Int) := by
      simp [h]
    rw [e1]
    refine ⟨trivial, by simp [hi]; omega, rfl, hm3, ?_, ?_⟩
    · rw [skip_lines_gz_f, hm1]
    · rw [skip_lines_gz_f, hm2]
/-- One iteration of the loop of `merge_pass` on a pair of runs `ra`, `rb` of fewer than
`2^31` lines each. -/
theorem merge_pair_two (unique : Int) (ra rb : List Line) (rest : List (List Line))
    (pad : Nat) (done : List Int) (s : mergeState) (hpad : 1 ≤ pad)
    (hlive : ra ≠ [] ∨ rb ≠ [])
    (hsmall : ∀ r ∈ ra :: rb :: rest, (r.length : Int) < 2147483648)
    (h : MergeInv (ra :: rb :: rest) pad done s) :
    (merge_pair unique s).1 = true ∧
    MergeInv rest pad (done ++ [(ra.length : Int) + rb.length]) (merge_pair unique s).2 ∧
    (merge_pair unique s).2.out = merge_write_all unique s.out (merge2 ra rb) ∧
    (merge_pair unique s).2.misc = { s.misc with line_log :=
      (done ++ [(ra.length : Int) + rb.length]) ++ (List.replicate (done.length + 1) (-1) ++
        (run_lengths rest ++ List.replicate pad (-1))) } := by
  obtain ⟨hi, hlog, hf1, hf2⟩ := h
  obtain ⟨e1, e2, e3, e4, e5, e6⟩ := merge_pair_step unique ra rb (rb ++ rest.flatten)
    rest.flatten (rb.length : Int) (run_lengths rest ++ List.replicate pad (-1)) done s hi
    (by simpa [run_lengths] using hlog) (Or.inl rfl) (by simpa using hf1)
    (by simpa using hf2) hlive
  refine ⟨e1, ⟨by simpa using e2, ?_, ?_, ?_⟩, e4, e3⟩
  · rw [e3]; simp
  · rw [e5, int_arg_length rb (hsmall rb (by simp))]
    simp
  · rw [e6]
    cases rest with
    | nil =>
      obtain ⟨p, rfl⟩ : ∃ p, pad = p + 1 := ⟨pad - 1, by omega⟩
      simp [run_lengths, List.replicate_succ]
    | cons rc rest' =>
      have : (run_lengths (rc :: rest') ++ List.replicate pad (-1)).getD 0 0
          = (rc.length : Int) := by simp [run_lengths]
      rw [this, int_arg_length rc (hsmall rc (by simp))]
      simp

/-- One iteration of the loop of `merge_pass` on an unpaired last run `ra`. -/
theorem merge_pair_one (unique : Int) (ra : List Line)
    (pad : Nat) (done : List Int) (s : mergeState) (hpad : 2 ≤ pad)
    (hlive : ra ≠ []) (h : MergeInv [ra] pad done s) :
    (merge_pair unique s).1 = true ∧
    MergeInv [] (pad - 1) (done ++ [(ra.length : Int)]) (merge_pair unique s).2 ∧
    (merge_pair unique s).2.out = merge_write_all unique s.out ra ∧
    (merge_pair unique s).2.misc = { s.misc with line_log :=
      (done ++ [(ra.length : Int)]) ++ (List.replicate (done.length + 1) (-1) ++
        List.replicate (pad - 1) (-1)) } := by
  obtain ⟨hi, hlog, hf1, hf2⟩ := h
  obtain ⟨p, rfl⟩ : ∃ p, pad = p + 2 := ⟨pad - 2, by omega⟩
  obtain ⟨e1, e2, e3, e4, e5, e6⟩ := merge_pair_step unique ra [] [] [] (-1)
    (List.replicate (p + 1) (-1)) done s hi
    (by simpa [run_lengths, List.replicate_succ] using hlog) (Or.inr ⟨rfl, rfl⟩)
    (by simpa using hf1) (by simpa using hf2) (Or.inl hlive)
  rw [merge2_nil_right] at e4
  have e3' : (merge_pair unique s).2.misc = { s.misc with line_log :=
      (done ++ [(ra.length : Int)]) ++ (List.replicate (done.length + 1) (-1) ++
        List.replicate (p + 2 - 1) (-1)) } := by
    rw [e3]; simp
  refine ⟨e1, ⟨by simpa using e2, ?_, ?_, ?_⟩, e4, e3'⟩
  · rw [e3']; simp [run_lengths]
  · rw [e5]; simp
  · rw [e6]; simp

/-- The iteration of the loop of `merge_pass` after the last run: both lines are NULL and
the loop is left. -/
theorem merge_pair_end (unique : Int) (pad : Nat) (done : List Int) (s : mergeState)
    (hpad : 2 ≤ pad) (hi : s.log_i = 2 * done.length)
    (hlog : s.misc.line_log
      = done ++ (List.replicate done.length (-1) ++ List.replicate pad (-1))) :
    (merge_pair unique s).1 = false ∧
    (merge_pair unique s).2.out = s.out ∧ (merge_pair unique s).2.misc = s.misc := by
  obtain ⟨p, rfl⟩ : ∃ p, pad = p + 2 := ⟨pad - 2, by omega⟩
  have hsz1 : s.misc.line_log.getD s.log_i 0 = -1 := by
    rw [hi, hlog]
    have := log_read done done.length 0 rfl (List.replicate (p + 2) (-1))
    simpa [List.replicate_succ] using this
  have hsz2 : s.misc.line_log.getD (s.log_i + 1) 0 = -1 := by
    rw [hi, hlog]
    have := log_read done done.length 1 rfl (List.replicate (p + 2) (-1))
    simpa [List.replicate_succ] using this
  simp only [merge_pair, hsz1, hsz2]
  simp [subset_lines_gz]

theorem merge_pair_none (unique : Int) (pad : Nat) (done : List Int) (s : mergeState)
    (hpad : 2 ≤ pad) (h : MergeInv [] pad done s) :
    (merge_pair unique s).1 = false ∧
    (merge_pair unique s).2.out = s.out ∧ (merge_pair unique s).2.misc = s.misc :=
  merge_pair_end unique pad done s hpad h.log_i (by simpa [run_lengths] using h.log)

/-- One iteration of the loop of `merge_pass` on a pair of sizes, for readers that may stand
before their runs: it writes as many lines as the two sizes say and keeps `MergeLog`. -/
theorem merge_pair_two_log (unique : Int) (ra rb : List Line) (rest : List (List Line))
    (pad : Nat) (done : List Int) (s : mergeState)
    (hlive : ra ≠ [] ∨ rb ≠ []) (h : MergeLog (ra :: rb :: rest) pad done s) :
    (merge_pair unique s).1 = true ∧
    MergeLog rest pad (done ++ [(ra.length : Int) + rb.length]) (merge_pair unique s).2 ∧
    (∃ W : List Line, W.length = ra.length + rb.length ∧
      (merge_pair unique s).2.out = merge_write_all unique s.out W) ∧
    (merge_pair unique s).2.misc = { s.misc with line_log :=
      (done ++ [(ra.length : Int) + rb.length]) ++ (List.replicate (done.length + 1) (-1) ++
        (run_lengths rest ++ List.replicate pad (-1))) } := by
  obtain ⟨hi, hlog, hf1, hf2⟩ := h
  simp only [List.flatten_cons, List.length_append, List.tail_cons] at hf1 hf2
  have hA : (s.in1.f.take ra.length).length = ra.length := by simp; omega
  have hB : (s.in2.f.take rb.length).length = rb.length := by simp; omega
  obtain ⟨e1, e2, e3, e4, e5, e6⟩ := merge_pair_step unique (s.in1.f.take ra.length)
    (s.in2.f.take rb.length) (s.in1.f.drop ra.length) (s.in2.f.drop rb.length)
    (rb.length : Int) (run_lengths rest ++ List.replicate pad (-1)) done s hi
    (by rw [hA]; simpa [run_lengths] using hlog) (Or.inl (by rw [hB]))
    (List.take_append_drop _ _).symm (List.take_append_drop _ _).symm
    (by
      rcases hlive with hl | hl
      · left
        intro h0
        have := congrArg List.length h0
        rw [hA] at this
        exact hl (List.length_eq_zero.mp this)
      · right
        intro h0
        have := congrArg List.length h0
        rw [hB] at this
        exact hl (List.length_eq_zero.mp this))
  rw [hA, hB] at e3
  refine ⟨e1, ⟨by simpa using e2, ?_, ?_, ?_⟩, ⟨_, ?_, e4⟩, e3⟩
  · rw [e3]; simp
  · rw [e5]
    have := int_arg_toNat_le (rb.length : Int) (by omega)
    rw [Int.toNat_ofNat] at this
    rw [List.length_drop, List.length_drop]
    generalize (int_arg (rb.length : Int)).toNat = k at this ⊢
    omega
  · rw [e6]
    cases rest with
    | nil => simp
    | cons rc rest' =>
      have hg : (run_lengths (rc :: rest') ++ List.replicate pad (-1)).getD 0 0
          = (rc.length : Int) := by simp [run_lengths]
      rw [hg]
      have := int_arg_toNat_le (rc.length : Int) (by omega)
      rw [Int.toNat_ofNat] at this
      rw [List.length_drop, List.length_drop]
      generalize (int_arg (rc.length : Int)).toNat = k at this ⊢
      simp only [List.flatten_cons, List.length_append, List.tail_cons] at hf2 ⊢
      omega
  · rw [(merge2_perm _ _).length_eq, List.length_append, hA, hB]
/-- One iteration of the loop of `merge_pass` on an unpaired last size, for a reader that
may stand before its run. -/
theorem merge_pair_one_log (unique : Int) (ra : List Line)
    (pad : Nat) (done : List Int) (s : mergeState) (hpad : 2 ≤ pad)
    (hlive : ra ≠ []) (h : MergeLog [ra] pad done s) :
    (merge_pair unique s).1 = true ∧
    MergeLog [] (pad - 1) (done ++ [(ra.length : Int)]) (merge_pair unique s).2 ∧
    (∃ W : List Line, W.length = ra.length ∧
      (merge_pair unique s).2.out = merge_write_all unique s.out W) ∧
    (merge_pair unique s).2.misc = { s.misc with line_log :=
      (done ++ [(ra.length : Int)]) ++ (List.replicate (done.length + 1) (-1) ++
        List.replicate (pad - 1) (-1)) } := by
  obtain ⟨hi, hlog, hf1, hf2⟩ := h
  obtain ⟨p, rfl⟩ : ∃ p, pad = p + 2 := ⟨pad - 2, by omega⟩
  simp only [List.flatten_cons, List.flatten_nil, List.append_nil] at hf1
  have hA : (s.in1.f.take ra.length).length = ra.length := by simp; omega
  obtain ⟨e1, e2, e3, e4, e5, e6⟩ := merge_pair_step unique (s.in1.f.take ra.length) []
    (s.in1.f.drop ra.length) s.in2.f (-1)
    (List.replicate (p + 1) (-1)) done s hi
    (by rw [hA]; simpa [run_lengths, List.replicate_succ] using hlog) (Or.inr ⟨rfl, rfl⟩)
    (List.take_append_drop _ _).symm (by simp)
    (Or.inl (by
      intro h0
      have := congrArg List.length h0
      rw [hA] at this
      exact hlive (List.length_eq_zero.mp this)))
  rw [merge2_nil_right] at e4
  rw [hA] at e3
  have e3' : (merge_pair unique s).2.misc = { s.misc with line_log :=
      (done ++ [(ra.length : Int)]) ++ (List.replicate (done.length + 1) (-1) ++
        List.replicate (p + 2 - 1) (-1)) } := by
    rw [e3]; simp
  refine ⟨e1, ⟨by simpa using e2, ?_, ?_, ?_⟩, ⟨_, hA, e4⟩, e3'⟩
  · rw [e3']; simp [run_lengths]
  · simp
  · simp

theorem merge2_length (a b : List Line) : (merge2 a b).length = a.length + b.length := by
  simpa using (merge2_perm a b).length_eq

theorem pair_runs_length_le : ∀ (rs : List (List Line)), live_pairs rs →
    (pair_runs rs).length ≤ rs.flatten.length
  | [], _ => by simp [pair_runs]
  | [a], h => by
    have : a ≠ [] := h
    have := List.length_pos.mpr this
    simp [pair_runs]; omega
  | a :: b :: rest, h => by
    have ih := pair_runs_length_le rest h.2
    have : 0 < a.length + b.length := by
      rcases h.1 with h1 | h1
      · have := List.length_pos.mpr h1; omega
      · have := List.length_pos.mpr h1; omega
    simp only [pair_runs, List.flatten_cons, List.length_append, List.length_cons]; omega

/-- The loop of `merge_pass` from the start of a pair to its end, on runs of fewer than
`2^31` lines. -/
theorem merge_pairs_spec (unique : Int) : ∀ (rs : List (List Line)) (fuel pad : Nat)
    (done : List Int) (s : mergeState), 2 + rs.length % 2 ≤ pad → live_pairs rs →
    (∀ r ∈ rs, (r.length : Int) < 2147483648) →
    (pair_runs rs).length < fuel → MergeInv rs pad done s →
    (merge_pairs unique fuel s).out = merge_write_all unique s.out (pair_runs rs).flatten ∧
    (merge_pairs unique fuel s).misc = { s.misc with
      line_log := (done ++ run_lengths (pair_runs rs)) ++
        List.replicate (done.length + (pair_runs rs).length + pad - rs.length % 2) (-1) }
  | [], fuel, pad, done, s, hpad, _, _, hfuel, h => by
    obtain ⟨n, rfl⟩ : ∃ n, fuel = n + 1 := ⟨fuel - 1, by omega⟩
    obtain ⟨h1, h2, h3⟩ := merge_pair_none unique pad done s (by omega) h
    have hsplit : merge_pair unique s = (false, (merge_pair unique s).2) := by
      rw [← h1]
    simp only [merge_pairs]
    rw [hsplit]
    simp only [h2, h3]
    refine ⟨by simp [pair_runs, merge_write_all], ?_⟩
    have := h.log
    simp only [pair_runs, run_lengths, List.map_nil, List.nil_append, List.append_nil,
      List.length_nil, Nat.zero_mod, Nat.sub_zero, Nat.add_zero] at this ⊢
    rw [List.replicate_add, ← this]
  | [ra], fuel, pad, done, s, hpad, hlive, _, hfuel, h => by
    obtain ⟨n, rfl⟩ : ∃ n, fuel = n + 1 := ⟨fuel - 1, by omega⟩
    obtain ⟨h1, h2, h3, h4⟩ := merge_pair_one unique ra pad done s (by omega) hlive h
    have hsplit : merge_pair unique s = (true, (merge_pair unique s).2) := by
      rw [← h1]
    have ih := merge_pairs_spec unique [] n (pad - 1) _ (merge_pair unique s).2
      (by simp at hpad ⊢; omega) trivial (by simp) (by simp [pair_runs] at hfuel ⊢; omega) h2
    simp only [merge_pairs]
    rw [hsplit]
    simp only []
    rw [ih.1, ih.2, h3, h4]
    refine ⟨by simp [pair_runs, merge_write_all], ?_⟩
    simp only [pair_runs, run_lengths, List.map_nil, List.append_nil, List.length_nil,
      List.map_cons, List.length_cons, List.length_append, Nat.zero_mod, Nat.sub_zero,
      Nat.add_zero]
    have e : done.length + (0 + 1) + (pad - 1) = done.length + (0 + 1) + pad - (0 + 1) % 2 := by
      simp at hpad; omega
    rw [e]
  | ra :: rb :: rest, fuel, pad, done, s, hpad, hlive, hsmall, hfuel, h => by
    obtain ⟨n, rfl⟩ : ∃ n, fuel = n + 1 := ⟨fuel - 1, by omega⟩
    have hpar : (ra :: rb :: rest).length % 2 = rest.length % 2 := by
      simp only [List.length_cons]; omega
    obtain ⟨h1, h2, h3, h4⟩ := merge_pair_two unique ra rb rest pad done s (by omega) hlive.1
      hsmall h
    have hsplit : merge_pair unique s = (true, (merge_pair unique s).2) := by
      rw [← h1]
    have ih := merge_pairs_spec unique rest n pad _ (merge_pair unique s).2
      (by omega) hlive.2 (fun r hr => hsmall r (by simp [hr]))
      (by simp [pair_runs] at hfuel ⊢; omega) h2
    simp only [merge_pairs]
    rw [hsplit]
    simp only []
    rw [ih.1, ih.2, h3, h4]
    refine ⟨by simp [pair_runs, merge_write_all], ?_⟩
    simp only [pair_runs, run_lengths, List.map_cons, List.length_cons, List.length_append,
      List.length_singleton, merge2_length, List.append_assoc, List.singleton_append,
      Nat.cast_add]
    have e : done.length + (([] : List Int).length + 1) + (pair_runs rest).length + pad
          - rest.length % 2
        = done.length + ((pair_runs rest).length + 1) + pad - (rest.length + 1 + 1) % 2 := by
      simp only [List.length_nil]; omega
    rw [e]

theorem merge_write_all_append (unique : Int) (out : gzBucket) (l m : List Line) :
    merge_write_all unique (merge_write_all unique out l) m
      = merge_write_all unique out (l ++ m) := by
  simp [merge_write_all, List.foldl_append]

/-- The loop of `merge_pass` from the start of a pair to its end, whatever the lengths of
the runs and the lines at which the readers stand: the log it leaves and the number of lines
it offers to the writing step are those of `merge_pairs_spec`. -/
theorem merge_pairs_log (unique : Int) : ∀ (rs : List (List Line)) (fuel pad : Nat)
    (done : List Int) (s : mergeState), 2 + rs.length % 2 ≤ pad → live_pairs rs →
    (pair_runs rs).length < fuel → MergeLog rs pad done s →
    (∃ W : List Line, W.length = rs.flatten.length ∧
      (merge_pairs unique fuel s).out = merge_write_all unique s.out W) ∧
    (merge_pairs unique fuel s).misc = { s.misc with
      line_log := (done ++ run_lengths (pair_runs rs)) ++
        List.replicate (done.length + (pair_runs rs).length + pad - rs.length % 2) (-1) }
  | [], fuel, pad, done, s, hpad, _, hfuel, h => by
    obtain ⟨n, rfl⟩ : ∃ n, fuel = n + 1 := ⟨fuel - 1, by omega⟩
    obtain ⟨h1, h2, h3⟩ := merge_pair_end unique pad done s (by omega) h.log_i
      (by simpa [run_lengths] using h.log)
    have hsplit : merge_pair unique s = (false, (merge_pair unique s).2) := by
      rw [← h1]
    simp only [merge_pairs]
    rw [hsplit]
    simp only [h2, h3]
    refine ⟨⟨[], by simp, by simp [merge_write_all]⟩, ?_⟩
    have := h.log
    simp only [pair_runs, run_lengths, List.map_nil, List.nil_append, List.append_nil,
      List.length_nil, Nat.zero_mod, Nat.sub_zero, Nat.add_zero] at this ⊢
    rw [List.replicate_add, ← this]
  | [ra], fuel, pad, done, s, hpad, hlive, hfuel, h => by
    obtain ⟨n, rfl⟩ : ∃ n, fuel = n + 1 := ⟨fuel - 1, by omega⟩
    obtain ⟨h1, h2, ⟨W, hW, h3⟩, h4⟩ :=
      merge_pair_one_log unique ra pad done s (by omega) hlive h
    have hsplit : merge_pair unique s = (true, (merge_pair unique s).2) := by
      rw [← h1]
    obtain ⟨⟨W2, hW2, ih1⟩, ih2⟩ := merge_pairs_log unique [] n (pad - 1) _
      (merge_pair unique s).2
      (by simp at hpad ⊢; omega) trivial (by simp [pair_runs] at hfuel ⊢; omega) h2
    simp only [merge_pairs]
    rw [hsplit]
    simp only []
    rw [ih1, ih2, h3, h4, merge_write_all_append]
    refine ⟨⟨W ++ W2, by simp [hW, hW2], rfl⟩, ?_⟩
    simp only [pair_runs, run_lengths, List.map_nil, List.append_nil, List.length_nil,
      List.map_cons, List.length_cons, List.length_append, Nat.zero_mod, Nat.sub_zero,
      Nat.add_zero]
    have e : done.length + (0 + 1) + (pad - 1) = done.length + (0 + 1) + pad - (0 + 1) % 2 := by
      simp at hpad; omega
    rw [e]
  | ra :: rb :: rest, fuel, pad, done, s, hpad, hlive, hfuel, h => by
    obtain ⟨n, rfl⟩ : ∃ n, fuel = n + 1 := ⟨fuel - 1, by omega⟩
    have hpar : (ra :: rb :: rest).length % 2 = rest.length % 2 := by
      simp only [List.length_cons]; omega
    obtain ⟨h1, h2, ⟨W, hW, h3⟩, h4⟩ :=
      merge_pair_two_log unique ra rb rest pad done s hlive.1 h
    have hsplit : merge_pair unique s = (true, (merge_pair unique s).2) := by
      rw [← h1]
    obtain ⟨⟨W2, hW2, ih1⟩, ih2⟩ := merge_pairs_log unique rest n pad _
      (merge_pair unique s).2
      (by omega) hlive.2 (by simp [pair_runs] at hfuel ⊢; omega) h2
    simp only [merge_pairs]
    rw [hsplit]
    simp only []
    rw [ih1, ih2, h3, h4, merge_write_all_append]
    refine ⟨⟨W ++ W2, by simp [hW, hW2]; omega, rfl⟩, ?_⟩
    simp only [pair_runs, run_lengths, List.map_cons, List.length_cons, List.length_append,
      List.length_singleton, merge2_length, List.append_assoc, List.singleton_append,
      Nat.cast_add]
    have e : done.length + (([] : List Int).length + 1) + (pair_runs rest).length + pad
          - rest.length % 2
        = done.length + ((pair_runs rest).length + 1) + pad - (rest.length + 1 + 1) % 2 := by
      simp only [List.length_nil]; omega
    rw [e]

/-- The function `merge_pass` on a file made of the runs `rs`, each of fewer than `2^31`
lines, read by `in1` and `in2`, with the lengths of the runs in the log. -/
theorem merge_pass_spec (unique : Int) (rs : List (List Line)) (pad : Nat)
    (in1 in2 out : gzBucket) (misc : miscBucket)
    (hpad : 3 ≤ pad) (hlive : live_pairs rs)
    (hsmall : ∀ r ∈ rs, (r.length : Int) < 2147483648)
    (hlog : misc.line_log = run_lengths rs ++ List.replicate pad (-1))
    (h1 : in1.f = rs.flatten) (h2 : in2.f = rs.flatten) :
    (merge_pass in1 in2 out misc unique).out
      = merge_write_all unique out (pair_runs rs).flatten ∧
    (merge_pass in1 in2 out misc unique).misc = { misc with
      line_log := run_lengths (pair_runs rs) ++
        List.replicate ((pair_runs rs).length + pad - rs.length % 2) (-1) } := by
  have hinv : MergeInv rs pad [] (merge_start in1 in2 out misc) := by
    refine ⟨rfl, by simpa [merge_start] using hlog, h1, ?_⟩
    simp only [merge_start]
    rw [skip_lines_gz_f, h2, hlog]
    cases rs with
    | nil =>
      obtain ⟨p, rfl⟩ : ∃ p, pad = p + 1 := ⟨pad - 1, by omega⟩
      simp [run_lengths, List.replicate_succ]
    | cons r rest =>
      have : (run_lengths (r :: rest) ++ List.replicate pad (-1)).getD 0 0
          = (r.length : Int) := by simp [run_lengths]
      rw [this, int_arg_length r (hsmall r (by simp))]
      simp
  have hfuel : (pair_runs rs).length < in1.f.length + in2.f.length + 1 := by
    have := pair_runs_length_le rs hlive
    rw [h1]; omega
  have := merge_pairs_spec unique rs _ pad [] _ (by omega) hlive hsmall hfuel hinv
  simpa [merge_pass, merge_start] using this

/-- The function `merge_pass` on a file whose runs have the lengths that the log holds,
whatever these lengths are: the log it leaves, and the number of lines it offers to the
writing step. From `2^31` lines in a run on the readers stand before the runs they should
read, and the lines offered are not those of `merge_pass_spec`. -/
theorem merge_pass_log (unique : Int) (rs : List (List Line)) (pad : Nat)
    (in1 in2 out : gzBucket) (misc : miscBucket)
    (hpad : 3 ≤ pad) (hlive : live_pairs rs)
    (hlog : misc.line_log = run_lengths rs ++ List.replicate pad (-1))
    (h1 : in1.f = rs.flatten) (h2 : in2.f = rs.flatten) :
    (∃ W : List Line, W.length = rs.flatten.length ∧
      (merge_pass in1 in2 out misc unique).out = merge_write_all unique out W) ∧
    (merge_pass in1 in2 out misc unique).misc = { misc with
      line_log := run_lengths (pair_runs rs) ++
        List.replicate ((pair_runs rs).length + pad - rs.length % 2) (-1) } := by
  have hinv : MergeLog rs pad [] (merge_start in1 in2 out misc) := by
    refine ⟨rfl, by simpa [merge_start] using hlog, by simp only [merge_start]; rw [h1], ?_⟩
    simp only [merge_start]
    rw [skip_lines_gz_f, h2, hlog, List.length_drop]
    cases rs with
    | nil => simp
    | cons r rest =>
      have hg : (run_lengths (r :: rest) ++ List.replicate pad (-1)).getD 0 0
          = (r.length : Int) := by simp [run_lengths]
      rw [hg]
      have := int_arg_toNat_le (r.length : Int) (by omega)
      rw [Int.toNat_ofNat] at this
      generalize (int_arg (r.length : Int)).toNat = k at this ⊢
      simp only [List.flatten_cons, List.length_append, List.tail_cons]
      omega
  have hfuel : (pair_runs rs).length < in1.f.length + in2.f.length + 1 := by
    have := pair_runs_length_le rs hlive
    rw [h1]; omega
  have := merge_pairs_log unique rs _ pad [] _ (by omega) hlive hfuel hinv
  simpa [merge_pass, merge_start] using this

/-! ## The presort pass -/

theorem load_line_gz_source :
    LineSource load_line_gz (fun g => g.f) (fun g => g.line_counter) where
  bound := fun _ => le_refl _
  none_view := by
    intro g h
    cases hg : g.f with
    | nil => simp [load_line_gz, hg]
    | cons l ls => simp [load_line_gz, hg] at h
  some_view := by
    intro g l h
    cases hg : g.f with
    | nil => simp [load_line_gz, hg] at h
    | cons l' ls =>
      simp [load_line_gz, hg] at h
      simp [load_line_gz, hg, h]

/-- The inner loop of `presort_pass`: the lines it buffers (`taken`), the line that did not
fit and the lines left in the source make up the lines the source held. -/
theorem presort_fill_spec {line_gz : gzBucket → Option Line × gzBucket}
    {view : gzBucket → List Line} {count : gzBucket → Int}
    (hs : LineSource line_gz view count) (B : Int) :
    ∀ (fuel : Nat) (in1 : gzBucket) (buf_i : Int) (strings : List Line),
      (view in1).length < fuel →
      ∃ taken : List Line,
        (presort_fill line_gz B fuel in1 buf_i strings).2.2.2 = strings ++ taken ∧
        view in1 = taken ++ ((presort_fill line_gz B fuel in1 buf_i strings).1.toList ++
          view (presort_fill line_gz B fuel in1 buf_i strings).2.1) ∧
        ((presort_fill line_gz B fuel in1 buf_i strings).1 = none →
          view (presort_fill line_gz B fuel in1 buf_i strings).2.1 = []) ∧
        count (presort_fill line_gz B fuel in1 buf_i strings).2.1
          = count in1 + taken.length +
            (presort_fill line_gz B fuel in1 buf_i strings).1.toList.length := by
  intro fuel
  induction fuel with
  | zero => intro in1 buf_i strings h; omega
  | succ n ih =>
    intro in1 buf_i strings hlen
    cases hr : line_gz in1 with
    | mk o in1' =>
      cases o with
      | none =>
        have h1 := hs.none_view in1 (by rw [hr])
        rw [hr] at h1
        refine ⟨[], ?_⟩
        simp only [presort_fill, hr]
        simp [h1.1, h1.2.1, h1.2.2]
      | some l =>
        have h1 := hs.some_view in1 l (by rw [hr])
        rw [hr] at h1
        by_cases hb : buf_i + l.length + 1 ≥ B
        · refine ⟨[], ?_⟩
          simp only [presort_fill, hr, hb, if_true]
          simp [h1.1, h1.2]
        · obtain ⟨taken, e1, e2, e3, e4⟩ := ih in1' (buf_i + l.length + 1) (strings ++ [l])
            (by rw [h1.1] at hlen; simp at hlen; omega)
          refine ⟨l :: taken, ?_⟩
          simp only [presort_fill, hr, hb, if_false]
          refine ⟨by simp [e1], by rw [h1.1]; simp; exact e2, e3, ?_⟩
          rw [e4, h1.2]; simp; omega


theorem clear_log_spec : ∀ (n : Nat) (done tl : List Int), tl.length = n →
    clear_log n (done ++ tl) done.length = done ++ List.replicate n (-1)
  | 0, done, tl, h => by
    have : tl = [] := List.length_eq_zero.mp h
    simp [clear_log, this]
  | n + 1, done, t :: tl, h => by
    have ih := clear_log_spec n (done ++ [-1]) tl (by simpa using h)
    have e : (done ++ t :: tl).set done.length (-1) = (done ++ [-1]) ++ tl := by
      simp
    simp only [clear_log, e]
    have e2 : done.length + 1 = (done ++ [(-1 : Int)]).length := by simp
    rw [e2, ih]
    simp [List.replicate_succ]

theorem qsort_length (l : List Line) : (qsort l).length = l.length :=
  (qsort_perm l).length_eq

/-- The flush of `presort_pass`: the buffered lines are written sorted and their number is
appended to the log. -/
theorem presort_flush_spec (done : List Int) (s : presortState) (h : PresortLog done s) :
    PresortLog (done ++ [(s.strings.length : Int)]) (presort_flush s) ∧
    (presort_flush s).out = { s.out with
      f := s.out.f ++ qsort s.strings,
      line_counter := s.out.line_counter + s.strings.length } ∧
    (presort_flush s).in1 = s.in1 ∧
    (presort_flush s).misc = { s.misc with
      line_log := (presort_flush s).misc.line_log,
      log_len := (presort_flush s).misc.log_len } := by
  obtain ⟨hi, hlog, hroom⟩ := h
  obtain ⟨p, hp⟩ : ∃ p, s.misc.log_len + 1 - done.length = p + 1 :=
    ⟨s.misc.log_len - done.length, by omega⟩
  by_cases hg : s.log_i + 3 ≥ s.misc.log_len
  · have hlen : s.misc.log_len = done.length + 3 := by omega
    have e1 : clear_log (s.misc.log_len * 2 + 1 - s.log_i)
        (realloc_log s.misc.line_log (s.misc.log_len * 2)) s.log_i
        = done ++ List.replicate (s.misc.log_len * 2 + 1 - done.length) (-1) := by
      rw [hi]
      unfold realloc_log
      rw [hlog, List.append_assoc]
      exact clear_log_spec _ done _ (by simp; omega)
    obtain ⟨q, hq⟩ : ∃ q, s.misc.log_len * 2 + 1 - done.length = q + 1 :=
      ⟨s.misc.log_len * 2 - done.length, by omega⟩
    refine ⟨⟨?_, ?_, ?_⟩, ?_, ?_, ?_⟩
    · simp [presort_flush, hi]
    · simp only [presort_flush, hg, if_true, e1, hq, qsort_length]
      rw [hi, List.replicate_succ]
      have := set_append_add done ((-1 : Int) :: List.replicate q (-1)) 0 (s.strings.length : Int)
      simp only [Nat.add_zero, List.set_cons_zero] at this
      rw [this]
      have : s.misc.log_len * 2 + 1 - (done ++ [(s.strings.length : Int)]).length = q := by
        simp; omega
      rw [this]
      simp
    · simp [presort_flush, hg]; omega
    · simp [presort_flush, qsort_length]
    · simp [presort_flush]
    · simp [presort_flush, hg]
  · refine ⟨⟨?_, ?_, ?_⟩, ?_, ?_, ?_⟩
    · simp [presort_flush, hi]
    · simp only [presort_flush, hg, if_false, qsort_length]
      rw [hi, hlog, hp, List.replicate_succ]
      have := set_append_add done ((-1 : Int) :: List.replicate p (-1)) 0 (s.strings.length : Int)
      simp only [Nat.add_zero, List.set_cons_zero] at this
      rw [this]
      have : s.misc.log_len + 1 - (done ++ [(s.strings.length : Int)]).length = p := by
        simp; omega
      rw [this]
      simp
    · simp [presort_flush, hg]; omega
    · simp [presort_flush, qsort_length]
    · simp [presort_flush]
    · simp [presort_flush, hg]


theorem presort_loop_none {line_gz : gzBucket → Option Line × gzBucket} (n : Nat)
    (s : presortState) {in1 : gzBucket} {b : Int} {strs : List Line}
    (h : presort_fill line_gz s.misc.presort_bytes (s.in1.f.length + 1) s.in1 s.buf_i s.strings
      = (none, in1, b, strs)) :
    presort_loop line_gz (n + 1) s
      = presort_flush { s with in1 := in1, buf_i := b, strings := strs } := by
  simp only [presort_loop, h]

theorem presort_loop_some {line_gz : gzBucket → Option Line × gzBucket} (n : Nat)
    (s : presortState) {in1 : gzBucket} {b : Int} {strs : List Line} {l : Line}
    (h : presort_fill line_gz s.misc.presort_bytes (s.in1.f.length + 1) s.in1 s.buf_i s.strings
      = (some l, in1, b, strs)) :
    presort_loop line_gz (n + 1) s
      = presort_loop line_gz n
        { presort_flush { s with in1 := in1, buf_i := b, strings := strs } with
          buf_i := (l.length : Int) + 1, strings := [l] } := by
  simp only [presort_loop, h]

/-- The outer loop of `presort_pass`: the lines buffered and the lines of the source are cut
into consecutive runs, each run is written sorted and its length is appended to the log. -/
theorem presort_loop_spec {line_gz : gzBucket → Option Line × gzBucket}
    {view : gzBucket → List Line} {count : gzBucket → Int}
    (hs : LineSource line_gz view count) :
    ∀ (fuel : Nat) (s : presortState) (done : List Int),
      (view s.in1).length < fuel → PresortLog done s →
      ∃ runs : List (List Line),
        runs ≠ [] ∧ runs.flatten = s.strings ++ view s.in1 ∧
        (∀ r ∈ runs.tail, r ≠ []) ∧ (s.strings ≠ [] → ∀ r ∈ runs, r ≠ []) ∧
        PresortLog (done ++ run_lengths runs) (presort_loop line_gz fuel s) ∧
        (presort_loop line_gz fuel s).out = { s.out with
          f := s.out.f ++ (runs.map qsort).flatten,
          line_counter := s.out.line_counter + (s.strings ++ view s.in1).length } ∧
        count (presort_loop line_gz fuel s).in1 = count s.in1 + (view s.in1).length ∧
        view (presort_loop line_gz fuel s).in1 = [] ∧
        (presort_loop line_gz fuel s).misc = { s.misc with
          line_log := (presort_loop line_gz fuel s).misc.line_log,
          log_len := (presort_loop line_gz fuel s).misc.log_len } := by
  intro fuel
  induction fuel with
  | zero => intro s done h; omega
  | succ n ih =>
    intro s done hlen hlog
    obtain ⟨taken, e1, e2, e3, e4⟩ := presort_fill_spec hs s.misc.presort_bytes
      (s.in1.f.length + 1) s.in1 s.buf_i s.strings (by have := hs.bound s.in1; omega)
    rcases hr : presort_fill line_gz s.misc.presort_bytes (s.in1.f.length + 1) s.in1
      s.buf_i s.strings with ⟨str, in1', b', strs'⟩
    rw [hr] at e1 e2 e3 e4
    simp only [] at e1 e2 e3 e4
    subst e1
    obtain ⟨f1, f2, f3, f4⟩ := presort_flush_spec done
      { s with in1 := in1', buf_i := b', strings := s.strings ++ taken }
      ⟨hlog.1, hlog.2, hlog.3⟩
    cases str with
    | none =>
      rw [presort_loop_none n s hr]
      generalize presort_flush
        { s with in1 := in1', buf_i := b', strings := s.strings ++ taken } = s1
        at f1 f2 f3 f4
      simp only [] at f1 f2 f3 f4
      have hv : view s.in1 = taken := by rw [e2, e3 rfl]; simp
      refine ⟨[s.strings ++ taken], by simp, by simp [hv], by simp, ?_, ?_, ?_, ?_, ?_, f4⟩
      · intro hne r' hr'
        simp at hr'
        subst hr'
        simp [hne]
      · simpa [run_lengths] using f1
      · rw [f2, hv]; simp
      · rw [f3, e4, hv]; simp
      · rw [f3]; exact e3 rfl
    | some l =>
      rw [presort_loop_some n s hr]
      generalize presort_flush
        { s with in1 := in1', buf_i := b', strings := s.strings ++ taken } = s1
        at f1 f2 f3 f4
      simp only [] at f1 f2 f3 f4
      have hv : view s.in1 = taken ++ l :: view in1' := by rw [e2]; simp
      obtain ⟨runs, g1, g2, g3, g4, g5, g6, g7, g8, g9⟩ := ih
        { s1 with buf_i := (l.length : Int) + 1, strings := [l] }
        (done ++ [((s.strings ++ taken).length : Int)])
        (by simp only []; rw [f3]; rw [hv] at hlen; simp at hlen; omega)
        ⟨f1.1, f1.2, f1.3⟩
      generalize presort_loop line_gz n
        { s1 with buf_i := (l.length : Int) + 1, strings := [l] } = sF at g5 g6 g7 g8 g9 ⊢
      simp only [] at g2 g4 g6 g7 g9
      rw [f3] at g2 g6 g7
      refine ⟨(s.strings ++ taken) :: runs, by simp, ?_, ?_, ?_, ?_, ?_, ?_, g8, ?_⟩
      · rw [hv]; simp [g2]
      · intro r' hr'
        exact g4 (by simp) r' (by simpa using hr')
      · intro hne r' hr'
        rcases List.mem_cons.mp hr' with h | h
        · subst h; simp [hne]
        · exact g4 (by simp) r' h
      · simpa [run_lengths] using g5
      · rw [g6, f2, hv]
        simp [List.length_append]
        omega
      · rw [g7, e4, hv]
        simp
        omega
      · rw [g9, f4]

theorem merge_write_all_unique (unique : Int) (hu : unique ≠ 0) (out : gzBucket)
    (l : List Line) :
    (merge_write_all unique out l).f = out.f ++ uniq_from out.line l ∧
    (merge_write_all unique out l).line_counter
      = out.line_counter + (uniq_from out.line l).length := by
  induction l generalizing out with
  | nil => simp [merge_write_all, uniq_from]
  | cons x xs ih =>
    have h := ih (merge_write unique out x)
    simp only [merge_write_all, List.foldl_cons] at h ⊢
    rw [h.1, h.2]
    by_cases hx : strcmp x out.line = 0
    · simp [merge_write, hu, hx, uniq_from]
    · simp [merge_write, hu, hx, uniq_from]
      omega

theorem uniq_from_sublist (prev : Line) (l : List Line) : (uniq_from prev l).Sublist l := by
  induction l generalizing prev with
  | nil => simp [uniq_from]
  | cons x xs ih =>
    simp only [uniq_from]
    split
    · exact (ih x).cons₂ x
    · exact (ih prev).cons x

/-- The loop of `presort_pass` started on an empty buffer and a cleared log. -/
theorem presort_start_spec {line_gz : gzBucket → Option Line × gzBucket}
    {view : gzBucket → List Line} {count : gzBucket → Int}
    (hs : LineSource line_gz view count) (in1 out : gzBucket) (misc : miscBucket) (fuel : Nat)
    (hfuel : (view in1).length < fuel)
    (hlog : misc.line_log = List.replicate (misc.log_len + 1) (-1)) (hroom : 3 ≤ misc.log_len) :
    ∃ (runs : List (List Line)) (pad : Nat),
      runs ≠ [] ∧ runs.flatten = view in1 ∧ (∀ r ∈ runs.tail, r ≠ []) ∧ 4 ≤ pad ∧
      (presort_loop line_gz fuel
        { in1 := in1, out := out, misc := misc, log_i := 0, buf_i := 0, strings := [] }).misc.line_log
        = run_lengths runs ++ List.replicate pad (-1) ∧
      (presort_loop line_gz fuel
        { in1 := in1, out := out, misc := misc, log_i := 0, buf_i := 0, strings := [] }).out = { out with
        f := out.f ++ (runs.map qsort).flatten,
        line_counter := out.line_counter + (view in1).length } ∧
      count (presort_loop line_gz fuel
        { in1 := in1, out := out, misc := misc, log_i := 0, buf_i := 0, strings := [] }).in1 = count in1 + (view in1).length ∧
      (presort_loop line_gz fuel
        { in1 := in1, out := out, misc := misc, log_i := 0, buf_i := 0, strings := [] }).misc = { misc with
        line_log := (presort_loop line_gz fuel
          { in1 := in1, out := out, misc := misc, log_i := 0, buf_i := 0, strings := [] }).misc.line_log,
        log_len := (presort_loop line_gz fuel
          { in1 := in1, out := out, misc := misc, log_i := 0, buf_i := 0, strings := [] }).misc.log_len } := by
  obtain ⟨runs, g1, g2, g3, _, g5, g6, g7, _, g9⟩ := presort_loop_spec hs fuel
    { in1 := in1, out := out, misc := misc, log_i := 0, buf_i := 0, strings := [] } []
    hfuel ⟨rfl, by simp [hlog], by simpa using hroom⟩
  generalize presort_loop line_gz fuel
    { in1 := in1, out := out, misc := misc, log_i := 0, buf_i := 0, strings := [] } = sF
    at g5 g6 g7 g9 ⊢
  simp only [List.nil_append] at g2 g5 g6 g7 g9
  have h3 := g5.3
  have hlen : (run_lengths runs).length = runs.length := by simp [run_lengths]
  exact ⟨runs, _, g1, g2, g3, by omega, g5.2, g6, g7, g9⟩

/-- The function `presort_pass` on a line source: the lines of the source are cut into
consecutive runs, written sorted, and the log holds the lengths of the runs. -/
theorem presort_pass_spec {line_gz : gzBucket → Option Line × gzBucket}
    {view : gzBucket → List Line} {count : gzBucket → Int}
    (hs : LineSource line_gz view count) (in1 out : gzBucket) (misc : miscBucket)
    (hlen : misc.line_log.length = misc.log_len + 1) (hroom : 3 ≤ misc.log_len) :
    ∃ (runs : List (List Line)) (pad : Nat),
      runs ≠ [] ∧ runs.flatten = view { in1 with line_counter := 0 } ∧
      (∀ r ∈ runs.tail, r ≠ []) ∧ 4 ≤ pad ∧
      (presort_pass in1 out misc line_gz).2.2.line_log
        = run_lengths runs ++ List.replicate pad (-1) ∧
      (presort_pass in1 out misc line_gz).2.1 = { out with
        f := out.f ++ (runs.map qsort).flatten,
        line_counter := out.line_counter + (view { in1 with line_counter := 0 }).length } ∧
      count (presort_pass in1 out misc line_gz).1
        = count { in1 with line_counter := 0 } + (view { in1 with line_counter := 0 }).length ∧
      (presort_pass in1 out misc line_gz).2.2 = { misc with
        line_log := (presort_pass in1 out misc line_gz).2.2.line_log,
        log_len := (presort_pass in1 out misc line_gz).2.2.log_len } := by
  have hclear : clear_log (misc.log_len + 1) misc.line_log 0
      = List.replicate (misc.log_len + 1) (-1) := by
    have := clear_log_spec (misc.log_len + 1) [] misc.line_log hlen
    simpa using this
  exact presort_start_spec hs { in1 with line_counter := 0 } out
    { misc with line_log := clear_log (misc.log_len + 1) misc.line_log 0 }
    (in1.f.length + 1) (Nat.lt_succ_of_le (hs.bound { in1 with line_counter := 0 }))
    hclear hroom


/-- The function `first_pass`: the input is cut into consecutive runs, the file written holds
the runs sorted, the log their lengths, and `total_lines` the number of input lines. -/
theorem first_pass_spec (input : List Line) (misc : miscBucket) (junk : Line) :
    ∃ (runs : List (List Line)) (pad : Nat),
      runs ≠ [] ∧ runs.flatten = input ∧ (∀ r ∈ runs.tail, r ≠ []) ∧ 4 ≤ pad ∧
      (first_pass input misc junk).2.line_log = run_lengths runs ++ List.replicate pad (-1) ∧
      (first_pass input misc junk).1 = (runs.map qsort).flatten ∧
      (first_pass input misc junk).2.total_lines = input.length ∧
      (first_pass input misc junk).2.unique = misc.unique ∧
      (first_pass input misc junk).2.presort_bytes = misc.presort_bytes := by
  obtain ⟨runs, pad, g1, g2, g3, g4, g5, g6, g7, g8⟩ := presort_pass_spec load_line_gz_source
    { init_gz input junk with line_counter := 0 } (init_gz [] junk)
    { misc with log_len := 1024, line_log := List.replicate (1024 + 1) 0 }
    (List.length_replicate _ _) (by show 3 ≤ 1024; omega)
  refine ⟨runs, pad, g1, g2, g3, g4, g5, ?_, ?_, ?_, ?_⟩
  · simp only [first_pass]
    rw [g6]
    simp [init_gz]
  · simp only [first_pass]
    rw [g7]
    simp [init_gz]
  · simp only [first_pass]
    rw [g8]
  · simp only [first_pass]
    rw [g8]

theorem sorted_perm_eq_qsort {l m : List Line} (hs : l.Sorted LineLE) (hp : l.Perm m) :
    l = qsort m :=
  List.eq_of_perm_of_sorted (hp.trans (qsort_perm m).symm) hs (qsort_sorted m)

theorem qsort_congr {l m : List Line} (hp : l.Perm m) : qsort l = qsort m :=
  sorted_perm_eq_qsort (qsort_sorted l) ((qsort_perm l).trans hp)

theorem pair_runs_flatten_perm : ∀ rs : List (List Line),
    (pair_runs rs).flatten.Perm rs.flatten
  | [] => by simp [pair_runs]
  | [a] => by simp [pair_runs]
  | a :: b :: rest => by
    simp only [pair_runs, List.flatten_cons, ← List.append_assoc]
    exact (merge2_perm a b).append (pair_runs_flatten_perm rest)

theorem pair_runs_sorted : ∀ rs : List (List Line), (∀ r ∈ rs, r.Sorted LineLE) →
    ∀ r ∈ pair_runs rs, r.Sorted LineLE
  | [], _ => by simp [pair_runs]
  | [a], h => by simpa [pair_runs] using h
  | a :: b :: rest, h => by
    intro r hr
    simp only [pair_runs, List.mem_cons] at hr
    rcases hr with hr | hr
    · subst hr
      exact merge2_sorted (h a (by simp)) (h b (by simp))
    · exact pair_runs_sorted rest (fun r hr => h r (by simp [hr])) r hr

theorem pair_runs_nonempty : ∀ rs : List (List Line), live_pairs rs →
    ∀ r ∈ pair_runs rs, r ≠ []
  | [], _ => by simp [pair_runs]
  | [a], h => by simpa [pair_runs] using h
  | a :: b :: rest, h => by
    intro r hr
    simp only [pair_runs, List.mem_cons] at hr
    rcases hr with hr | hr
    · subst hr
      intro he
      have := merge2_length a b
      rw [he] at this
      simp at this
      rcases h.1 with h1 | h1
      · exact h1 (List.length_eq_zero.mp (by omega))
      · exact h1 (List.length_eq_zero.mp (by omega))
    · exact pair_runs_nonempty rest h.2 r hr

theorem live_pairs_of_nonempty : ∀ rs : List (List Line), (∀ r ∈ rs, r ≠ []) → live_pairs rs
  | [], _ => trivial
  | [a], h => h a (by simp)
  | a :: b :: rest, h =>
    ⟨Or.inl (h a (by simp)), live_pairs_of_nonempty rest (fun r hr => h r (by simp [hr]))⟩

theorem live_pairs_of_tail : ∀ rs : List (List Line), 2 ≤ rs.length →
    (∀ r ∈ rs.tail, r ≠ []) → live_pairs rs
  | [], h, _ => by simp at h
  | [a], h, _ => by simp at h
  | a :: b :: rest, _, h =>
    ⟨Or.inr (h b (by simp)), live_pairs_of_nonempty rest (fun r hr => h r (by simp [hr]))⟩

theorem pair_runs_length : ∀ rs : List (List Line),
    (pair_runs rs).length = (rs.length + 1) / 2
  | [] => by simp [pair_runs]
  | [a] => by simp [pair_runs]
  | a :: b :: rest => by
    simp only [pair_runs, List.length_cons, pair_runs_length rest]
    omega

theorem small_runs (N : Int) : ∀ rs : List (List Line), (rs.flatten.length : Int) < N →
    ∀ r ∈ rs, (r.length : Int) < N
  | [], _, r, hr => by simp at hr
  | a :: rs, h, r, hr => by
    simp only [List.flatten_cons, List.length_append, Nat.cast_add] at h
    rcases List.mem_cons.mp hr with h1 | h1
    · subst h1; omega
    · exact small_runs N rs (by omega) r h1

theorem middle_loop_exit (junk : Line) (fuel : Nat) (s : middleState)
    (h : s.misc.line_log.getD 1 0 = -1) : middle_loop junk fuel s = s := by
  cases fuel with
  | zero => rfl
  | succ n => simp only [middle_loop, h, ne_eq, not_true_eq_false, if_false]


theorem middle_loop_step (junk : Line) (n : Nat) (s : middleState) (u : Int)
    (h : s.misc.line_log.getD 1 0 ≠ -1)
    (hu : u = if s.misc.line_log.getD 2 0 = -1 then s.misc.unique else s.unique) :
    middle_loop junk (n + 1) s = middle_loop junk n
      { file := (merge_pass (init_gz s.file junk) (init_gz s.file junk) (init_gz [] junk)
          s.misc u).out.f,
        misc := (merge_pass (init_gz s.file junk) (init_gz s.file junk) (init_gz [] junk)
          s.misc u).misc,
        unique := u,
        line_counter := (merge_pass (init_gz s.file junk) (init_gz s.file junk)
          (init_gz [] junk) s.misc u).out.line_counter } := by
  subst hu
  simp only [middle_loop, h, ne_eq, not_false_eq_true, if_true]

theorem misc_eq_of_log (m : miscBucket) (l : List Int) (h : m.line_log = l) :
    m = { m with line_log := l } := by
  subst h
  rfl

/-- The loop of `middle_passes` on a file of fewer than `2^31` lines made of sorted runs: it
ends with the file sorted (and deduplicated by the last pass when `unique` is set and a pass
is run) and a log of one entry, the number of lines of the runs. -/
theorem middle_loop_spec (junk : Line) : ∀ (fuel : Nat) (rs : List (List Line)) (pad : Nat)
    (s : middleState), rs.length ≤ fuel → rs ≠ [] → (∀ r ∈ rs, r.Sorted LineLE) →
    (2 ≤ rs.length → live_pairs rs) → 3 ≤ pad → s.file = rs.flatten →
    s.misc.line_log = run_lengths rs ++ List.replicate pad (-1) → s.unique = 0 →
    (rs.flatten.length : Int) < 2147483648 →
    (middle_loop junk fuel s).file
      = (if 2 ≤ rs.length ∧ s.misc.unique ≠ 0 then uniq_from junk (qsort rs.flatten)
        else qsort rs.flatten) ∧
    (middle_loop junk fuel s).line_counter
      = (if 2 ≤ rs.length then ((middle_loop junk fuel s).file.length : Int)
        else s.line_counter) ∧
    ∃ q, 3 ≤ q ∧ (middle_loop junk fuel s).misc
      = { s.misc with line_log := (rs.flatten.length : Int) :: List.replicate q (-1) } := by
  intro fuel
  induction fuel with
  | zero =>
    intro rs pad s hlen hne
    exact absurd (List.length_eq_zero.mp (Nat.le_zero.mp hlen)) hne
  | succ n ih =>
    intro rs pad s hlen hne hsorted hlive hpad hfile hlog hun hsmall
    have hruns := small_runs _ _ hsmall
    generalize hN : (2147483648 : Int) = N at hsmall
    obtain ⟨p, rfl⟩ : ∃ p, pad = p + 1 := ⟨pad - 1, by omega⟩
    match rs, hlen, hne, hsorted, hlive, hfile, hlog, hsmall, hruns with
    | [r], _, _, hsorted, _, hfile, hlog, _, _ =>
      have h1 : s.misc.line_log.getD 1 0 = -1 := by
        rw [hlog]; simp [run_lengths, List.replicate_succ]
      rw [middle_loop_exit junk _ s h1]
      refine ⟨?_, by simp, p + 1, hpad, ?_⟩
      · rw [hfile]
        simp only [List.length_singleton, Nat.reduceLeDiff, false_and, if_false]
        exact sorted_perm_eq_qsort (by simpa using hsorted r (by simp)) (List.Perm.refl _)
      · apply misc_eq_of_log
        rw [hlog]; simp [run_lengths]
    | [a, b], _, _, hsorted, hlive, hfile, hlog, _, hruns =>
      have h1 : s.misc.line_log.getD 1 0 ≠ -1 := by
        rw [hlog]; simp [run_lengths]
      have h2 : s.misc.line_log.getD 2 0 = -1 := by
        rw [hlog]; simp [run_lengths, List.replicate_succ]
      rw [middle_loop_step junk n s s.misc.unique h1 (by rw [h2]; simp)]
      obtain ⟨m1, m2⟩ := merge_pass_spec s.misc.unique [a, b] (p + 1)
        (init_gz s.file junk) (init_gz s.file junk) (init_gz [] junk) s.misc hpad
        (hlive (by simp)) hruns hlog (by simp [init_gz, hfile])
        (by simp [init_gz, hfile])
      have hexit : (merge_pass (init_gz s.file junk) (init_gz s.file junk) (init_gz [] junk)
          s.misc s.misc.unique).misc.line_log.getD 1 0 = -1 := by
        rw [m2]; simp [pair_runs, run_lengths, List.replicate_succ]
      rw [middle_loop_exit junk n _ hexit]
      simp only []
      have hm : merge2 a b = qsort [a, b].flatten :=
        sorted_perm_eq_qsort (merge2_sorted (hsorted a (by simp)) (hsorted b (by simp)))
          (by simpa using merge2_perm a b)
      have hpr : (pair_runs [a, b]).flatten = merge2 a b := by simp [pair_runs]
      rw [m1, m2, hpr]
      by_cases hu : s.misc.unique = 0
      · rw [hu, merge_write_all_zero]
        refine ⟨by simp [init_gz, hm], by simp [init_gz], p + 2, by omega, ?_⟩
        simp [pair_runs, run_lengths, merge2_length]
        omega
      · obtain ⟨w1, w2⟩ := merge_write_all_unique s.misc.unique hu (init_gz [] junk)
          (merge2 a b)
        rw [w1, w2]
        refine ⟨by simp [init_gz, hm, hu], by simp [init_gz], p + 2, by omega, ?_⟩
        simp [pair_runs, run_lengths, merge2_length]
        omega
    | a :: b :: c :: rest, hlen, _, hsorted, hlive, hfile, hlog, hsmall, hruns =>
      have h1 : s.misc.line_log.getD 1 0 ≠ -1 := by
        rw [hlog]; simp [run_lengths]
      have h2 : s.misc.line_log.getD 2 0 ≠ -1 := by
        rw [hlog]; simp [run_lengths]
      rw [middle_loop_step junk n s 0 h1 (by rw [if_neg h2, hun])]
      have hl := hlive (by simp)
      obtain ⟨m1, m2⟩ := merge_pass_spec 0 (a :: b :: c :: rest) (p + 1)
        (init_gz s.file junk) (init_gz s.file junk) (init_gz [] junk) s.misc hpad
        hl hruns hlog (by simp [init_gz, hfile]) (by simp [init_gz, hfile])
      rw [merge_write_all_zero] at m1
      have hplen := pair_runs_length (a :: b :: c :: rest)
      have hperm := pair_runs_flatten_perm (a :: b :: c :: rest)
      have hmod : (a :: b :: c :: rest).length % 2 ≤ 1 := by omega
      simp only [List.length_cons] at hplen hlen hmod
      generalize merge_pass (init_gz s.file junk) (init_gz s.file junk) (init_gz [] junk)
        s.misc 0 = M at m1 m2 ⊢
      have hMu : M.misc.unique = s.misc.unique := by rw [m2]
      obtain ⟨g1, g2, q, g3, g4⟩ := ih (pair_runs (a :: b :: c :: rest))
        ((pair_runs (a :: b :: c :: rest)).length + (p + 1) - (a :: b :: c :: rest).length % 2)
        { file := M.out.f, misc := M.misc, unique := 0, line_counter := M.out.line_counter }
        (by rw [hplen]; omega)
        (by intro h; have := congrArg List.length h; simp only [List.length_nil] at this; omega)
        (pair_runs_sorted _ hsorted)
        (fun _ => live_pairs_of_nonempty _ (pair_runs_nonempty _ hl))
        (by simp only [List.length_cons]; omega)
        (by rw [m1]; simp [init_gz])
        (by rw [m2])
        rfl
        (by rw [hperm.length_eq, hN]; exact hsmall)
      have hge : 2 ≤ (pair_runs (a :: b :: c :: rest)).length := by rw [hplen]; omega
      have hge' : 2 ≤ (a :: b :: c :: rest).length := by simp
      simp only [hge, true_and, if_true, hMu] at g1 g2
      simp only [hge', true_and, if_true]
      refine ⟨?_, g2, q, g3, ?_⟩
      · rw [g1, qsort_congr hperm]
      · rw [g4, m2, hperm.length_eq]

/-! ## The copies into the presort buffer -/

theorem presort_flush_in1 (s : presortState) : (presort_flush s).in1 = s.in1 := rfl

theorem presort_flush_buf_i (s : presortState) : (presort_flush s).buf_i = 0 := rfl

theorem presort_flush_presort_bytes (s : presortState) :
    (presort_flush s).misc.presort_bytes = s.misc.presort_bytes := by
  simp only [presort_flush]
  split <;> rfl

/-- Every copy of the inner loop of `presort_pass` starts at or after the `buf_i` the loop
was entered with and ends, terminator included, strictly below the budget. -/
theorem presort_fill_copies_bound (line_gz : gzBucket → Option Line × gzBucket) (B : Int) :
    ∀ (fuel : Nat) (in1 : gzBucket) (buf_i : Int),
      ∀ c ∈ presort_fill_copies line_gz B fuel in1 buf_i,
        buf_i ≤ c.buf_i ∧ c.buf_i + c.str1.length + 1 < B := by
  intro fuel
  induction fuel with
  | zero => intro in1 buf_i c hc; simp [presort_fill_copies] at hc
  | succ n ih =>
    intro in1 buf_i c hc
    cases hr : line_gz in1 with
    | mk o in1' =>
      cases o with
      | none => simp [presort_fill_copies, hr] at hc
      | some l =>
        by_cases hb : buf_i + l.length + 1 ≥ B
        · simp [presort_fill_copies, hr, hb] at hc
        · simp only [presort_fill_copies, hr, hb, if_false, List.mem_cons] at hc
          rcases hc with h | h
          · subst h
            simp only
            omega
          · have := ih in1' _ c h
            omega

/-- The copies of the inner loop of `presort_pass` are the lines that `presort_fill` adds to
`strings`, and `buf_i` goes up by the bytes copied. -/
theorem presort_fill_copies_strings (line_gz : gzBucket → Option Line × gzBucket) (B : Int) :
    ∀ (fuel : Nat) (in1 : gzBucket) (buf_i : Int) (strings : List Line),
      (presort_fill line_gz B fuel in1 buf_i strings).2.2.2
        = strings ++ (presort_fill_copies line_gz B fuel in1 buf_i).map (fun c => c.str1) ∧
      (presort_fill line_gz B fuel in1 buf_i strings).2.2.1
        = buf_i + buffer_bytes ((presort_fill_copies line_gz B fuel in1 buf_i).map
            (fun c => c.str1)) := by
  intro fuel
  induction fuel with
  | zero => intro in1 buf_i strings; simp [presort_fill, presort_fill_copies, buffer_bytes]
  | succ n ih =>
    intro in1 buf_i strings
    cases hr : line_gz in1 with
    | mk o in1' =>
      cases o with
      | none => simp [presort_fill, presort_fill_copies, hr, buffer_bytes]
      | some l =>
        by_cases hb : buf_i + l.length + 1 ≥ B
        · simp [presort_fill, presort_fill_copies, hr, hb, buffer_bytes]
        · obtain ⟨e1, e2⟩ := ih in1' (buf_i + l.length + 1) (strings ++ [l])
          simp only [presort_fill, presort_fill_copies, hr, hb, if_false]
          refine ⟨by rw [e1]; simp, ?_⟩
          rw [e2]
          simp only [buffer_bytes, List.map_cons, List.sum_cons]
          omega

/-- The copies of the outer loop of `presort_pass` when every line of the source is shorter
than the budget by two bytes or more: every line read is copied once, in the order read,
from an offset that is not negative, and every copy ends strictly below the budget. -/
theorem presort_loop_copies_bound {line_gz : gzBucket → Option Line × gzBucket}
    {view : gzBucket → List Line} {count : gzBucket → Int}
    (hs : LineSource line_gz view count) :
    ∀ (fuel : Nat) (s : presortState),
      (view s.in1).length < fuel → 0 ≤ s.buf_i →
      (∀ l ∈ view s.in1, (l.length : Int) + 1 < s.misc.presort_bytes) →
      (presort_loop_copies line_gz fuel s).map (fun c => c.str1) = view s.in1 ∧
      ∀ c ∈ presort_loop_copies line_gz fuel s,
        0 ≤ c.buf_i ∧ c.buf_i + c.str1.length + 1 < s.misc.presort_bytes := by
  intro fuel
  induction fuel with
  | zero => intro s h; omega
  | succ n ih =>
    intro s hlen hb0 hfit
    obtain ⟨taken, t1, e2, e3, -⟩ := presort_fill_spec hs s.misc.presort_bytes
      (s.in1.f.length + 1) s.in1 s.buf_i s.strings
      (Nat.lt_succ_of_le (hs.bound s.in1))
    have c1 := (presort_fill_copies_strings line_gz s.misc.presort_bytes
      (s.in1.f.length + 1) s.in1 s.buf_i s.strings).1
    have c2 := presort_fill_copies_bound line_gz s.misc.presort_bytes
      (s.in1.f.length + 1) s.in1 s.buf_i
    rw [t1] at c1
    have htk := List.append_cancel_left c1
    subst htk
    simp only [presort_loop_copies]
    generalize presort_fill_copies line_gz s.misc.presort_bytes (s.in1.f.length + 1)
      s.in1 s.buf_i = copies at c2 e2 t1
    rcases hr : presort_fill line_gz s.misc.presort_bytes (s.in1.f.length + 1) s.in1
      s.buf_i s.strings with ⟨str, in1', b', strs'⟩
    rw [hr] at e2 e3
    simp only [] at e2 e3 ⊢
    cases str with
    | none =>
      simp only
      refine ⟨by rw [e2, e3 rfl]; simp, ?_⟩
      intro c hc
      have := c2 c hc
      omega
    | some l =>
      simp only
      have hv : view s.in1 = copies.map (fun c => c.str1) ++ l :: view in1' := by
        rw [e2]; simp
      have f1 : (presort_flush
          { s with in1 := in1', buf_i := b', strings := strs' }).in1 = in1' := rfl
      have f2 : (presort_flush
          { s with in1 := in1', buf_i := b', strings := strs' }).misc.presort_bytes
            = s.misc.presort_bytes := presort_flush_presort_bytes _
      have f3 : (presort_flush
          { s with in1 := in1', buf_i := b', strings := strs' }).buf_i = 0 := rfl
      generalize presort_flush
        { s with in1 := in1', buf_i := b', strings := strs' } = s1 at f1 f2 f3 ⊢
      obtain ⟨g1, g2⟩ := ih
        { s1 with buf_i := (l.length : Int) + 1, strings := [l] }
        (by simp only []; rw [f1]; rw [hv] at hlen; simp at hlen; omega)
        (by simp only []; omega)
        (by
          intro x hx
          simp only [] at hx ⊢
          rw [f1] at hx
          rw [f2]
          exact hfit x (by rw [hv]; simp [hx]))
      generalize presort_loop_copies line_gz n
        { s1 with buf_i := (l.length : Int) + 1, strings := [l] } = rest at g1 g2 ⊢
      simp only [] at g1 g2
      rw [f1] at g1
      rw [f2] at g2
      refine ⟨?_, ?_⟩
      · rw [hv]
        simp [g1]
      · intro c hc
        rcases List.mem_append.mp hc with h | h
        · have := c2 c h
          omega
        · rcases List.mem_cons.mp h with h | h
          · subst h
            have := hfit l (by rw [hv]; simp)
            simp only []
            rw [f3]
            omega
          · exact g2 c h

/-- The copies of `presort_pass` from a source whose lines are all shorter than the budget by
two bytes or more: every line is copied once, in the order read, and every copy starts at an
offset that is not negative and ends strictly below the budget. -/
theorem presort_pass_copies_bound {line_gz : gzBucket → Option Line × gzBucket}
    {view : gzBucket → List Line} {count : gzBucket → Int}
    (hs : LineSource line_gz view count) (in1 out : gzBucket) (misc : miscBucket)
    (hview : view { in1 with line_counter := 0 } = view in1)
    (hfit : ∀ l ∈ view in1, (l.length : Int) + 1 < misc.presort_bytes) :
    (presort_pass_copies in1 out misc line_gz).map (fun c => c.str1) = view in1 ∧
    ∀ c ∈ presort_pass_copies in1 out misc line_gz,
      0 ≤ c.buf_i ∧ c.buf_i + c.str1.length + 1 < misc.presort_bytes := by
  have := presort_loop_copies_bound hs (in1.f.length + 1)
    { in1 := { in1 with line_counter := 0 }, out := out,
      misc := { misc with line_log := clear_log (misc.log_len + 1) misc.line_log 0 },
      log_i := 0, buf_i := 0, strings := [] }
    (by
      simp only [hview]
      exact Nat.lt_succ_of_le (hs.bound in1))
    (le_refl _)
    (by simpa only [hview] using hfit)
  simpa only [hview] using this

/-- The copies of `presort_pass` at the lines b, aa, c with a budget of 6 bytes: b and aa go
to the offsets 0 and 2, c does not fit after them and is copied to offset 0 after the
flush. -/
theorem presort_pass_copies_example :
    presort_pass_copies (init_gz [[98], [97, 97], [99]] []) (init_gz [] [])
      { total_lines := 0, presort_bytes := 6, line_log := [0, 0, 0, 0], log_len := 3,
        unique := 0, nway := 0 } load_line_gz
      = [{ buf_i := 0, str1 := [98] }, { buf_i := 2, str1 := [97, 97] },
         { buf_i := 0, str1 := [99] }] := by
  decide

/-- The copies of `presort_pass` at the single line aaaaaaaaaa with a budget of 5 bytes: the
line does not fit, and the copy made after the flush writes 11 bytes to the 6 bytes of the
buffer. The bound on the copies needs the lines to be shorter than the budget. -/
theorem presort_pass_copies_long_line :
    presort_pass_copies (init_gz [[97, 97, 97, 97, 97, 97, 97, 97, 97, 97]] []) (init_gz [] [])
      { total_lines := 0, presort_bytes := 5, line_log := [0, 0, 0, 0], log_len := 3,
        unique := 0, nway := 0 } load_line_gz
      = [{ buf_i := 0, str1 := [97, 97, 97, 97, 97, 97, 97, 97, 97, 97] }] := by
  decide

/-- C21. For every input whose lines all satisfy length + 1 < B and every budget B,
`presort_pass` copies every line of the input once, and every call
`strcpy(buffer+buf_i, str1)`, in the inner loop or after a flush, is made with
`0 <= buf_i < B` and leaves `buf_i + strlen(str1) + 1 < B`: the copy stays within the
`B + 1` bytes of `buffer`. The other values `buf_i` takes are the 0 at the start and after a
flush, and 0 < B when the input has a line. -/
theorem presort_copies_stay_in_buffer (in1 out : gzBucket) (misc : miscBucket)
    (hfit : ∀ l ∈ in1.f, (l.length : Int) + 1 < misc.presort_bytes) :
    (presort_pass_copies in1 out misc load_line_gz).map (fun c => c.str1) = in1.f ∧
    (∀ c ∈ presort_pass_copies in1 out misc load_line_gz,
      0 ≤ c.buf_i ∧ c.buf_i < misc.presort_bytes ∧
      c.buf_i + c.str1.length + 1 < misc.presort_bytes ∧
      c.buf_i + c.str1.length + 1 ≤ misc.presort_bytes + 1) ∧
    (in1.f ≠ [] → 0 < misc.presort_bytes) := by
  obtain ⟨h1, h2⟩ := presort_pass_copies_bound load_line_gz_source in1 out misc rfl hfit
  refine ⟨h1, ?_, ?_⟩
  · intro c hc
    have := h2 c hc
    omega
  · intro hne
    cases hf : in1.f with
    | nil => exact absurd hf hne
    | cons l ls =>
      have := hfit l (by rw [hf]; simp)
      omega

/-- The theorem `presort_copies_stay_in_buffer` at the lines b, aa, c with a budget of 6
bytes. -/
theorem presort_copies_stay_in_buffer_witness :
    (∀ l ∈ (init_gz [[98], [97, 97], [99]] []).f, (l.length : Int) + 1 < 6) ∧
    (presort_pass_copies (init_gz [[98], [97, 97], [99]] []) (init_gz [] [])
        { total_lines := 0, presort_bytes := 6, line_log := [0, 0, 0, 0], log_len := 3,
          unique := 0, nway := 0 } load_line_gz).map (fun c => c.str1)
      = (init_gz [[98], [97, 97], [99]] []).f ∧
    (∀ c ∈ presort_pass_copies (init_gz [[98], [97, 97], [99]] []) (init_gz [] [])
        { total_lines := 0, presort_bytes := 6, line_log := [0, 0, 0, 0], log_len := 3,
          unique := 0, nway := 0 } load_line_gz,
      0 ≤ c.buf_i ∧ c.buf_i < 6 ∧
      c.buf_i + c.str1.length + 1 < 6 ∧
      c.buf_i + c.str1.length + 1 ≤ 6 + 1) ∧
    ((init_gz [[98], [97, 97], [99]] []).f ≠ [] → (0 : Int) < 6) :=
  ⟨by decide,
    presort_copies_stay_in_buffer (init_gz [[98], [97, 97], [99]] []) (init_gz [] [])
      { total_lines := 0, presort_bytes := 6, line_log := [0, 0, 0, 0], log_len := 3,
        unique := 0, nway := 0 } (by decide)⟩

/-! ## The copies into the presort buffer, on every input -/

/-- The copies of the outer loop of `presort_pass`, for every source and budget: every line
read is copied once, in the order read; a copy of the inner loop ends strictly below the
budget, and the copy of a leftover line is made at offset 0. -/
theorem presort_loop_copies_all {line_gz : gzBucket → Option Line × gzBucket}
    {view : gzBucket → List Line} {count : gzBucket → Int}
    (hs : LineSource line_gz view count) :
    ∀ (fuel : Nat) (s : presortState),
      (view s.in1).length < fuel → 0 ≤ s.buf_i →
      (presort_loop_copies line_gz fuel s).map (fun c => c.str1) = view s.in1 ∧
      ∀ c ∈ presort_loop_copies line_gz fuel s,
        0 ≤ c.buf_i ∧
        (c.buf_i + c.str1.length + 1 < s.misc.presort_bytes ∨ c.buf_i = 0) := by
  intro fuel
  induction fuel with
  | zero => intro s h; omega
  | succ n ih =>
    intro s hlen hb0
    obtain ⟨taken, t1, e2, e3, -⟩ := presort_fill_spec hs s.misc.presort_bytes
      (s.in1.f.length + 1) s.in1 s.buf_i s.strings
      (Nat.lt_succ_of_le (hs.bound s.in1))
    have c1 := (presort_fill_copies_strings line_gz s.misc.presort_bytes
      (s.in1.f.length + 1) s.in1 s.buf_i s.strings).1
    have c2 := presort_fill_copies_bound line_gz s.misc.presort_bytes
      (s.in1.f.length + 1) s.in1 s.buf_i
    rw [t1] at c1
    have htk := List.append_cancel_left c1
    subst htk
    simp only [presort_loop_copies]
    generalize presort_fill_copies line_gz s.misc.presort_bytes (s.in1.f.length + 1)
      s.in1 s.buf_i = copies at c2 e2 t1
    rcases hr : presort_fill line_gz s.misc.presort_bytes (s.in1.f.length + 1) s.in1
      s.buf_i s.strings with ⟨str, in1', b', strs'⟩
    rw [hr] at e2 e3
    simp only [] at e2 e3 ⊢
    cases str with
    | none =>
      simp only
      refine ⟨by rw [e2, e3 rfl]; simp, ?_⟩
      intro c hc
      have := c2 c hc
      exact ⟨by omega, Or.inl this.2⟩
    | some l =>
      simp only
      have hv : view s.in1 = copies.map (fun c => c.str1) ++ l :: view in1' := by
        rw [e2]; simp
      have f1 : (presort_flush
          { s with in1 := in1', buf_i := b', strings := strs' }).in1 = in1' := rfl
      have f2 : (presort_flush
          { s with in1 := in1', buf_i := b', strings := strs' }).misc.presort_bytes
            = s.misc.presort_bytes := presort_flush_presort_bytes _
      have f3 : (presort_flush
          { s with in1 := in1', buf_i := b', strings := strs' }).buf_i = 0 := rfl
      generalize presort_flush
        { s with in1 := in1', buf_i := b', strings := strs' } = s1 at f1 f2 f3 ⊢
      obtain ⟨g1, g2⟩ := ih
        { s1 with buf_i := (l.length : Int) + 1, strings := [l] }
        (by simp only []; rw [f1]; rw [hv] at hlen; simp at hlen; omega)
        (by simp only []; omega)
      generalize presort_loop_copies line_gz n
        { s1 with buf_i := (l.length : Int) + 1, strings := [l] } = rest at g1 g2 ⊢
      simp only [] at g1 g2
      rw [f1] at g1
      rw [f2] at g2
      refine ⟨?_, ?_⟩
      · rw [hv]
        simp [g1]
      · intro c hc
        rcases List.mem_append.mp hc with h | h
        · have := c2 c h
          exact ⟨by omega, Or.inl this.2⟩
        · rcases List.mem_cons.mp h with h | h
          · subst h
            simp only []
            rw [f3]
            exact ⟨le_refl _, Or.inr rfl⟩
          · exact g2 c h

/-- The copies of `presort_pass`, for every source and budget: every line read is copied
once, in the order read; a copy either ends strictly below the budget or is the copy of a
leftover line, made at offset 0. -/
theorem presort_pass_copies_all {line_gz : gzBucket → Option Line × gzBucket}
    {view : gzBucket → List Line} {count : gzBucket → Int}
    (hs : LineSource line_gz view count) (in1 out : gzBucket) (misc : miscBucket)
    (hview : view { in1 with line_counter := 0 } = view in1) :
    (presort_pass_copies in1 out misc line_gz).map (fun c => c.str1) = view in1 ∧
    ∀ c ∈ presort_pass_copies in1 out misc line_gz,
      0 ≤ c.buf_i ∧ (c.buf_i + c.str1.length + 1 < misc.presort_bytes ∨ c.buf_i = 0) := by
  have := presort_loop_copies_all hs (in1.f.length + 1)
    { in1 := { in1 with line_counter := 0 }, out := out,
      misc := { misc with line_log := clear_log (misc.log_len + 1) misc.line_log 0 },
      log_i := 0, buf_i := 0, strings := [] }
    (by
      simp only [hview]
      exact Nat.lt_succ_of_le (hs.bound in1))
    (le_refl _)
  simpa only [hview] using this

/-- The copies of `presort_pass` all fit in the buffer exactly when no line of the source is
longer than the budget: a line of more than `presort_bytes` bytes is put back after the
flush with a copy that overruns the `presort_bytes + 1` bytes allocated. -/
theorem presort_pass_copies_fit {line_gz : gzBucket → Option Line × gzBucket}
    {view : gzBucket → List Line} {count : gzBucket → Int}
    (hs : LineSource line_gz view count) (in1 out : gzBucket) (misc : miscBucket)
    (hview : view { in1 with line_counter := 0 } = view in1) :
    copies_fit misc.presort_bytes (presort_pass_copies in1 out misc line_gz) ↔
      ∀ l ∈ view in1, (l.length : Int) ≤ misc.presort_bytes := by
  obtain ⟨h1, h2⟩ := presort_pass_copies_all hs in1 out misc hview
  constructor
  · intro hfit l hl
    rw [← h1] at hl
    obtain ⟨c, hc, rfl⟩ := List.mem_map.mp hl
    have := hfit c hc
    omega
  · intro hle c hc
    have hmem : c.str1 ∈ view in1 := by
      rw [← h1]
      exact List.mem_map.mpr ⟨c, hc, rfl⟩
    have := hle _ hmem
    have := h2 c hc
    omega

/-- A line of the source that is longer than the budget is copied whole to the start of the
buffer, which it overruns. -/
theorem presort_pass_long_line {line_gz : gzBucket → Option Line × gzBucket}
    {view : gzBucket → List Line} {count : gzBucket → Int}
    (hs : LineSource line_gz view count) (in1 out : gzBucket) (misc : miscBucket)
    (hview : view { in1 with line_counter := 0 } = view in1) (l : Line) (hl : l ∈ view in1)
    (hlong : misc.presort_bytes < (l.length : Int)) :
    ∃ c ∈ presort_pass_copies in1 out misc line_gz, c.buf_i = 0 ∧ c.str1 = l := by
  obtain ⟨h1, h2⟩ := presort_pass_copies_all hs in1 out misc hview
  rw [← h1] at hl
  obtain ⟨c, hc, rfl⟩ := List.mem_map.mp hl
  refine ⟨c, hc, ?_, rfl⟩
  have := h2 c hc
  omega

/-- The copies of the presort of `first_pass` all fit in the buffer exactly when no line of
the input is longer than the budget. -/
theorem first_pass_copies_fit (input : List Line) (misc : miscBucket) (junk : Line) :
    copies_fit misc.presort_bytes (first_pass_copies input misc junk) ↔
      ∀ l ∈ input, (l.length : Int) ≤ misc.presort_bytes :=
  presort_pass_copies_fit load_line_gz_source
    { init_gz input junk with line_counter := 0 } (init_gz [] junk)
    { misc with log_len := 1024, line_log := List.replicate (1024 + 1) 0 } rfl

/-- A line of the input that is longer than the budget is copied whole to the start of the
buffer by the presort of `first_pass`. -/
theorem first_pass_long_line (input : List Line) (misc : miscBucket) (junk : Line)
    (l : Line) (hl : l ∈ input) (hlong : misc.presort_bytes < (l.length : Int)) :
    ∃ c ∈ first_pass_copies input misc junk, c.buf_i = 0 ∧ c.str1 = l :=
  presort_pass_long_line load_line_gz_source
    { init_gz input junk with line_counter := 0 } (init_gz [] junk)
    { misc with log_len := 1024, line_log := List.replicate (1024 + 1) 0 } rfl l hl hlong

/-- C6. For every input and budget, the copies that `presort_pass` makes into its buffer all
fit exactly when no line of the input is longer than the budget: on every input with a line
of more than `presort_bytes` bytes the pass writes past the end of `buffer`, and what it
writes to the output and to the log from there on is not defined. -/
theorem presort_pass_fits_iff (in1 out : gzBucket) (misc : miscBucket) :
    copies_fit misc.presort_bytes (presort_pass_copies in1 out misc load_line_gz) ↔
      ∀ l ∈ in1.f, (l.length : Int) ≤ misc.presort_bytes :=
  presort_pass_copies_fit load_line_gz_source in1 out misc rfl

/-- C19, the code at a line longer than the buffer: the lines b, a line of 5000 times a, and
c, with a budget of 5 bytes. `presort_pass` puts the long line back after the flush with
`strcpy(buffer+0, str1)`, which writes 5001 bytes to the 6 bytes of `buffer`. -/
theorem presort_oversized_line_overruns_buffer :
    ∃ c ∈ presort_pass_copies (init_gz [[98], List.replicate 5000 97, [99]] [])
        (init_gz [] [])
        { total_lines := 0, presort_bytes := 5, line_log := List.replicate 1025 0,
          log_len := 1024, unique := 0, nway := 0 } load_line_gz,
      c.buf_i = 0 ∧ c.str1 = List.replicate 5000 97 ∧
      c.buf_i + c.str1.length + 1 = 5001 ∧ ((5 : Int) + 1 < c.buf_i + c.str1.length + 1) := by
  obtain ⟨c, hc, h1, h2⟩ := presort_pass_long_line load_line_gz_source
    (init_gz [[98], List.replicate 5000 97, [99]] []) (init_gz [] [])
    { total_lines := 0, presort_bytes := 5, line_log := List.replicate 1025 0,
      log_len := 1024, unique := 0, nway := 0 } rfl (List.replicate 5000 97)
    (List.mem_cons_of_mem _ (List.mem_cons_self _ _))
    (by rw [List.length_replicate]; norm_num)
  refine ⟨c, hc, h1, h2, ?_, ?_⟩ <;> rw [h1, h2, List.length_replicate] <;> norm_num

/-- C1, the code at an input with a line longer than the buffer: `-S 10`, which `main` turns
into a budget of 5 bytes, and the lines b, a line of 5000 times a, and c. The presort of
`first_pass` copies the long line to the start of `buffer`: 5001 bytes into the 6 bytes
allocated. The sort goes on with the memory after the buffer overwritten. -/
theorem sort_overruns_presort_buffer :
    main_presort_bytes 10 0 = 5 ∧
    ∃ c ∈ first_pass_copies [[98], List.replicate 5000 97, [99]]
        (main_misc (main_presort_bytes 10 0) 0) [],
      c.buf_i = 0 ∧ c.str1 = List.replicate 5000 97 ∧
      ((main_presort_bytes 10 0) + 1 < c.buf_i + c.str1.length + 1) := by
  have hB : main_presort_bytes 10 0 = 5 := by decide
  refine ⟨hB, ?_⟩
  rw [hB]
  obtain ⟨c, hc, h1, h2⟩ := first_pass_long_line [[98], List.replicate 5000 97, [99]]
    (main_misc 5 0) [] (List.replicate 5000 97)
    (List.mem_cons_of_mem _ (List.mem_cons_self _ _))
    (by rw [List.length_replicate]; show (5 : Int) < ((5000 : Nat) : Int); norm_num)
  refine ⟨c, hc, h1, h2, ?_⟩
  rw [h1, h2, List.length_replicate]
  norm_num

/-- C10. Whenever the input of `first_pass` has a line longer than the budget, the presort
copies that line whole to the start of `buffer` and the copy ends past the
`presort_bytes + 1` bytes allocated: the log that `middle_passes` receives comes from a
run that has written outside its buffer. -/
theorem first_pass_overruns_buffer (input : List Line) (misc : miscBucket) (junk : Line)
    (l : Line) (hl : l ∈ input) (hlong : misc.presort_bytes < (l.length : Int)) :
    ∃ c ∈ first_pass_copies input misc junk,
      c.buf_i = 0 ∧ c.str1 = l ∧ misc.presort_bytes + 1 < c.buf_i + c.str1.length + 1 := by
  obtain ⟨c, hc, h1, h2⟩ := first_pass_long_line input misc junk l hl hlong
  refine ⟨c, hc, h1, h2, ?_⟩
  rw [h1, h2]
  omega

/-- The theorem `first_pass_overruns_buffer` at the lines b, a line of 5000 times a, and c,
with a budget of 5 bytes. -/
theorem first_pass_overruns_buffer_witness :
    List.replicate 5000 97 ∈ ([[98], List.replicate 5000 97, [99]] : List Line) ∧
    (main_misc 5 0).presort_bytes < ((List.replicate 5000 97 : Line).length : Int) ∧
    ∃ c ∈ first_pass_copies [[98], List.replicate 5000 97, [99]] (main_misc 5 0) [],
      c.buf_i = 0 ∧ c.str1 = List.replicate 5000 97 ∧
      (main_misc 5 0).presort_bytes + 1 < c.buf_i + c.str1.length + 1 :=
  ⟨List.mem_cons_of_mem _ (List.mem_cons_self _ _),
    by rw [List.length_replicate]; show (5 : Int) < ((5000 : Nat) : Int); norm_num,
    first_pass_overruns_buffer [[98], List.replicate 5000 97, [99]] (main_misc 5 0) []
      (List.replicate 5000 97) (List.mem_cons_of_mem _ (List.mem_cons_self _ _))
      (by rw [List.length_replicate]; show (5 : Int) < ((5000 : Nat) : Int); norm_num)⟩

/-! ## The un-threaded sort -/

theorem run_lengths_map_qsort (runs : List (List Line)) :
    run_lengths (runs.map qsort) = run_lengths runs := by
  simp [run_lengths, qsort_length]

theorem flatten_map_qsort_perm : ∀ runs : List (List Line),
    (runs.map qsort).flatten.Perm runs.flatten
  | [] => by simp
  | r :: rs => by
    simp only [List.map_cons, List.flatten_cons]
    exact (qsort_perm r).append (flatten_map_qsort_perm rs)

theorem log_slot_one : ∀ (runs : List (List Line)) (pad : Nat), runs ≠ [] → 1 ≤ pad →
    (2 ≤ runs.length ↔ (run_lengths runs ++ List.replicate pad (-1)).getD 1 0 ≠ -1)
  | [], _, h, _ => absurd rfl h
  | [a], pad, _, hp => by
    obtain ⟨p, rfl⟩ : ∃ p, pad = p + 1 := ⟨pad - 1, by omega⟩
    simp [run_lengths, List.replicate_succ]
  | a :: b :: rest, _, _, _ => by
    simp [run_lengths]

/-- The un-threaded sort of fewer than `2^31` lines in closed form: the output is the sorted
input, deduplicated by the last merge pass when `unique` is set and the presort wrote at
least two runs (slot 1 of the log is live after `first_pass`). -/
theorem main_unthreaded_eq (input : List Line) (presort_bytes unique : Int) (junk : Line)
    (hsmall : (input.length : Int) < 2147483648) :
    main_unthreaded input presort_bytes unique junk
      = if (first_pass input (main_misc presort_bytes unique) junk).2.line_log.getD 1 0 ≠ -1
          ∧ unique ≠ 0
        then uniq_from junk (qsort input) else qsort input := by
  obtain ⟨runs, pad, g1, g2, g3, g4, g5, g6, _, g8, _⟩ :=
    first_pass_spec input (main_misc presort_bytes unique) junk
  have hfuel : (runs.map qsort).length
      ≤ (first_pass input (main_misc presort_bytes unique) junk).2.line_log.length := by
    rw [g5]; simp [run_lengths]
  obtain ⟨h1, _, _⟩ := middle_loop_spec junk
    (first_pass input (main_misc presort_bytes unique) junk).2.line_log.length
    (runs.map qsort) pad
    { file := (first_pass input (main_misc presort_bytes unique) junk).1,
      misc := (first_pass input (main_misc presort_bytes unique) junk).2,
      unique := 0, line_counter := 0 }
    hfuel (by simpa using g1) (by
      intro r hr
      obtain ⟨r', _, rfl⟩ := List.mem_map.mp hr
      exact qsort_sorted r')
    (by
      intro h2
      apply live_pairs_of_tail _ h2
      intro r hr
      rw [← List.map_tail] at hr
      obtain ⟨r', hr', rfl⟩ := List.mem_map.mp hr
      intro he
      have := qsort_length r'
      rw [he] at this
      exact g3 r' hr' (List.length_eq_zero.mp this.symm))
    (by omega) g6 (by rw [g5, run_lengths_map_qsort]) rfl
    (by rw [(flatten_map_qsort_perm runs).length_eq, g2]; exact hsmall)
  have hq : qsort (runs.map qsort).flatten = qsort input :=
    qsort_congr ((flatten_map_qsort_perm runs).trans (by rw [g2]))
  have hcond : (2 ≤ (runs.map qsort).length) ↔
      (first_pass input (main_misc presort_bytes unique) junk).2.line_log.getD 1 0 ≠ -1 := by
    rw [g5, List.length_map]
    exact log_slot_one runs pad g1 (by omega)
  simp only [hq, g8, hcond] at h1
  exact h1


/-- The un-threaded sort on the inputs it handles. When no line is longer than the budget
and the input has fewer than `2^31` lines, the copies of the presort stay in the buffer and
the output, with or without `-u` (and whatever the fresh `line` buffers hold), is in order:
every line is less than or equal to the next one under byte-wise comparison. -/
theorem sort_output_sorted (input : List Line) (presort_bytes unique : Int) (junk : Line)
    (hfit : ∀ l ∈ input, (l.length : Int) ≤ presort_bytes)
    (hsmall : (input.length : Int) < 2147483648) :
    copies_fit presort_bytes
      (first_pass_copies input (main_misc presort_bytes unique) junk) ∧
    (main_unthreaded input presort_bytes unique junk).Sorted LineLE := by
  refine ⟨(first_pass_copies_fit input (main_misc presort_bytes unique) junk).mpr hfit, ?_⟩
  rw [main_unthreaded_eq _ _ _ _ hsmall]
  split
  · exact (qsort_sorted input).sublist (uniq_from_sublist junk _)
  · exact qsort_sorted input

/-- The un-threaded sort without `-u` on the inputs it handles. When no line is longer than
the budget and the input has fewer than `2^31` lines, the copies of the presort stay in the
buffer and the output has the same multiset of lines as the input. The input is the list of
the lines that the reader delivers: `Raw.line_reader_agrees` gives the condition under which
these are the lines of the file. -/
theorem sort_output_perm (input : List Line) (presort_bytes : Int) (junk : Line)
    (hfit : ∀ l ∈ input, (l.length : Int) ≤ presort_bytes)
    (hsmall : (input.length : Int) < 2147483648) :
    copies_fit presort_bytes (first_pass_copies input (main_misc presort_bytes 0) junk) ∧
    (main_unthreaded input presort_bytes 0 junk).Perm input := by
  refine ⟨(first_pass_copies_fit input (main_misc presort_bytes 0) junk).mpr hfit, ?_⟩
  rw [main_unthreaded_eq _ _ _ _ hsmall]
  simp only [ne_eq, not_true_eq_false, and_false, if_false]
  exact qsort_perm input

theorem presort_fill_fits (B : Int) : ∀ (fuel : Nat) (in1 : gzBucket) (buf_i : Int)
    (strings : List Line), in1.f.length < fuel → buf_i + buffer_bytes in1.f < B →
    (presort_fill load_line_gz B fuel in1 buf_i strings).1 = none := by
  intro fuel
  induction fuel with
  | zero => intro in1 buf_i strings h; omega
  | succ n ih =>
    intro in1 buf_i strings hlen hfit
    cases hf : in1.f with
    | nil => simp [presort_fill, load_line_gz, hf]
    | cons l ls =>
      rw [hf] at hlen hfit
      simp only [buffer_bytes, List.map_cons, List.sum_cons] at hfit
      have hnat : (0 : Int) ≤ buffer_bytes ls := by
        unfold buffer_bytes
        apply List.sum_nonneg
        intro x hx
        obtain ⟨l', _, rfl⟩ := List.mem_map.mp hx
        omega
      unfold buffer_bytes at hnat
      have hb : ¬ (buf_i + (l.length : Int) + 1 ≥ B) := by omega
      simp only [presort_fill, load_line_gz, hf, hb, if_false]
      apply ih
      · simpa using hlen
      · simp only [buffer_bytes]; omega

/-- When all the lines fit in the presort buffer, `presort_pass` writes a single run: slot 1
of the log stays `-1`. -/
theorem presort_start_single_run (in1 out : gzBucket) (misc : miscBucket) (fuel : Nat)
    (hfuel : in1.f.length < fuel)
    (hlog : misc.line_log = List.replicate (misc.log_len + 1) (-1)) (hroom : 3 ≤ misc.log_len)
    (hfit : buffer_bytes in1.f < misc.presort_bytes) :
    (presort_loop load_line_gz fuel
      { in1 := in1, out := out, misc := misc, log_i := 0, buf_i := 0, strings := [] }
      ).misc.line_log.getD 1 0 = -1 := by
  obtain ⟨n, rfl⟩ : ∃ n, fuel = n + 1 := ⟨fuel - 1, by omega⟩
  have hnone := presort_fill_fits misc.presort_bytes (in1.f.length + 1) in1 0 []
    (by omega) (by simpa using hfit)
  rcases hr : presort_fill load_line_gz misc.presort_bytes (in1.f.length + 1) in1 0 []
    with ⟨str, in1', b', strs'⟩
  rw [hr] at hnone
  simp only [] at hnone
  subst hnone
  rw [presort_loop_none n _ hr]
  obtain ⟨f1, _, _, _⟩ := presort_flush_spec []
    { in1 := in1', out := out, misc := misc, log_i := 0, buf_i := b', strings := strs' }
    ⟨rfl, by simp [hlog], by simpa using hroom⟩
  generalize presort_flush
    { in1 := in1', out := out, misc := misc, log_i := 0, buf_i := b', strings := strs' } = s1
    at f1 ⊢
  have h2 := f1.2
  have h3 := f1.3
  simp only [List.nil_append, List.length_singleton] at h2 h3
  rw [h2]
  obtain ⟨q, hq⟩ : ∃ q, s1.misc.log_len + 1 - 1 = q + 1 := ⟨s1.misc.log_len - 1, by omega⟩
  rw [hq]
  simp [List.replicate_succ]

theorem presort_pass_single_run (in1 out : gzBucket) (misc : miscBucket)
    (hlen : misc.line_log.length = misc.log_len + 1) (hroom : 3 ≤ misc.log_len)
    (hfit : buffer_bytes in1.f < misc.presort_bytes) :
    (presort_pass in1 out misc load_line_gz).2.2.line_log.getD 1 0 = -1 := by
  have hclear : clear_log (misc.log_len + 1) misc.line_log 0
      = List.replicate (misc.log_len + 1) (-1) := by
    have := clear_log_spec (misc.log_len + 1) [] misc.line_log hlen
    simpa using this
  exact presort_start_single_run { in1 with line_counter := 0 } out
    { misc with line_log := clear_log (misc.log_len + 1) misc.line_log 0 }
    (in1.f.length + 1) (Nat.lt_succ_self _) hclear hroom hfit

theorem first_pass_single_run (input : List Line) (misc : miscBucket) (junk : Line)
    (hfit : buffer_bytes input < misc.presort_bytes) :
    (first_pass input misc junk).2.line_log.getD 1 0 = -1 :=
  presort_pass_single_run { init_gz input junk with line_counter := 0 } (init_gz [] junk)
    { misc with log_len := 1024, line_log := List.replicate (1024 + 1) 0 }
    (List.length_replicate _ _) (by show 3 ≤ 1024; omega) hfit

set_option maxRecDepth 100000 in
/-- C3, the code at the input of the claim. With `-u` and the default budget (one presort
run, no merge pass) the lines b, a, c, a come out as a, a, b, c: the duplicate is kept. -/
theorem unique_single_run_keeps_duplicate :
    main_unthreaded [[98], [97], [99], [97]] 500000 1 [] = [[97], [97], [98], [99]] := by
  rw [main_unthreaded_eq _ _ _ _ (by decide), if_neg (by
    rw [first_pass_single_run _ _ _ (by decide)]
    simp)]
  decide

/-! ## The passes and the log -/

theorem live_entries_log (rs : List (List Line)) (pad : Nat) :
    live_entries (run_lengths rs ++ List.replicate pad (-1)) = run_lengths rs := by
  unfold live_entries
  rw [List.filter_append]
  have h1 : (List.replicate pad (-1 : Int)).filter (fun x => x ≠ -1) = [] := by
    rw [List.filter_eq_nil_iff]
    intro x hx
    simp [List.eq_of_mem_replicate hx]
  have h2 : (run_lengths rs).filter (fun x => x ≠ -1) = run_lengths rs := by
    rw [List.filter_eq_self]
    intro x hx
    obtain ⟨r, _, rfl⟩ := List.mem_map.mp hx
    simp
  rw [h1, h2, List.append_nil]

theorem run_lengths_pair_runs : ∀ rs : List (List Line),
    run_lengths (pair_runs rs) = pair_sums (run_lengths rs)
  | [] => rfl
  | [a] => rfl
  | a :: b :: rest => by
    have ih := run_lengths_pair_runs rest
    simp only [run_lengths, pair_runs, List.map_cons, pair_sums, merge2_length,
      Nat.cast_add] at ih ⊢
    rw [ih]

/-- The presort on the inputs it handles. When no line is longer than the budget, the copies
of `presort_pass` (reading with `load_line_gz`) stay in the buffer, and the pass cuts the
lines it reads into consecutive runs and writes each run sorted: what it writes is a
permutation of what it read, every run written is sorted, and the log holds the lengths of
the runs written, one entry for each, followed only by `-1`. -/
theorem presort_pass_writes_sorted_runs (in1 out : gzBucket) (misc : miscBucket)
    (hlen : misc.line_log.length = misc.log_len + 1) (hroom : 3 ≤ misc.log_len)
    (hfit : ∀ l ∈ in1.f, (l.length : Int) ≤ misc.presort_bytes) :
    copies_fit misc.presort_bytes (presort_pass_copies in1 out misc load_line_gz) ∧
    ∃ (runs : List (List Line)) (pad : Nat),
      runs.flatten = in1.f ∧ 0 < pad ∧
      (presort_pass in1 out misc load_line_gz).2.1.f = out.f ++ (runs.map qsort).flatten ∧
      (runs.map qsort).flatten.Perm in1.f ∧
      (∀ r ∈ runs.map qsort, r.Sorted LineLE) ∧
      (presort_pass in1 out misc load_line_gz).2.2.line_log
        = run_lengths (runs.map qsort) ++ List.replicate pad (-1) ∧
      live_entries (presort_pass in1 out misc load_line_gz).2.2.line_log
        = run_lengths (runs.map qsort) := by
  refine ⟨(presort_pass_copies_fit load_line_gz_source in1 out misc rfl).mpr hfit, ?_⟩
  obtain ⟨runs, pad, _, g2, _, g4, g5, g6, _, _⟩ :=
    presort_pass_spec load_line_gz_source in1 out misc hlen hroom
  simp only [] at g2
  refine ⟨runs, pad, g2, by omega, by rw [g6], ?_, ?_, ?_, ?_⟩
  · exact (flatten_map_qsort_perm runs).trans (by rw [g2])
  · intro r hr
    obtain ⟨r', _, rfl⟩ := List.mem_map.mp hr
    exact qsort_sorted r'
  · rw [g5, run_lengths_map_qsort]
  · rw [g5, live_entries_log, run_lengths_map_qsort]

/-- The theorem `presort_pass_writes_sorted_runs` at the lines b, a, c with a budget of 5
bytes and a log of four slots. -/
theorem presort_pass_writes_sorted_runs_witness :
    ([0, 0, 0, 0] : List Int).length = 3 + 1 ∧ 3 ≤ 3 ∧
    (∀ l ∈ (init_gz [[98], [97], [99]] []).f, (l.length : Int) ≤ 5) ∧
    copies_fit 5 (presort_pass_copies (init_gz [[98], [97], [99]] []) (init_gz [] [])
      { total_lines := 0, presort_bytes := 5, line_log := [0, 0, 0, 0], log_len := 3,
        unique := 0, nway := 0 } load_line_gz) ∧
    ∃ (runs : List (List Line)) (pad : Nat),
      runs.flatten = [[98], [97], [99]] ∧ 0 < pad ∧
      (presort_pass (init_gz [[98], [97], [99]] []) (init_gz [] [])
        { total_lines := 0, presort_bytes := 5, line_log := [0, 0, 0, 0], log_len := 3,
          unique := 0, nway := 0 } load_line_gz).2.1.f
        = [] ++ (runs.map qsort).flatten ∧
      (runs.map qsort).flatten.Perm [[98], [97], [99]] ∧
      (∀ r ∈ runs.map qsort, r.Sorted LineLE) ∧
      (presort_pass (init_gz [[98], [97], [99]] []) (init_gz [] [])
        { total_lines := 0, presort_bytes := 5, line_log := [0, 0, 0, 0], log_len := 3,
          unique := 0, nway := 0 } load_line_gz).2.2.line_log
        = run_lengths (runs.map qsort) ++ List.replicate pad (-1) ∧
      live_entries (presort_pass (init_gz [[98], [97], [99]] []) (init_gz [] [])
        { total_lines := 0, presort_bytes := 5, line_log := [0, 0, 0, 0], log_len := 3,
          unique := 0, nway := 0 } load_line_gz).2.2.line_log
        = run_lengths (runs.map qsort) :=
  ⟨by decide, by decide, by decide,
    presort_pass_writes_sorted_runs (init_gz [[98], [97], [99]] []) (init_gz [] [])
      { total_lines := 0, presort_bytes := 5, line_log := [0, 0, 0, 0], log_len := 3,
        unique := 0, nway := 0 } (by decide) (by decide) (by decide)⟩


theorem live_pairs_drop : ∀ (k : Nat) (rs : List (List Line)), live_pairs rs →
    live_pairs (rs.drop (2 * k))
  | 0, rs, h => by simpa using h
  | k + 1, [], _ => by simp [live_pairs]
  | k + 1, [a], _ => by
    have : 2 * (k + 1) = (2 * k + 1) + 1 := by omega
    rw [this]
    simp [live_pairs]
  | k + 1, a :: b :: rest, h => by
    have : 2 * (k + 1) = (2 * k + 1) + 1 := by omega
    rw [this]
    simpa using live_pairs_drop k rest h.2

theorem drop_two (rs : List (List Line)) (j : Nat) (h : j + 2 ≤ rs.length) :
    ∃ a b, rs.drop j = a :: b :: rs.drop (j + 2) ∧ rs.getD j [] = a ∧ rs.getD (j + 1) [] = b := by
  have h0 : j < rs.length := by omega
  have h1 : j + 1 < rs.length := by omega
  refine ⟨rs[j], rs[j + 1], ?_, ?_, ?_⟩
  · rw [List.drop_eq_getElem_cons h0, List.drop_eq_getElem_cons h1]
  · simp [List.getD_eq_getElem?_getD, List.getElem?_eq_getElem h0]
  · simp [List.getD_eq_getElem?_getD, List.getElem?_eq_getElem h1]

/-- At the start of every pair the two readers of `merge_pass` stand at the first line of
the two runs of the pair. -/
theorem merge_iter_inv (unique : Int) (rs : List (List Line)) (pad : Nat) (s0 : mergeState)
    (hpad : 1 ≤ pad) (hlive : live_pairs rs)
    (hsmall : ∀ r ∈ rs, (r.length : Int) < 2147483648) (h0 : MergeInv rs pad [] s0) :
    ∀ k, 2 * k ≤ rs.length →
      ∃ done, MergeInv (rs.drop (2 * k)) pad done (merge_iter unique k s0) := by
  intro k
  induction k with
  | zero => intro _; exact ⟨[], by simpa [merge_iter] using h0⟩
  | succ k ih =>
    intro hk
    obtain ⟨done, hinv⟩ := ih (by omega)
    obtain ⟨a, b, hd, _, _⟩ := drop_two rs (2 * k) (by omega)
    have hl := live_pairs_drop k rs hlive
    rw [hd] at hinv hl
    obtain ⟨_, h2, _, _⟩ := merge_pair_two unique a b _ pad done _ hpad hl.1
      (by
        intro r hr
        apply hsmall r
        have : r ∈ rs.drop (2 * k) := by rw [hd]; exact hr
        exact List.mem_of_mem_drop this)
      hinv
    refine ⟨done ++ [(a.length : Int) + b.length], ?_⟩
    have e : 2 * (k + 1) = 2 * k + 2 := by omega
    rw [e]
    have e2 : merge_iter unique (k + 1) s0 = (merge_pair unique (merge_iter unique k s0)).2 := by
      simp only [merge_iter, Function.iterate_succ_apply']
    rw [e2]
    exact h2

theorem pair_runs_getD : ∀ (rs : List (List Line)) (i : Nat),
    ((pair_runs rs).getD i []).Perm (rs.getD (2 * i) [] ++ rs.getD (2 * i + 1) [])
  | [], i => by simp [pair_runs]
  | [a], 0 => by simp [pair_runs]
  | [a], i + 1 => by
    have : 2 * (i + 1) = (2 * i + 1) + 1 := by omega
    simp [pair_runs, this]
  | a :: b :: rest, 0 => by simpa [pair_runs] using merge2_perm a b
  | a :: b :: rest, i + 1 => by
    have e : 2 * (i + 1) = (2 * i + 1) + 1 := by omega
    have := pair_runs_getD rest i
    simpa [pair_runs, e] using this


theorem merge_start_inv (rs : List (List Line)) (pad : Nat) (in1 in2 out : gzBucket)
    (misc : miscBucket) (hpad : 1 ≤ pad)
    (hsmall : ∀ r ∈ rs, (r.length : Int) < 2147483648)
    (hlog : misc.line_log = run_lengths rs ++ List.replicate pad (-1))
    (h1 : in1.f = rs.flatten) (h2 : in2.f = rs.flatten) :
    MergeInv rs pad [] (merge_start in1 in2 out misc) := by
  refine ⟨rfl, by simpa [merge_start] using hlog, h1, ?_⟩
  simp only [merge_start]
  rw [skip_lines_gz_f, h2, hlog]
  cases rs with
  | nil =>
    obtain ⟨p, rfl⟩ : ∃ p, pad = p + 1 := ⟨pad - 1, by omega⟩
    simp [run_lengths, List.replicate_succ]
  | cons r rest =>
    have : (run_lengths (r :: rest) ++ List.replicate pad (-1)).getD 0 0
        = (r.length : Int) := by simp [run_lengths]
    rw [this, int_arg_length r (hsmall r (by simp))]
    simp

/-- One merge pass on the files it handles. On a working file made of `n >= 2` sorted runs
of fewer than `2^31` lines each, whose lengths are the live entries of
the log, read by `in1` and `in2`, one `merge_pass` without `unique` writes the runs
`pair_runs rs` one after the other: output run `i` is sorted and is a permutation of run
`2i` followed by run `2i+1` (of run `2i` alone when there is no run `2i+1`); and at the
start of pair `k` the reader `in1` stands at the first line of run `2k` and `in2` at the
first line of run `2k+1`. -/
theorem merge_pass_merges_pairs (rs : List (List Line)) (pad : Nat)
    (in1 in2 out : gzBucket) (misc : miscBucket)
    (_hn : 2 ≤ rs.length) (hsorted : ∀ r ∈ rs, r.Sorted LineLE) (hlive : live_pairs rs)
    (hsmall : ∀ r ∈ rs, (r.length : Int) < 2147483648)
    (hpad : 3 ≤ pad) (hlog : misc.line_log = run_lengths rs ++ List.replicate pad (-1))
    (h1 : in1.f = rs.flatten) (h2 : in2.f = rs.flatten) :
    (merge_pass in1 in2 out misc 0).out.f = out.f ++ (pair_runs rs).flatten ∧
    (pair_runs rs).length = (rs.length + 1) / 2 ∧
    (∀ r ∈ pair_runs rs, r.Sorted LineLE) ∧
    (∀ i, ((pair_runs rs).getD i []).Perm (rs.getD (2 * i) [] ++ rs.getD (2 * i + 1) [])) ∧
    (∀ k, 2 * k < rs.length →
      (merge_iter 0 k (merge_start in1 in2 out misc)).in1.f = (rs.drop (2 * k)).flatten ∧
      (merge_iter 0 k (merge_start in1 in2 out misc)).in2.f
        = (rs.drop (2 * k + 1)).flatten) := by
  obtain ⟨m1, _⟩ := merge_pass_spec 0 rs pad in1 in2 out misc hpad hlive hsmall hlog h1 h2
  refine ⟨?_, pair_runs_length rs, pair_runs_sorted rs hsorted, pair_runs_getD rs, ?_⟩
  · rw [m1, merge_write_all_zero]
  · intro k hk
    obtain ⟨done, hinv⟩ := merge_iter_inv 0 rs pad (merge_start in1 in2 out misc) (by omega)
      hlive hsmall (merge_start_inv rs pad in1 in2 out misc (by omega) hsmall hlog h1 h2) k
      (by omega)
    refine ⟨hinv.in1, ?_⟩
    rw [hinv.in2, List.tail_drop]

/-- The theorem `merge_pass_merges_pairs` at a file of three runs: b | a, c | a. -/
theorem merge_pass_merges_pairs_witness :
    2 ≤ ([[[98]], [[97], [99]], [[97]]] : List (List Line)).length ∧
    (∀ r ∈ ([[[98]], [[97], [99]], [[97]]] : List (List Line)), r.Sorted LineLE) ∧
    live_pairs [[[98]], [[97], [99]], [[97]]] ∧
    (∀ r ∈ ([[[98]], [[97], [99]], [[97]]] : List (List Line)),
      (r.length : Int) < 2147483648) ∧ 3 ≤ 3 ∧
    ([1, 2, 1, -1, -1, -1] : List Int)
      = run_lengths [[[98]], [[97], [99]], [[97]]] ++ List.replicate 3 (-1) ∧
    (init_gz [[98], [97], [99], [97]] []).f
      = ([[[98]], [[97], [99]], [[97]]] : List (List Line)).flatten ∧
    (merge_pass (init_gz [[98], [97], [99], [97]] []) (init_gz [[98], [97], [99], [97]] [])
      (init_gz [] [])
      { total_lines := 4, presort_bytes := 5, line_log := [1, 2, 1, -1, -1, -1], log_len := 5,
        unique := 0, nway := 0 } 0).out.f
      = [] ++ (pair_runs [[[98]], [[97], [99]], [[97]]]).flatten :=
  ⟨by decide, by decide,
    ⟨Or.inl (by decide), (by decide : ([[97]] : List Line) ≠ [])⟩, by decide, by decide,
    by decide, by decide,
    (merge_pass_merges_pairs [[[98]], [[97], [99]], [[97]]] 3
      (init_gz [[98], [97], [99], [97]] []) (init_gz [[98], [97], [99], [97]] [])
      (init_gz [] [])
      { total_lines := 4, presort_bytes := 5, line_log := [1, 2, 1, -1, -1, -1], log_len := 5,
        unique := 0, nway := 0 }
      (by decide) (by decide)
      ⟨Or.inl (by decide), (by decide : ([[97]] : List Line) ≠ [])⟩ (by decide) (by decide)
      (by decide) (by decide) (by decide)).1⟩

/-- C8, the code at a first run of `2^31` lines. The working file holds the runs `r0` of
`2^31` lines and `r1`, the log their lengths. `merge_pass` calls `skip_lines_gz(in2, size1)`
with the `int64_t` value `2^31` for the parameter `int skip`, which receives `-2^31`: the
loop of `skip_lines_gz` reads nothing and `in2` stays at the first line of run 0, not of
run 1. The pass then writes the merge of run 0 with the first `r1.length` lines that `in2`
reads, which are lines of run 0 again, and no line of run 1 reaches the output through
`in2`. -/
theorem merge_pass_skip_truncates (r0 r1 : List Line) (pad : Nat)
    (in1 in2 out : gzBucket) (misc : miscBucket)
    (hlen : r0.length = 2147483648) (hpad : 3 ≤ pad)
    (hlog : misc.line_log = run_lengths [r0, r1] ++ List.replicate pad (-1))
    (h1 : in1.f = [r0, r1].flatten) (h2 : in2.f = [r0, r1].flatten) :
    (merge_start in1 in2 out misc).in2.f = r0 ++ r1 ∧
    (merge_start in1 in2 out misc).in2.f ≠ ([r0, r1].drop 1).flatten ∧
    (merge_pass in1 in2 out misc 0).out.f
      = out.f ++ merge2 r0 ((r0 ++ r1).take r1.length) := by
  have hz : (int_arg ((r0.length : Nat) : Int)).toNat = 0 := by
    rw [hlen]; exact int_arg_two_pow
  have e0 : (merge_start in1 in2 out misc).in2.f = r0 ++ r1 := by
    simp only [merge_start]
    rw [skip_lines_gz_f, h2, hlog]
    have : (run_lengths [r0, r1] ++ List.replicate pad (-1)).getD 0 0
        = (r0.length : Int) := by simp [run_lengths]
    rw [this, hz]
    simp
  refine ⟨e0, ?_, ?_⟩
  · rw [e0]
    intro h
    have h3 : (r0 ++ r1).length = r1.length := by rw [h]; simp
    rw [List.length_append] at h3
    clear hz
    omega
  · have hB : ((r0 ++ r1).take r1.length).length = r1.length := by simp
    have hA : r0 ≠ [] := by
      intro h
      rw [h] at hlen
      simp at hlen
    obtain ⟨s1, s2, s3, s4, _, _⟩ := merge_pair_step 0 r0 ((r0 ++ r1).take r1.length) r1
      ((r0 ++ r1).drop r1.length) (r1.length : Int) (List.replicate pad (-1)) []
      (merge_start in1 in2 out misc) rfl
      (by simpa [merge_start, run_lengths] using hlog) (Or.inl (by rw [hB]))
      (by simpa [merge_start] using h1) (by rw [e0, List.take_append_drop]) (Or.inl hA)
    obtain ⟨t1, t2, _⟩ := merge_pair_end 0 pad [(r0.length : Int) +
      ((r0 ++ r1).take r1.length).length] (merge_pair 0 (merge_start in1 in2 out misc)).2
      (by omega) (by simpa using s2) (by rw [s3]; rfl)
    obtain ⟨n, hn⟩ : ∃ n, in1.f.length + in2.f.length + 1 = n + 2 :=
      ⟨in1.f.length + in2.f.length - 1, by
        have := congrArg List.length h1
        simp at this
        omega⟩
    have hstep : merge_pass in1 in2 out misc 0
        = (merge_pair 0 (merge_pair 0 (merge_start in1 in2 out misc)).2).2 := by
      unfold merge_pass
      rw [hn]
      generalize merge_start in1 in2 out misc = s at s1 t1 ⊢
      rw [merge_pairs]
      rcases hp : merge_pair 0 s with ⟨b, s'⟩
      rw [hp] at s1 t1
      simp only [] at s1 t1
      subst s1
      simp only []
      rw [merge_pairs]
      rcases hq : merge_pair 0 s' with ⟨b', s''⟩
      rw [hq] at t1
      simp only [] at t1
      subst t1
      rfl
    rw [hstep, t2, s4, merge_write_all_zero]
    rfl

/-- The theorem `merge_pass_skip_truncates` at a working file of `2^31` lines "a" followed
by the one-line run "b". -/
theorem merge_pass_skip_truncates_witness :
    (List.replicate 2147483648 ([97] : Line)).length = 2147483648 ∧ 3 ≤ 3 ∧
    (merge_start (init_gz [List.replicate 2147483648 [97], [[98]]].flatten [])
      (init_gz [List.replicate 2147483648 [97], [[98]]].flatten []) (init_gz [] [])
      { total_lines := 0, presort_bytes := 5,
        line_log := run_lengths [List.replicate 2147483648 [97], [[98]]]
          ++ List.replicate 3 (-1),
        log_len := 5, unique := 0, nway := 0 }).in2.f
      = List.replicate 2147483648 [97] ++ [[98]] :=
  ⟨List.length_replicate _ _, le_refl 3,
    (merge_pass_skip_truncates (List.replicate 2147483648 [97]) [[98]] 3
      (init_gz [List.replicate 2147483648 [97], [[98]]].flatten [])
      (init_gz [List.replicate 2147483648 [97], [[98]]].flatten []) (init_gz [] [])
      { total_lines := 0, presort_bytes := 5,
        line_log := run_lengths [List.replicate 2147483648 [97], [[98]]]
          ++ List.replicate 3 (-1),
        log_len := 5, unique := 0, nway := 0 }
      (List.length_replicate _ _) (le_refl 3) rfl rfl rfl).1⟩

theorem pair_sums_length : ∀ L : List Int, (pair_sums L).length = (L.length + 1) / 2
  | [] => by simp [pair_sums]
  | [a] => by simp [pair_sums]
  | a :: b :: rest => by
    simp only [pair_sums, List.length_cons, pair_sums_length rest]
    omega

theorem pair_sums_getD : ∀ (L : List Int) (i : Nat), 2 * i + 1 < L.length →
    (pair_sums L).getD i 0 = L.getD (2 * i) 0 + L.getD (2 * i + 1) 0
  | [], i, h => by simp at h
  | [a], i, h => by simp at h
  | a :: b :: rest, 0, _ => by simp [pair_sums]
  | a :: b :: rest, i + 1, h => by
    have e : 2 * (i + 1) = (2 * i + 1) + 1 := by omega
    have := pair_sums_getD rest i (by simp at h; omega)
    simpa [pair_sums, e] using this

theorem pair_sums_last : ∀ (L : List Int), L.length % 2 = 1 →
    (pair_sums L).getD (L.length / 2) 0 = L.getD (L.length - 1) 0
  | [], h => by simp at h
  | [a], _ => by simp [pair_sums]
  | a :: b :: rest, h => by
    have h' : rest.length % 2 = 1 := by simp only [List.length_cons] at h; omega
    have ih := pair_sums_last rest h'
    have hpos : 0 < rest.length := by omega
    have e1 : (a :: b :: rest).length / 2 = rest.length / 2 + 1 := by
      simp only [List.length_cons]; omega
    have e2 : (a :: b :: rest).length - 1 = (rest.length - 1) + 1 + 1 := by
      simp only [List.length_cons]; omega
    rw [e1, e2]
    simpa [pair_sums] using ih

/-- C9. For a log whose `n >= 1` live entries are the lengths of the runs of the working
file, one `merge_pass` (with or without `unique`) leaves a log that starts with
`ceil(n/2)` live entries and holds `-1` in every later slot; entry `i` is the sum
`L[2i] + L[2i+1]` for every complete pair, and for odd `n` the last entry is the unpaired
old entry `L[n-1]`, unchanged. -/
theorem merge_pass_halves_log (unique : Int) (rs : List (List Line)) (pad : Nat)
    (in1 in2 out : gzBucket) (misc : miscBucket)
    (_hn : 1 ≤ rs.length) (hlive : live_pairs rs) (hpad : 3 ≤ pad)
    (hlog : misc.line_log = run_lengths rs ++ List.replicate pad (-1))
    (h1 : in1.f = rs.flatten) (h2 : in2.f = rs.flatten) :
    ∃ q : Nat,
      (merge_pass in1 in2 out misc unique).misc.line_log
        = pair_sums (run_lengths rs) ++ List.replicate q (-1) ∧
      (pair_sums (run_lengths rs)).length = (rs.length + 1) / 2 ∧
      (∀ x ∈ pair_sums (run_lengths rs), x ≠ -1) ∧
      (∀ i, 2 * i + 1 < rs.length → (pair_sums (run_lengths rs)).getD i 0
        = (run_lengths rs).getD (2 * i) 0 + (run_lengths rs).getD (2 * i + 1) 0) ∧
      (rs.length % 2 = 1 → (pair_sums (run_lengths rs)).getD (rs.length / 2) 0
        = (run_lengths rs).getD (rs.length - 1) 0) := by
  obtain ⟨_, m2⟩ := merge_pass_log unique rs pad in1 in2 out misc hpad hlive hlog h1 h2
  have hl : (run_lengths rs).length = rs.length := by simp [run_lengths]
  refine ⟨(pair_runs rs).length + pad - rs.length % 2, ?_, ?_, ?_, ?_, ?_⟩
  · rw [m2, run_lengths_pair_runs]
  · rw [pair_sums_length, hl]
  · intro x hx
    rw [← run_lengths_pair_runs] at hx
    obtain ⟨r, _, rfl⟩ := List.mem_map.mp hx
    omega
  · intro i hi
    exact pair_sums_getD _ i (by rw [hl]; exact hi)
  · intro hodd
    have := pair_sums_last (run_lengths rs) (by rw [hl]; exact hodd)
    rwa [hl] at this

/-- The theorem `merge_pass_halves_log` at a file of three runs: b | a, c | a. -/
theorem merge_pass_halves_log_witness :
    1 ≤ ([[[98]], [[97], [99]], [[97]]] : List (List Line)).length ∧
    live_pairs [[[98]], [[97], [99]], [[97]]] ∧ 3 ≤ 3 ∧
    ([1, 2, 1, -1, -1, -1] : List Int)
      = run_lengths [[[98]], [[97], [99]], [[97]]] ++ List.replicate 3 (-1) ∧
    (init_gz [[98], [97], [99], [97]] []).f
      = ([[[98]], [[97], [99]], [[97]]] : List (List Line)).flatten ∧
    ∃ q : Nat,
      (merge_pass (init_gz [[98], [97], [99], [97]] []) (init_gz [[98], [97], [99], [97]] [])
        (init_gz [] [])
        { total_lines := 4, presort_bytes := 5, line_log := [1, 2, 1, -1, -1, -1],
          log_len := 5, unique := 0, nway := 0 } 0).misc.line_log
        = pair_sums (run_lengths [[[98]], [[97], [99]], [[97]]]) ++ List.replicate q (-1) ∧
      (pair_sums (run_lengths [[[98]], [[97], [99]], [[97]]])).length
        = (([[[98]], [[97], [99]], [[97]]] : List (List Line)).length + 1) / 2 ∧
      (∀ x ∈ pair_sums (run_lengths [[[98]], [[97], [99]], [[97]]]), x ≠ -1) ∧
      (∀ i, 2 * i + 1 < ([[[98]], [[97], [99]], [[97]]] : List (List Line)).length →
        (pair_sums (run_lengths [[[98]], [[97], [99]], [[97]]])).getD i 0
          = (run_lengths [[[98]], [[97], [99]], [[97]]]).getD (2 * i) 0
            + (run_lengths [[[98]], [[97], [99]], [[97]]]).getD (2 * i + 1) 0) ∧
      (([[[98]], [[97], [99]], [[97]]] : List (List Line)).length % 2 = 1 →
        (pair_sums (run_lengths [[[98]], [[97], [99]], [[97]]])).getD
            (([[[98]], [[97], [99]], [[97]]] : List (List Line)).length / 2) 0
          = (run_lengths [[[98]], [[97], [99]], [[97]]]).getD
            (([[[98]], [[97], [99]], [[97]]] : List (List Line)).length - 1) 0) :=
  ⟨by decide, ⟨Or.inl (by decide), (by decide : ([[97]] : List Line) ≠ [])⟩, by decide,
    by decide, by decide,
    merge_pass_halves_log 0 [[[98]], [[97], [99]], [[97]]] 3
      (init_gz [[98], [97], [99], [97]] []) (init_gz [[98], [97], [99], [97]] [])
      (init_gz [] [])
      { total_lines := 4, presort_bytes := 5, line_log := [1, 2, 1, -1, -1, -1], log_len := 5,
        unique := 0, nway := 0 }
      (by decide) ⟨Or.inl (by decide), (by decide : ([[97]] : List Line) ≠ [])⟩ (by decide)
      (by decide) (by decide) (by decide)⟩

/-- The loop of `middle_passes` on the log of a presort that stays in its buffer. When no
line of the input is longer than the budget and the input has fewer than `2^31` lines, the
copies of the presort fit, and the loop of `middle_passes` ends on the log that
`first_pass` leaves: with the fuel that `middle_passes` passes (the number of slots of the
log), and with any larger fuel, it stops on a log whose slot 1 is `-1` and whose only live
entry is the number of lines that the presort read, which is also `total_lines`. -/
theorem middle_passes_ends_with_one_entry (input : List Line) (misc : miscBucket)
    (junk : Line) (extra : Nat)
    (hfit : ∀ l ∈ input, (l.length : Int) ≤ misc.presort_bytes)
    (hsmall : (input.length : Int) < 2147483648) :
    copies_fit misc.presort_bytes (first_pass_copies input misc junk) ∧
    (first_pass input misc junk).2.total_lines = input.length ∧
    (middle_loop junk ((first_pass input misc junk).2.line_log.length + extra)
      { file := (first_pass input misc junk).1, misc := (first_pass input misc junk).2,
        unique := 0, line_counter := 0 }).misc.line_log.getD 1 0 = -1 ∧
    live_entries (middle_loop junk ((first_pass input misc junk).2.line_log.length + extra)
      { file := (first_pass input misc junk).1, misc := (first_pass input misc junk).2,
        unique := 0, line_counter := 0 }).misc.line_log = [(input.length : Int)] ∧
    (middle_passes (first_pass input misc junk).1 (first_pass input misc junk).2
      junk).misc.line_log.getD 1 0 = -1 ∧
    live_entries (middle_passes (first_pass input misc junk).1
      (first_pass input misc junk).2 junk).misc.line_log = [(input.length : Int)] := by
  obtain ⟨runs, pad, g1, g2, g3, g4, g5, g6, g7, _, _⟩ := first_pass_spec input misc junk
  have key : ∀ fuel, (first_pass input misc junk).2.line_log.length ≤ fuel →
      (middle_loop junk fuel
        { file := (first_pass input misc junk).1, misc := (first_pass input misc junk).2,
          unique := 0, line_counter := 0 }).misc.line_log.getD 1 0 = -1 ∧
      live_entries (middle_loop junk fuel
        { file := (first_pass input misc junk).1, misc := (first_pass input misc junk).2,
          unique := 0, line_counter := 0 }).misc.line_log = [(input.length : Int)] := by
    intro fuel hfuel
    obtain ⟨_, _, q, hq, hm⟩ := middle_loop_spec junk fuel (runs.map qsort) pad
      { file := (first_pass input misc junk).1, misc := (first_pass input misc junk).2,
        unique := 0, line_counter := 0 }
      (by rw [g5] at hfuel; simp [run_lengths] at hfuel ⊢; omega)
      (by simpa using g1) (by
        intro r hr
        obtain ⟨r', _, rfl⟩ := List.mem_map.mp hr
        exact qsort_sorted r')
      (by
        intro h2
        apply live_pairs_of_tail _ h2
        intro r hr
        rw [← List.map_tail] at hr
        obtain ⟨r', hr', rfl⟩ := List.mem_map.mp hr
        intro he
        have := qsort_length r'
        rw [he] at this
        exact g3 r' hr' (List.length_eq_zero.mp this.symm))
      (by omega) g6 (by rw [g5, run_lengths_map_qsort]) rfl
      (by rw [(flatten_map_qsort_perm runs).length_eq, g2]; exact hsmall)
    have hlen : (runs.map qsort).flatten.length = input.length := by
      rw [(flatten_map_qsort_perm runs).length_eq, g2]
    rw [hm, hlen]
    obtain ⟨q', rfl⟩ : ∃ q', q = q' + 1 := ⟨q - 1, by omega⟩
    constructor
    · simp [List.replicate_succ]
    · have := live_entries_log [input] (q' + 1)
      simpa [run_lengths] using this
  exact ⟨(first_pass_copies_fit input misc junk).mpr hfit, g7,
    (key _ (Nat.le_add_right _ _)).1, (key _ (Nat.le_add_right _ _)).2,
    (key _ (le_refl _)).1, (key _ (le_refl _)).2⟩

theorem line_calls_spec : ∀ (n : Nat) (g : gzBucket),
    line_calls n g = (g.f.take n).map some ++ List.replicate (n - g.f.length) none
  | 0, g => by simp [line_calls]
  | n + 1, g => by
    cases hf : g.f with
    | nil =>
      have e : load_line_gz g = (none, g) := by simp [load_line_gz, hf]
      have ih := line_calls_spec n g
      rw [hf] at ih
      simp only [line_calls, e, ih]
      simp [List.replicate_succ]
    | cons l ls =>
      have e : load_line_gz g
          = (some l, { g with f := ls, line_counter := g.line_counter + 1 }) := by
        simp [load_line_gz, hf]
      have ih := line_calls_spec n { g with f := ls, line_counter := g.line_counter + 1 }
      simp only [line_calls, e, ih]
      simp

/-! ## The byte-level reader: `load_line_gz` -/

namespace Raw

theorem CHUNK_pos : 0 < CHUNK := by decide

theorem NoNL_append {a b : List Nat} : NoNL (a ++ b) ↔ NoNL a ∧ NoNL b := by
  simp only [NoNL, List.mem_append]
  constructor
  · intro h; exact ⟨fun x hx => h x (Or.inl hx), fun x hx => h x (Or.inr hx)⟩
  · rintro ⟨h1, h2⟩ x (hx | hx)
    · exact h1 x hx
    · exact h2 x hx

theorem NoNul_append {a b : List Nat} : NoNul (a ++ b) ↔ NoNul a ∧ NoNul b := by
  simp only [NoNul, List.mem_append]
  constructor
  · intro h; exact ⟨fun x hx => h x (Or.inl hx), fun x hx => h x (Or.inr hx)⟩
  · rintro ⟨h1, h2⟩ x (hx | hx)
    · exact h1 x hx
    · exact h2 x hx

theorem getD_append_length (pre : List Nat) (x : Nat) (rest : List Nat) :
    (pre ++ x :: rest).getD pre.length 0 = x := by
  rw [List.getD_append_right _ _ _ _ (le_refl _)]
  simp

/-- The scan stops at the first newline. -/
theorem scan_found (rest : List Nat) : ∀ (l pre : List Nat) (fuel i : Nat),
    pre.length = i → NoNL l → i + l.length < CHUNK → l.length < fuel →
    scan (pre ++ (l ++ 10 :: rest)) fuel i = i + l.length
  | [], pre, fuel, i, hi, _, hlt, hf => by
    obtain ⟨n, rfl⟩ : ∃ n, fuel = n + 1 := ⟨fuel - 1, by simp at hf; omega⟩
    subst hi
    have hc : pre.length < CHUNK := by simpa using hlt
    simp only [scan, hc, if_true, List.nil_append, getD_append_length, List.length_nil,
      Nat.add_zero]
  | x :: l, pre, fuel, i, hi, hl, hlt, hf => by
    obtain ⟨n, rfl⟩ : ∃ n, fuel = n + 1 := ⟨fuel - 1, by omega⟩
    subst hi
    have hc : pre.length < CHUNK := by simp only [List.length_cons] at hlt; omega
    have hx : x ≠ 10 := hl x (by simp)
    have ih := scan_found rest l (pre ++ [x]) n (pre.length + 1) (by simp)
      (fun b hb => hl b (by simp [hb]))
      (by simp only [List.length_cons] at hlt; omega)
      (by simp only [List.length_cons] at hf; omega)
    have e : pre ++ (x :: l ++ 10 :: rest) = pre ++ [x] ++ (l ++ 10 :: rest) := by simp
    have e2 : (pre ++ (x :: l ++ 10 :: rest)).getD pre.length 0 = x := by
      simpa using getD_append_length pre x (l ++ 10 :: rest)
    simp only [scan, hc, if_true, e2, hx, if_false]
    rw [e, ih]
    simp only [List.length_cons]
    omega

theorem take_append_of_le {α : Type} (a b : List α) (n : Nat) (h : a.length ≤ n) :
    (a ++ b).take n = a ++ b.take (n - a.length) := by
  rw [List.take_append_eq_append_take, List.take_of_length_le h]

/-- The scan runs up to `CHUNK` when the buffer holds no newline from `i` up to `CHUNK`. -/
theorem scan_none : ∀ (fuel i : Nat) (pre tl : List Nat),
    pre.length = i → NoNL (tl.take (CHUNK - i)) → CHUNK ≤ (pre ++ tl).length → i ≤ CHUNK →
    CHUNK - i ≤ fuel → scan (pre ++ tl) fuel i = CHUNK
  | 0, i, _, _, _, _, _, hi, hf => by
    simp only [scan]; omega
  | fuel + 1, i, pre, tl, hp, hn, hlen, hi, hf => by
    by_cases hc : i < CHUNK
    · cases tl with
      | nil => simp at hlen; omega
      | cons x tl =>
        subst hp
        obtain ⟨k, hk⟩ : ∃ k, CHUNK - pre.length = k + 1 := ⟨CHUNK - pre.length - 1, by omega⟩
        rw [hk, List.take_succ_cons] at hn
        have hx : x ≠ 10 := hn x (by simp)
        have e2 : (pre ++ x :: tl).getD pre.length 0 = x := getD_append_length pre x tl
        have ek : CHUNK - (pre.length + 1) = k := by omega
        have ih := scan_none fuel (pre.length + 1) (pre ++ [x]) tl (by simp)
          (by rw [ek]; exact fun b hb => hn b (by simp [hb])) (by simpa using hlen)
          (by omega) (by omega)
        simp only [scan, hc, if_true, e2, hx, if_false]
        have e : pre ++ x :: tl = pre ++ [x] ++ tl := by simp
        rw [e, ih]
    · simp only [scan, hc, if_false]; omega

theorem NoNL_drop {l : List Nat} (h : NoNL l) (n : Nat) : NoNL (l.drop n) :=
  fun b hb => h b (List.mem_of_mem_drop hb)

theorem NoNL_take {l : List Nat} (h : NoNL l) (n : Nat) : NoNL (l.take n) :=
  fun b hb => h b (List.mem_of_mem_take hb)

/-- A reader that has used up its buffer reads the next bytes of a stream that is not at
its end. -/
theorem load_fill_read (g : gzBucket) (h : NeedRead g) (hf : g.f ≠ []) :
    HasData (load_fill g) (g.f.take CHUNK) ∧ g.f.take CHUNK ≠ [] ∧
    (load_fill g).f = g.f.drop CHUNK ∧
    (load_fill g).line = g.line ∧ (load_fill g).line_i = g.line_i := by
  obtain ⟨h1, h2, h3, h4, _⟩ := h
  have hge : g.buf_i ≥ g.read_len := h1
  have hlen : (g.f.take CHUNK).length ≤ CHUNK := by simp
  refine ⟨⟨[], g.buffer.drop (g.f.take CHUNK).length, ?_, ?_, ?_, ?_, ?_, ?_, ?_, ?_⟩,
    ?_, ?_, ?_, ?_⟩
  · simp [load_fill, hge, gzread]
  · simp [load_fill, hge]
  · simp [load_fill, hge, gzread]
  · simp [load_fill, hge, gzread]
  · intro b hb; simp at hb
  · simp only [load_fill, hge, if_true, gzread]
    rw [← List.drop_take]
    exact NoNL_drop h2 _
  · simp only [load_fill, hge, if_true, gzread, List.length_append, List.length_drop, h3]
    omega
  · intro hne
    simp only [load_fill, hge, if_true, gzread] at hne ⊢
    have : CHUNK < g.f.length := by
      by_contra hc
      exact hne (List.drop_eq_nil_of_le (by omega))
    simp [List.length_take]
    omega
  · intro he
    have hpos := CHUNK_pos
    have hfl := List.length_pos.mpr hf
    have ht := List.length_take CHUNK g.f
    rw [he] at ht
    simp only [List.length_nil] at ht
    omega
  · simp [load_fill, hge, gzread]
  · simp [load_fill, hge, gzread]
  · simp [load_fill, hge, gzread]

/-- A reader that has used up its buffer at the end of the stream reads nothing: `read_len`
becomes 0 and the buffer keeps its bytes. -/
theorem load_fill_eof (g : gzBucket) (h : NeedRead g) (hf : g.f = []) :
    HasData (load_fill g) [] ∧ (load_fill g).read_len = 0 ∧ (load_fill g).f = [] := by
  obtain ⟨h1, h2, h3, h4, _⟩ := h
  have hge : g.buf_i ≥ g.read_len := h1
  refine ⟨⟨[], g.buffer, ?_, ?_, ?_, ?_, ?_, ?_, ?_, ?_⟩, ?_, ?_⟩
  · simp [load_fill, hge, gzread, hf]
  · simp [load_fill, hge]
  · simp [load_fill, hge, gzread, hf]
  · simp [load_fill, hge, gzread, hf]
  · intro b hb; simp at hb
  · simpa [load_fill, hge, gzread, hf] using h2
  · simp [load_fill, hge, gzread, hf, h3]
  · intro hne
    simp [load_fill, hge, gzread, hf] at hne
  · simp [load_fill, hge, gzread, hf]
  · simp [load_fill, hge, gzread, hf]

/-- A reader with unread bytes in its buffer does not read. -/
theorem load_fill_data (g : gzBucket) (D : List Nat) (h : HasData g D) (hD : D ≠ []) :
    load_fill g = g := by
  obtain ⟨pre, post, _, _, h3, _⟩ := h
  have := List.length_pos.mpr hD
  have hlt : ¬ g.buf_i ≥ g.read_len := by omega
  simp [load_fill, hlt]

theorem takeWhile_nul (l rest : List Nat) (hl : NoNul l) :
    (l ++ 0 :: rest).takeWhile (fun b => b ≠ 0) = l := by
  induction l with
  | nil => simp
  | cons x l ih =>
    have hx : decide (x ≠ 0) = true := by simpa using hl x (by simp)
    rw [List.cons_append, List.takeWhile_cons]
    simp only [hx, if_true]
    rw [ih (fun b hb => hl b (by simp [hb]))]


/-- The body of the loop of `load_line_gz` when the newline of the line is in the buffer:
the line is returned, with the bytes `p` held in the spill-over buffer in front. -/
theorem load_scan_found (g : gzBucket) (l D' p : List Nat)
    (h : HasData g (l ++ 10 :: D')) (hl : NoNL l) (hn : NoNul l)
    (hp : g.line.take g.line_i = p) (hpi : g.line_i = p.length) (hpn : NoNul p) :
    (load_scan g).1 = some (p ++ l) ∧ HasData (load_scan g).2 D' ∧
    (load_scan g).2.f = g.f ∧ (load_scan g).2.line_i = 0 := by
  obtain ⟨pre, post, hb, hpre, hlen, hle, hnpre, hnpost, hbl, hfull⟩ := h
  have hb' : g.buffer = pre ++ (l ++ 10 :: (D' ++ post)) := by rw [hb]; simp
  have hdl : (l ++ 10 :: D').length = l.length + 1 + D'.length := by simp; omega
  rw [hdl] at hlen
  have hscan : scan g.buffer CHUNK g.buf_i = g.buf_i + l.length := by
    rw [hb']
    exact scan_found _ l pre CHUNK g.buf_i hpre hl (by omega) (by omega)
  have hne : ¬ (g.buf_i + l.length = CHUNK) := by omega
  have hset : g.buffer.set (g.buf_i + l.length) 0 = pre ++ (l ++ 0 :: (D' ++ post)) := by
    rw [hb', ← hpre, set_append_add, ← Nat.add_zero l.length, set_append_add]
    simp
  have hdrop : (pre ++ (l ++ 0 :: (D' ++ post))).drop g.buf_i = l ++ 0 :: (D' ++ post) := by
    rw [← hpre, List.drop_left]
  have hdata : HasData
      { g with buffer := pre ++ (l ++ 0 :: (D' ++ post)), buf_i := g.buf_i + l.length + 1,
               line_counter := g.line_counter + 1 } D' :=
    ⟨pre ++ l ++ [0], post, by simp, by simp [hpre]; omega, by simp only []; omega, hle,
      by
        intro b hb
        simp only [List.mem_append, List.mem_singleton] at hb
        rcases hb with (hb | hb) | hb
        · exact hnpre b hb
        · exact hl b hb
        · omega,
      hnpost, by simp only []; rw [← hset]; simpa using hbl, hfull⟩
  by_cases h0 : g.line_i = 0
  · have hp0 : p = [] := List.length_eq_zero.mp (by omega)
    subst hp0
    simp only [load_scan, hscan, hne, if_false, hset, h0, ne_eq, not_true_eq_false, hdrop,
      takeWhile_nul l _ hn, List.nil_append]
    refine ⟨trivial, ?_, trivial, trivial⟩
    obtain ⟨a, b, c1, c2, c3, c4, c5, c6, c7, c8⟩ := hdata
    exact ⟨a, b, c1, c2, c3, c4, c5, c6, c7, c8⟩
  · have htake : (l ++ 0 :: (D' ++ post)).take (g.buf_i + l.length + 1 - g.buf_i)
        = l ++ [0] := by
      have e : g.buf_i + l.length + 1 - g.buf_i = l.length + 1 := by omega
      rw [e, List.take_append_eq_append_take]
      simp
    have hline : (g.line.take g.line_i ++ (l ++ [0])).takeWhile (fun b => b ≠ 0) = p ++ l := by
      rw [hp]
      have := takeWhile_nul (p ++ l) [] (NoNul_append.mpr ⟨hpn, hn⟩)
      simpa using this
    simp only [load_scan, hscan, hne, if_false, hset, h0, ne_eq, not_false_eq_true, if_true,
      hdrop, htake, append_line_gz, hline]
    refine ⟨trivial, ?_, trivial, trivial⟩
    obtain ⟨a, b, c1, c2, c3, c4, c5, c6, c7, c8⟩ := hdata
    exact ⟨a, b, c1, c2, c3, c4, c5, c6, c7, c8⟩

/-- The body of the loop of `load_line_gz` when no newline is left in the buffer: nothing is
returned, the buffer is used up, and when the buffer was full of data the unread bytes
are added to the spill-over buffer. -/
theorem load_scan_none (g : gzBucket) (D : List Nat) (h : HasData g D) (hD : NoNL D) :
    (load_scan g).1 = none ∧ NeedRead (load_scan g).2 ∧
    (load_scan g).2.f = g.f ∧ (load_scan g).2.read_len = g.read_len ∧
    (g.read_len = CHUNK →
      (load_scan g).2.line.take (load_scan g).2.line_i = g.line.take g.line_i ++ D ∧
      (load_scan g).2.line_i = g.line_i + D.length) := by
  obtain ⟨pre, post, hb, hpre, hlen, hle, hnpre, hnpost, hbl, hfull⟩ := h
  have hscan : scan g.buffer CHUNK g.buf_i = CHUNK := by
    rw [hb]
    refine scan_none CHUNK g.buf_i pre (D ++ post) hpre ?_
      (by rw [← hb, hbl]; omega) (by omega) (by omega)
    rw [take_append_of_le D post _ (by omega)]
    have e : CHUNK - g.buf_i - D.length = CHUNK - g.read_len := by omega
    rw [e]
    exact NoNL_append.mpr ⟨hD, hnpost⟩
  have hnb : NoNL (g.buffer.take CHUNK) := by
    rw [hb, take_append_of_le pre _ _ (by omega), take_append_of_le D post _ (by omega)]
    have e : CHUNK - pre.length - D.length = CHUNK - g.read_len := by omega
    rw [e]
    exact NoNL_append.mpr ⟨hnpre, NoNL_append.mpr ⟨hD, hnpost⟩⟩
  simp only [load_scan, hscan, if_true, append_line_gz]
  refine ⟨trivial, ⟨by simp only []; omega, hnb, hbl, hle, hfull⟩, trivial, trivial, ?_⟩
  intro hfullc
  have htake : (g.buffer.drop g.buf_i).take (CHUNK - g.buf_i) = D := by
    rw [hb, ← hpre, List.drop_left]
    have e : CHUNK - pre.length = D.length := by omega
    rw [e, List.take_left]
  rw [htake]
  constructor
  · rw [List.take_of_length_le]
    simp
  · trivial


theorem hasData_ready (g : gzBucket) (D : List Nat) (h : HasData g D) : Ready g D := by
  by_cases hD : D = []
  · subst hD
    obtain ⟨pre, post, hb, _, hlen, hle, hnpre, hnpost, hbl, hfull⟩ := h
    have hlen' : g.buf_i = g.read_len := by simpa using hlen
    refine Or.inr ⟨rfl, by omega, ?_, hbl, hle, hfull⟩
    rw [hb, List.nil_append, take_append_of_le pre post _ (by omega)]
    have e : CHUNK - pre.length = CHUNK - g.read_len := by omega
    rw [e]
    exact NoNL_append.mpr ⟨hnpre, hnpost⟩
  · exact Or.inl ⟨hD, h⟩

theorem load_loop_zero (fuel : Nat) (g : gzBucket) (h : g.read_len = 0) :
    load_loop fuel g = (none, g) := by
  cases fuel with
  | zero => rfl
  | succ n => simp [load_loop, h]

theorem load_loop_some (n : Nat) (g g' : gzBucket) (found : List Nat) (h : g.read_len ≠ 0)
    (hs : load_scan (load_fill g) = (some found, g')) :
    load_loop (n + 1) g = (some found, g') := by
  simp [load_loop, h, hs]

theorem load_loop_none (n : Nat) (g g' : gzBucket) (h : g.read_len ≠ 0)
    (hs : load_scan (load_fill g) = (none, g')) :
    load_loop (n + 1) g = load_loop n g' := by
  simp [load_loop, h, hs]

/-- After the body of the loop has looked for data, the reader holds unread bytes. -/
theorem load_fill_ready (g : gzBucket) (D X : List Nat) (h : Ready g D)
    (hX : D ++ g.f = X) (hne : X ≠ []) :
    g.read_len ≠ 0 ∧ ∃ D1, D1 ≠ [] ∧ HasData (load_fill g) D1 ∧ D1 ++ (load_fill g).f = X ∧
      (load_fill g).line = g.line ∧ (load_fill g).line_i = g.line_i ∧
      (load_fill g).f.length + (if D = [] then 1 else 0) ≤ g.f.length := by
  have hpos := CHUNK_pos
  rcases h with ⟨hD, hd⟩ | ⟨hD, hn⟩
  · have hfill := load_fill_data g D hd hD
    have hr : g.read_len ≠ 0 := by
      obtain ⟨_, _, _, _, hlen, _⟩ := hd
      have := List.length_pos.mpr hD
      omega
    rw [hfill]
    exact ⟨hr, D, hD, hd, hX, rfl, rfl, by simp [hD]⟩
  · subst hD
    have hf : g.f ≠ [] := by simpa [← hX] using hne
    obtain ⟨h1, h2, h3, h4, h5⟩ := load_fill_read g hn hf
    have hr : g.read_len ≠ 0 := by
      have := hn.2.2.2.2 hf
      omega
    refine ⟨hr, g.f.take CHUNK, h2, h1, ?_, h4, h5, ?_⟩
    · rw [h3, List.take_append_drop]; simpa using hX
    · rw [h3]
      have := List.length_pos.mpr hf
      simp only [List.length_drop, if_true]
      omega

/-- One call of `load_line_gz` on a reader that stands in front of a line `l` followed by
its newline: the call returns `l`, with the bytes `p` held in the spill-over buffer in
front, and the reader stands behind the newline. -/
theorem load_loop_line : ∀ (n : Nat) (l : List Nat), l.length ≤ n →
    ∀ (g : gzBucket) (D p R' : List Nat) (fuel : Nat), Ready g D →
    D ++ g.f = l ++ 10 :: R' → NoNL l → NoNul l →
    g.line.take g.line_i = p → g.line_i = p.length → NoNul p →
    g.f.length + (if D = [] then 0 else 1) ≤ fuel →
    (load_loop fuel g).1 = some (p ++ l) ∧
    ∃ D', Ready (load_loop fuel g).2 D' ∧ D' ++ (load_loop fuel g).2.f = R' ∧
      (load_loop fuel g).2.line_i = 0 := by
  intro n
  induction n with
  | zero =>
    intro l hl g D p R' fuel hready hstream hnl hnul hp hpi hpn hfuel
    have hl0 : l = [] := List.length_eq_zero.mp (Nat.le_zero.mp hl)
    subst hl0
    obtain ⟨hr, D1, hD1, hdata, hstream1, hline, hlinei, hflen⟩ :=
      load_fill_ready g D _ hready hstream (by simp)
    obtain ⟨m, rfl⟩ : ∃ m, fuel = m + 1 := by
      refine ⟨fuel - 1, ?_⟩
      split at hfuel <;> split at hflen <;> omega
    obtain ⟨D', hD'⟩ : ∃ D', D1 = 10 :: D' := by
      cases D1 with
      | nil => exact absurd rfl hD1
      | cons x D' =>
        simp at hstream1
        exact ⟨D', by rw [hstream1.1]⟩
    subst hD'
    have hR : D' ++ (load_fill g).f = R' := by simpa using hstream1
    obtain ⟨s1, s2, s3, s4⟩ := load_scan_found (load_fill g) [] D' p hdata hnl hnul
      (by rw [hline, hlinei]; exact hp) (by rw [hlinei]; exact hpi) hpn
    rcases hres : load_scan (load_fill g) with ⟨o, g2⟩
    rw [hres] at s1 s2 s3 s4
    simp only [] at s1 s2 s3 s4
    subst s1
    rw [load_loop_some m g g2 _ hr hres]
    exact ⟨rfl, D', hasData_ready g2 D' s2, by rw [s3]; exact hR, s4⟩
  | succ k ih =>
    intro l hl g D p R' fuel hready hstream hnl hnul hp hpi hpn hfuel
    obtain ⟨hr, D1, hD1, hdata, hstream1, hline, hlinei, hflen⟩ :=
      load_fill_ready g D _ hready hstream (by simp)
    obtain ⟨m, rfl⟩ : ∃ m, fuel = m + 1 := by
      refine ⟨fuel - 1, ?_⟩
      split at hfuel <;> split at hflen <;> omega
    have hD1pos := List.length_pos.mpr hD1
    rcases List.append_eq_append_iff.mp hstream1 with ⟨a', e1, e2⟩ | ⟨c', e1, e2⟩
    · -- the line goes on past the bytes of the buffer
      have hnD : NoNL D1 := fun b hb => hnl b (by rw [e1]; simp [hb])
      have hfne : (load_fill g).f ≠ [] := by rw [e2]; simp
      obtain ⟨_, _, _, _, _, _, _, _, _, hfull⟩ := id hdata
      obtain ⟨s1, s2, s3, _, s5⟩ := load_scan_none (load_fill g) D1 hdata hnD
      obtain ⟨s6, s7⟩ := s5 (hfull hfne)
      rcases hres : load_scan (load_fill g) with ⟨o, g2⟩
      rw [hres] at s1 s2 s3 s6 s7
      simp only [] at s1 s2 s3 s6 s7
      subst s1
      rw [load_loop_none m g g2 hr hres]
      have hal : a'.length ≤ k := by
        have := congrArg List.length e1
        simp at this
        omega
      obtain ⟨r1, r2⟩ := ih a' hal g2 [] (p ++ D1) R' m (Or.inr ⟨rfl, s2⟩)
        (by rw [s3, e2]; simp)
        (fun b hb => hnl b (by rw [e1]; simp [hb]))
        (fun b hb => hnul b (by rw [e1]; simp [hb]))
        (by rw [s6, hline, hlinei, hp])
        (by rw [s7, hlinei, hpi]; simp)
        (NoNul_append.mpr ⟨hpn, fun b hb => hnul b (by rw [e1]; simp [hb])⟩)
        (by
          rw [s3]
          simp only [if_true]
          split at hfuel <;> split at hflen <;> omega)
      refine ⟨?_, r2⟩
      rw [r1, e1]; simp
    · -- the newline of the line is in the buffer
      cases c' with
      | nil =>
        -- the buffer ends with the last byte of the line
        simp only [List.append_nil, List.nil_append] at e1 e2
        have hnD : NoNL D1 := by rw [e1]; exact hnl
        have hfne : (load_fill g).f ≠ [] := by rw [← e2]; simp
        obtain ⟨_, _, _, _, _, _, _, _, _, hfull⟩ := id hdata
        obtain ⟨s1, s2, s3, _, s5⟩ := load_scan_none (load_fill g) D1 hdata hnD
        obtain ⟨s6, s7⟩ := s5 (hfull hfne)
        rcases hres : load_scan (load_fill g) with ⟨o, g2⟩
        rw [hres] at s1 s2 s3 s6 s7
        simp only [] at s1 s2 s3 s6 s7
        subst s1
        rw [load_loop_none m g g2 hr hres]
        obtain ⟨r1, r2⟩ := ih [] (Nat.zero_le _) g2 [] (p ++ D1) R' m (Or.inr ⟨rfl, s2⟩)
          (by rw [s3, ← e2])
          (fun b hb => by simp at hb) (fun b hb => by simp at hb)
          (by rw [s6, hline, hlinei, hp])
          (by rw [s7, hlinei, hpi]; simp)
          (NoNul_append.mpr ⟨hpn, by rw [e1]; exact hnul⟩)
          (by
            rw [s3]
            simp only [if_true]
            split at hfuel <;> split at hflen <;> omega)
        refine ⟨?_, r2⟩
        rw [r1, e1]; simp
      | cons x c'' =>
        simp only [List.cons_append, List.cons.injEq] at e2
        obtain ⟨hx, hR⟩ := e2
        subst hx
        obtain ⟨s1, s2, s3, s4⟩ := load_scan_found (load_fill g) l c'' p (e1 ▸ hdata) hnl hnul
          (by rw [hline, hlinei]; exact hp) (by rw [hlinei]; exact hpi) hpn
        rcases hres : load_scan (load_fill g) with ⟨o, g2⟩
        rw [hres] at s1 s2 s3 s4
        simp only [] at s1 s2 s3 s4
        subst s1
        rw [load_loop_some m g g2 _ hr hres]
        exact ⟨rfl, c'', hasData_ready g2 c'' s2, by rw [s3]; exact hR.symm, s4⟩

/-- One call of `load_line_gz` on a reader that has used up its buffer, when no newline is
left in the stream: the call returns NULL, with `read_len` at 0. -/
theorem load_loop_eof_need : ∀ (n : Nat) (g : gzBucket) (fuel : Nat), g.f.length ≤ n →
    NeedRead g → NoNL g.f → g.f.length + 1 ≤ fuel →
    (load_loop fuel g).1 = none ∧ (load_loop fuel g).2.read_len = 0 ∧
    (load_loop fuel g).2.f = [] := by
  intro n
  induction n with
  | zero =>
    intro g fuel hlen hneed hnl hfuel
    have hf : g.f = [] := List.length_eq_zero.mp (Nat.le_zero.mp hlen)
    by_cases hr : g.read_len = 0
    · rw [load_loop_zero fuel g hr]
      exact ⟨rfl, hr, hf⟩
    · obtain ⟨m, rfl⟩ : ∃ m, fuel = m + 1 := ⟨fuel - 1, by omega⟩
      obtain ⟨h1, h2, h3⟩ := load_fill_eof g hneed hf
      obtain ⟨s1, _, s3, s4, _⟩ := load_scan_none (load_fill g) [] h1 (fun b hb => by simp at hb)
      rcases hres : load_scan (load_fill g) with ⟨o, g2⟩
      rw [hres] at s1 s3 s4
      simp only [] at s1 s3 s4
      subst s1
      rw [load_loop_none m g g2 hr hres, load_loop_zero m g2 (by rw [s4, h2])]
      exact ⟨rfl, by rw [s4, h2], by rw [s3, h3]⟩
  | succ k ih =>
    intro g fuel hlen hneed hnl hfuel
    by_cases hf : g.f = []
    · by_cases hr : g.read_len = 0
      · rw [load_loop_zero fuel g hr]
        exact ⟨rfl, hr, hf⟩
      · obtain ⟨m, rfl⟩ : ∃ m, fuel = m + 1 := ⟨fuel - 1, by omega⟩
        obtain ⟨h1, h2, h3⟩ := load_fill_eof g hneed hf
        obtain ⟨s1, _, s3, s4, _⟩ := load_scan_none (load_fill g) [] h1
          (fun b hb => by simp at hb)
        rcases hres : load_scan (load_fill g) with ⟨o, g2⟩
        rw [hres] at s1 s3 s4
        simp only [] at s1 s3 s4
        subst s1
        rw [load_loop_none m g g2 hr hres, load_loop_zero m g2 (by rw [s4, h2])]
        exact ⟨rfl, by rw [s4, h2], by rw [s3, h3]⟩
    · have hpos := CHUNK_pos
      have hr : g.read_len ≠ 0 := by
        have := hneed.2.2.2.2 hf
        omega
      obtain ⟨m, rfl⟩ : ∃ m, fuel = m + 1 := ⟨fuel - 1, by omega⟩
      obtain ⟨h1, _, h3, _, _⟩ := load_fill_read g hneed hf
      obtain ⟨s1, s2, s3, _, _⟩ := load_scan_none (load_fill g) _ h1 (NoNL_take hnl _)
      rcases hres : load_scan (load_fill g) with ⟨o, g2⟩
      rw [hres] at s1 s2 s3
      simp only [] at s1 s2 s3
      subst s1
      rw [load_loop_none m g g2 hr hres]
      have hfl := List.length_pos.mpr hf
      have hg2 : g2.f.length + 1 ≤ g.f.length := by
        rw [s3, h3, List.length_drop]; omega
      exact ih g2 m (by omega) s2 (by rw [s3, h3]; exact NoNL_drop hnl _) (by omega)

/-- One call of `load_line_gz` when no newline is left in the stream: the call returns
NULL, with `read_len` at 0. -/
theorem load_loop_eof (g : gzBucket) (D : List Nat) (fuel : Nat) (h : Ready g D)
    (hnl : NoNL (D ++ g.f)) (hfuel : g.f.length + 2 ≤ fuel) :
    (load_loop fuel g).1 = none ∧ (load_loop fuel g).2.read_len = 0 ∧
    (load_loop fuel g).2.f = [] := by
  rcases h with ⟨hD, hd⟩ | ⟨_, hn⟩
  · obtain ⟨m, rfl⟩ : ∃ m, fuel = m + 1 := ⟨fuel - 1, by omega⟩
    have hr : g.read_len ≠ 0 := by
      obtain ⟨_, _, _, _, hlen, _⟩ := hd
      have := List.length_pos.mpr hD
      omega
    have hfill := load_fill_data g D hd hD
    obtain ⟨s1, s2, s3, _, _⟩ := load_scan_none g D hd (NoNL_append.mp hnl).1
    rcases hres : load_scan g with ⟨o, g2⟩
    rw [hres] at s1 s2 s3
    simp only [] at s1 s2 s3
    subst s1
    rw [load_loop_none m g g2 hr (by rw [hfill]; exact hres)]
    exact load_loop_eof_need g2.f.length g2 m (le_refl _) s2
      (by rw [s3]; exact (NoNL_append.mp hnl).2) (by rw [s3]; omega)
  · exact load_loop_eof_need g.f.length g fuel (le_refl _) hn (NoNL_append.mp hnl).2
      (by omega)

/-- A reader at the end of its stream returns NULL at every call. -/
theorem load_calls_done : ∀ (k : Nat) (g : gzBucket), g.read_len = 0 →
    load_calls k g = List.replicate k none
  | 0, _, _ => rfl
  | k + 1, g, h => by
    have e : load_line_gz g = (none, g) := load_loop_zero _ g h
    simp only [load_calls, e, List.replicate_succ]
    rw [load_calls_done k g h]

theorem stream_of_cons (l : List Nat) (ls : List (List Nat)) (tail : List Nat) :
    stream_of (l :: ls) ++ tail = l ++ 10 :: (stream_of ls ++ tail) := by
  simp [stream_of]

/-- Successive calls of `load_line_gz` on a reader that stands in front of the lines `ls`,
each followed by a newline, and then of bytes `tail` without a newline: the calls return
the lines in order and then NULL; the bytes of `tail` are not returned. -/
theorem load_calls_lines : ∀ (ls : List (List Nat)) (g : gzBucket) (D tail : List Nat)
    (k : Nat), Ready g D → g.line_i = 0 → D ++ g.f = stream_of ls ++ tail →
    (∀ l ∈ ls, NoNL l ∧ NoNul l) → NoNL tail →
    load_calls (ls.length + k) g = ls.map some ++ List.replicate k none
  | [], g, D, tail, k, hready, _, hstream, _, htail => by
    cases k with
    | zero => rfl
    | succ k =>
      obtain ⟨e1, e2, _⟩ := load_loop_eof g D (g.f.length + 2) hready
        (by rw [hstream]; simpa [stream_of] using htail) (le_refl _)
      have e1' : (load_line_gz g).1 = none := e1
      have e2' : (load_line_gz g).2.read_len = 0 := e2
      rw [show ([] : List (List Nat)).length + (k + 1) = k + 1 by simp]
      simp only [load_calls, List.map_nil, List.nil_append, List.replicate_succ]
      rw [load_calls_done k _ e2', e1']
  | l :: ls, g, D, tail, k, hready, hli, hstream, hls, htail => by
    rw [stream_of_cons] at hstream
    obtain ⟨r1, D', r2, r3, r4⟩ := load_loop_line l.length l (le_refl _) g D [] _
      (g.f.length + 2) hready hstream (hls l (by simp)).1 (hls l (by simp)).2
      (by rw [hli]; simp) (by rw [hli]; simp) (fun b hb => by simp at hb)
      (by split <;> omega)
    have ih := load_calls_lines ls (load_line_gz g).2 D' tail k r2 r4 r3
      (fun l' hl' => hls l' (by simp [hl'])) htail
    have e : (l :: ls).length + k = (ls.length + k) + 1 := by simp; omega
    rw [e]
    simp only [load_calls, List.map_cons, List.cons_append]
    rw [ih]
    exact congrArg (· :: (ls.map some ++ List.replicate k none)) (by simpa using r1)

/-- The state of `init_gz`, when the bytes of the buffer below `CHUNK` that the first read
does not overwrite hold no newline. -/
theorem init_gz_ready (file stack : List Nat) (hlen : stack.length = CHUNK + 1)
    (hstack : NoNL ((stack.take CHUNK).drop file.length)) :
    Ready (init_gz file stack) (file.take CHUNK) ∧ (init_gz file stack).line_i = 0 ∧
    file.take CHUNK ++ (init_gz file stack).f = file := by
  refine ⟨hasData_ready _ _ ⟨[], stack.drop (file.take CHUNK).length, ?_, ?_, ?_, ?_, ?_,
    ?_, ?_, ?_⟩, rfl, ?_⟩
  · simp [init_gz, gzread]
  · simp [init_gz, gzread]
  · simp [init_gz, gzread]
  · simp [init_gz, gzread]
  · intro b hb; simp at hb
  · simp only [init_gz, gzread]
    rw [← List.drop_take]
    by_cases hc : file.length ≤ CHUNK
    · have e : (file.take CHUNK).length = file.length := by
        rw [List.length_take]; omega
      rw [e]
      exact hstack
    · have e : (file.take CHUNK).length = CHUNK := by
        rw [List.length_take]; omega
      rw [e, List.drop_eq_nil_of_le (by simp)]
      intro b hb
      simp at hb
  · simp only [init_gz, gzread, List.length_append, List.length_drop, hlen]
    have : (file.take CHUNK).length ≤ CHUNK := by simp
    omega
  · intro hne
    simp only [init_gz, gzread] at hne ⊢
    have : CHUNK < file.length := by
      by_contra hc
      exact hne (List.drop_eq_nil_of_le (by omega))
    simp [List.length_take]
    omega
  · simp [init_gz, gzread]

/-- The reader on a stream of newline-terminated, NUL-free lines followed by bytes without a
newline, when the bytes of the buffer below `CHUNK` that the first read does not overwrite
hold no newline: successive calls of `load_line_gz` return the lines in order and then
NULL. -/
theorem reader_delivers (ls : List (List Nat)) (tail stack : List Nat) (k : Nat)
    (hls : ∀ l ∈ ls, NoNL l ∧ NoNul l) (htail : NoNL tail)
    (hlen : stack.length = CHUNK + 1)
    (hstack : NoNL ((stack.take CHUNK).drop (stream_of ls ++ tail).length)) :
    load_calls (ls.length + k) (init_gz (stream_of ls ++ tail) stack)
      = ls.map some ++ List.replicate k none := by
  obtain ⟨h1, h2, h3⟩ := init_gz_ready (stream_of ls ++ tail) stack hlen hstack
  exact load_calls_lines ls _ _ tail k h1 h2 h3 hls htail

/-- The reader on a stream of at least `CHUNK` bytes made of newline-terminated, NUL-free
lines: the first read overwrites the buffer, and successive calls of `load_line_gz` return
the lines in order and then NULL, whatever the buffer held before. -/
theorem reader_delivers_long (ls : List (List Nat)) (stack : List Nat) (k : Nat)
    (hls : ∀ l ∈ ls, NoNL l ∧ NoNul l) (hlen : stack.length = CHUNK + 1)
    (hlong : CHUNK ≤ (stream_of ls).length) :
    load_calls (ls.length + k) (init_gz (stream_of ls) stack)
      = ls.map some ++ List.replicate k none := by
  have h := reader_delivers ls [] stack k hls (fun b hb => by simp at hb) hlen (by
    rw [List.drop_eq_nil_of_le (by simp; omega)]
    intro b hb
    simp at hb)
  simpa using h

/-- The reader on a stream of newline-terminated, NUL-free lines, when the buffer holds no
newline before the first read: successive calls of `load_line_gz` return the lines in
order and then NULL. -/
theorem reader_delivers_clean (ls : List (List Nat)) (stack : List Nat) (k : Nat)
    (hls : ∀ l ∈ ls, NoNL l ∧ NoNul l) (hlen : stack.length = CHUNK + 1)
    (hstack : NoNL stack) :
    load_calls (ls.length + k) (init_gz (stream_of ls) stack)
      = ls.map some ++ List.replicate k none := by
  have h := reader_delivers ls [] stack k hls (fun b hb => by simp at hb) hlen
    (NoNL_drop (NoNL_take hstack _) _)
  simpa using h

theorem load_calls_take : ∀ (n m : Nat) (g : gzBucket),
    (load_calls (n + m) g).take n = load_calls n g
  | 0, m, g => by simp [load_calls]
  | n + 1, m, g => by
    have e : n + 1 + m = (n + m) + 1 := by omega
    rw [e]
    simp only [load_calls, List.take_succ_cons]
    rw [load_calls_take n m]

/-- The line-level reader agrees with the byte-level one. On the stream made of the
newline-terminated, NUL-free lines `ls`, read through a buffer whose bytes below `CHUNK`
that the first read does not overwrite hold no newline, any number of calls of the byte-level
`load_line_gz` returns what the same number of calls of the line-level `load_line_gz`
returns on the file `ls`. -/
theorem line_reader_agrees (ls : List (List Nat)) (stack : List Nat) (junk : Line) (n : Nat)
    (hls : ∀ l ∈ ls, NoNL l ∧ NoNul l) (hlen : stack.length = CHUNK + 1)
    (hstack : NoNL ((stack.take CHUNK).drop (stream_of ls).length)) :
    load_calls n (init_gz (stream_of ls) stack) = line_calls n (GzSort.init_gz ls junk) := by
  have h := reader_delivers ls [] stack n hls (fun b hb => by simp at hb) hlen
    (by simpa using hstack)
  simp only [List.append_nil] at h
  have ht := load_calls_take n ls.length (init_gz (stream_of ls) stack)
  rw [Nat.add_comm, h] at ht
  rw [← ht, line_calls_spec]
  simp only [GzSort.init_gz]
  by_cases hn : n ≤ ls.length
  · rw [List.take_append_of_le_length (by simpa using hn)]
    simp [Nat.sub_eq_zero_of_le hn, List.map_take]
  · have hn' : ls.length ≤ n := by omega
    rw [take_append_of_le _ _ _ (by simpa using hn')]
    simp [List.take_of_length_le hn', List.take_replicate]

/-- The loop of `append_line_gz` leaves room for the bytes to copy. -/
theorem grow_line_fits (line_i length : Nat) : ∀ (fuel line_len : Nat), 0 < line_len →
    line_i + length < fuel + line_len → line_i + length < grow_line line_i length fuel line_len
  | 0, line_len, _, h => by simpa [grow_line] using h
  | fuel + 1, line_len, hpos, h => by
    by_cases hc : line_i + length ≥ line_len
    · simp only [grow_line, hc, if_true]
      exact grow_line_fits line_i length fuel (line_len * 2) (by omega) (by omega)
    · simp only [grow_line, hc, if_false]
      omega

/-- After `append_line_gz` the bytes held in `line` fit in its `line_len + 1` bytes, with
room for a terminator: the copy stays inside the spill-over buffer however long the line
grows. -/
theorem append_line_gz_fits (g : gzBucket) (str : List Nat) (h : 0 < g.line_len) :
    (append_line_gz g str).line_i < (append_line_gz g str).line_len := by
  simp only [append_line_gz]
  exact grow_line_fits g.line_i str.length _ g.line_len h (by omega)

/-- C4, the code at a failing input. The stream is the one line "a" with its newline, and
the buffer, which `init_gz` leaves as it finds it, holds a newline at index 2. The first
call returns "a"; the second call reads 0 bytes, scans the whole buffer, finds the stale
newline and returns "a" again, where NULL is due. -/
theorem stale_newline_repeats_line :
    load_calls 3 (init_gz [97, 10] ([0, 0, 10] ++ List.replicate 16382 0))
      = [some [97], some [97], none] := by
  decide

theorem NoNL_zeros (n : Nat) : NoNL (List.replicate n 0) := by
  intro b hb
  rw [List.eq_of_mem_replicate hb]
  decide

/-- C5, the claim at an input without a final newline. The stream is the line "a" with
its newline and then "b" without one, the buffer is zero-filled before the first read. The
first call returns "a", the second and the third return NULL: "b" is not returned. -/
theorem unterminated_line_not_returned :
    load_calls 3 (init_gz [97, 10, 98] (List.replicate (CHUNK + 1) 0))
      = [some [97], none, none] :=
  reader_delivers [[97]] [98] (List.replicate (CHUNK + 1) 0) 2 (by decide) (by decide)
    (List.length_replicate _ _) (NoNL_drop (NoNL_take (NoNL_zeros _) _) _)

/-- C5, amended. For every stream of newline-terminated, NUL-free lines followed by a last
line without a newline, read through a buffer whose bytes below `CHUNK` that the first read
does not overwrite hold no newline, successive calls of `load_line_gz` return the
terminated lines in order and then NULL at every call: the unterminated last line is not
returned. -/
theorem unterminated_last_line_dropped (ls : List (List Nat)) (tail stack : List Nat)
    (k : Nat) (hls : ∀ l ∈ ls, NoNL l ∧ NoNul l) (htail : NoNL tail) (_hne : tail ≠ [])
    (hlen : stack.length = CHUNK + 1)
    (hstack : NoNL ((stack.take CHUNK).drop (stream_of ls ++ tail).length)) :
    load_calls (ls.length + k) (init_gz (stream_of ls ++ tail) stack)
      = ls.map some ++ List.replicate k none :=
  reader_delivers ls tail stack k hls htail hlen hstack

/-- The theorem `unterminated_last_line_dropped` at the lines "bc" and "" followed by "d"
without a newline, with a zero-filled buffer. -/
theorem unterminated_last_line_dropped_witness :
    (∀ l ∈ ([[98, 99], []] : List (List Nat)), NoNL l ∧ NoNul l) ∧ NoNL [100] ∧
    ([100] : List Nat) ≠ [] ∧ (List.replicate (CHUNK + 1) 0).length = CHUNK + 1 ∧
    NoNL (((List.replicate (CHUNK + 1) 0).take CHUNK).drop
      (stream_of [[98, 99], []] ++ [100]).length) ∧
    load_calls (([[98, 99], []] : List (List Nat)).length + 1)
        (init_gz (stream_of [[98, 99], []] ++ [100]) (List.replicate (CHUNK + 1) 0))
      = ([[98, 99], []] : List (List Nat)).map some ++ List.replicate 1 none :=
  ⟨by decide, by decide, by decide, List.length_replicate _ _,
    NoNL_drop (NoNL_take (NoNL_zeros _) _) _,
    unterminated_last_line_dropped [[98, 99], []] [100] (List.replicate (CHUNK + 1) 0) 1
      (by decide) (by decide) (by decide) (List.length_replicate _ _)
      (NoNL_drop (NoNL_take (NoNL_zeros _) _) _)⟩

end Raw

/-! ## The sort behind the byte-level reader -/

set_option maxRecDepth 100000 in
/-- C2, the code at a failing input: the file of the lines b, a, c, read through a buffer
that holds a newline after the bytes of the file (`init_gz` leaves the buffer, a field of a
`gzBucket` on the stack, as it finds it). The reader of `first_pass` returns b, a, c and
then, where NULL is due, the line b again; the sort, here with `-S 1000000` and without
`-u`, writes the four lines a, b, b, c, which are not a permutation of the three lines of
the input. -/
theorem sort_repeats_first_line :
    Raw.load_calls 5 (Raw.init_gz [98, 10, 97, 10, 99, 10]
        ([0, 0, 0, 0, 0, 0, 10] ++ List.replicate 16378 0))
      = [some [98], some [97], some [99], some [98], none] ∧
    main_unthreaded [[98], [97], [99], [98]] (main_presort_bytes 1000000 0) 0 []
      = [[97], [98], [98], [99]] ∧
    ¬ ([[97], [98], [98], [99]] : List Line).Perm [[98], [97], [99]] := by
  refine ⟨by decide, ?_, fun h => absurd h.length_eq (by decide)⟩
  rw [main_unthreaded_eq _ _ _ _ (by decide)]
  simp only [ne_eq, not_true_eq_false, and_false, if_false]
  decide

/-! ## The parallel sort: the partition of the input -/

theorem nway_pick_skip (N k : Nat) : ∀ (c o : Nat) (l : List Line),
    (∀ p, o ≤ p → p < o + c → p / 1000 % N ≠ k) →
    nway_pick N k o l = nway_pick N k (o + c) (l.drop c)
  | 0, o, l, _ => by simp
  | c + 1, o, [], _ => by simp [nway_pick]
  | c + 1, o, x :: l, h => by
    have h0 := h o (le_refl _) (by omega)
    have ih := nway_pick_skip N k c (o + 1) l (fun p hp1 hp2 => h p (by omega) (by omega))
    simp only [nway_pick, h0, if_false, List.drop_succ_cons]
    rw [ih]
    congr 1
    omega

theorem block_mod_ne (N k j b : Nat) (h1 : k + j * N < b) (h2 : b < k + j * N + N) :
    b % N ≠ k := by
  intro h
  have hb := Nat.mod_add_div b N
  rw [h] at hb
  have h3 : j * N < N * (b / N) := by omega
  have h4 : N * (b / N) < (j + 1) * N := by rw [Nat.add_mul]; omega
  rw [Nat.mul_comm N] at h3 h4
  have h5 := Nat.lt_of_mul_lt_mul_right h3
  have h6 := Nat.lt_of_mul_lt_mul_right h4
  omega

theorem block_mod_eq (N k j : Nat) (hk : k < N) : (k + j * N) % N = k := by
  rw [Nat.add_mul_mod_self_right, Nat.mod_eq_of_lt hk]

theorem subset_lines_gz_pos (g : gzBucket) (h : 0 < g.subset_counter) :
    subset_lines_gz g = load_line_gz { g with subset_counter := g.subset_counter - 1 } := by
  simp [subset_lines_gz, not_le.mpr h]

theorem skip_loop_nway (n : Nat) (g : gzBucket) :
    (skip_loop n g).nway_lines = g.nway_lines ∧ (skip_loop n g).nway_skips = g.nway_skips := by
  induction n generalizing g with
  | zero => exact ⟨rfl, rfl⟩
  | succ n ih =>
    have h := ih (load_line_gz g).2
    simp only [skip_loop]
    rw [h.1, h.2]
    cases hf : g.f <;> simp [load_line_gz, hf]

/-- The calls of `nway_line_gz` on a reader that stands at line `o` of the input with `c`
lines of its block left: they return the lines that stand in the blocks of worker `k`. -/
theorem read_lines_nway (N k : Nat) (hk : k < N) : ∀ (fuel : Nat) (g : gzBucket) (o c : Nat),
    g.f.length < fuel → g.subset_counter = c → g.nway_lines = 1000 →
    g.nway_skips = 1000 * ((N : Int) - 1) →
    (0 < c → o / 1000 % N = k ∧ o % 1000 + c = 1000) →
    (c = 0 → ∃ j, o = 1000 * (k + j * N + 1)) →
    read_lines nway_line_gz fuel g = nway_pick N k o g.f := by
  intro fuel
  induction fuel with
  | zero => intro g o c h; omega
  | succ n ih =>
    intro g o c hlen hc hl hs hpos hzero
    rcases Nat.eq_zero_or_pos c with h0 | h0
    · subst h0
      obtain ⟨j, hj⟩ := hzero rfl
      have hsk : (1000 * ((N : Int) - 1)).toNat = 1000 * (N - 1) := by omega
      have hskip : nway_pick N k o g.f
          = nway_pick N k (o + 1000 * (N - 1)) (g.f.drop (1000 * (N - 1))) := by
        apply nway_pick_skip
        intro p hp1 hp2
        apply block_mod_ne N k j (p / 1000) <;> omega
      have ho : (o + 1000 * (N - 1)) / 1000 = k + (j + 1) * N := by
        rw [Nat.add_mul]; omega
      have hcall : nway_line_gz g = load_line_gz
          { skip_lines_gz g g.nway_skips with subset_counter := 1000 - 1 } := by
        simp only [nway_line_gz]
        rw [if_pos (by rw [hc]; simp), hl]
        rw [subset_lines_gz_pos _ (by simp)]
      rw [hskip]
      simp only [read_lines, hcall]
      cases hf : (skip_lines_gz g g.nway_skips).f with
      | nil =>
        rw [skip_lines_gz_f, hs, hsk] at hf
        simp [load_line_gz, skip_lines_gz_f, hs, hsk, hf, nway_pick]
      | cons x l' =>
        have hf' := hf
        rw [skip_lines_gz_f, hs, hsk] at hf'
        simp only [load_line_gz, hf]
        rw [hf']
        simp only [nway_pick, ho, block_mod_eq N k (j + 1) hk, if_true]
        congr 1
        have hl' : l'.length < g.f.length := by
          have := congrArg List.length hf'
          simp at this
          omega
        refine ih _ (o + 1000 * (N - 1) + 1) 999 ?_ ?_ ?_ ?_ ?_ ?_
        · simp only []; omega
        · simp only []; norm_num
        · simp only []; rw [skip_lines_gz, (skip_loop_nway _ g).1, hl]
        · simp only []; rw [skip_lines_gz, (skip_loop_nway _ g).2, hs]
        · intro _
          have : (o + 1000 * (N - 1) + 1) / 1000 = k + (j + 1) * N := by omega
          rw [this, block_mod_eq N k (j + 1) hk]
          exact ⟨rfl, by omega⟩
        · intro h; omega
    · obtain ⟨hb, hoc⟩ := hpos h0
      have hcall : nway_line_gz g = load_line_gz
          { g with subset_counter := g.subset_counter - 1 } := by
        simp only [nway_line_gz]
        rw [if_neg (by rw [hc]; omega)]
        exact subset_lines_gz_pos _ (by rw [hc]; omega)
      simp only [read_lines, hcall]
      cases hf : g.f with
      | nil => simp [load_line_gz, hf, nway_pick]
      | cons x l' =>
        simp only [load_line_gz, hf, nway_pick, hb, if_true]
        congr 1
        refine ih _ (o + 1) (c - 1) ?_ ?_ hl hs ?_ ?_
        · simp only []; rw [hf] at hlen; simpa using hlen
        · simp only []; rw [hc]; omega
        · intro h
          have : (o + 1) / 1000 = o / 1000 := by omega
          rw [this, hb]
          exact ⟨rfl, by omega⟩
        · intro h
          refine ⟨o / 1000 / N, ?_⟩
          have := Nat.mod_add_div (o / 1000) N
          rw [hb] at this
          have h2 : o / 1000 = k + o / 1000 / N * N := by rw [Nat.mul_comm]; omega
          omega

theorem nway_lines_read_eq (input : List Line) (junk : Line) (k N : Nat) (hk : k < N) :
    nway_lines_read input junk k N = nway_pick N k 0 input := by
  unfold nway_lines_read
  have hsk : (NWAY_WINDOW * (k : Int)).toNat = 1000 * k := by simp [NWAY_WINDOW]; omega
  have hf : (nway_reader input junk k N).f = input.drop (1000 * k) := by
    simp [nway_reader, skip_lines_gz_f, hsk, init_gz]
  have h := read_lines_nway N k hk (input.length + 1) (nway_reader input junk k N)
    (1000 * k) 1000 (by rw [hf]; simp; omega) (by simp [nway_reader, NWAY_WINDOW])
    (by simp [nway_reader, NWAY_WINDOW]) (by simp [nway_reader, NWAY_WINDOW])
    (fun _ => ⟨by
      have : 1000 * k / 1000 = k := by omega
      rw [this, Nat.mod_eq_of_lt hk], by omega⟩)
    (fun h => by omega)
  rw [h, hf]
  have := nway_pick_skip N k (1000 * k) 0 input (by
    intro p _ hp
    have : p / 1000 < k := by omega
    rw [Nat.mod_eq_of_lt (by omega)]
    omega)
  simpa using this.symm

theorem nway_pick_eq (N k : Nat) : ∀ (l : List Line) (o : Nat),
    nway_pick N k o l
      = ((List.range l.length).filter (fun p => (o + p) / 1000 % N = k)).map
          (fun p => l.getD p [])
  | [], o => by simp [nway_pick]
  | x :: l, o => by
    have ih := nway_pick_eq N k l (o + 1)
    simp only [nway_pick, List.length_cons, List.range_succ_eq_map, List.filter_cons,
      Nat.add_zero]
    rw [ih, List.filter_map]
    have e : (fun p => decide ((o + 1 + p) / 1000 % N = k))
        = ((fun p => decide ((o + p) / 1000 % N = k)) ∘ Nat.succ) := by
      funext p
      simp only [Function.comp, Nat.succ_eq_add_one]
      have : o + 1 + p = o + (p + 1) := by omega
      rw [this]
    rw [e]
    by_cases h : o / 1000 % N = k
    · simp [h, Function.comp]
    · simp [h, Function.comp]


theorem nway_lines_read_positions (input : List Line) (junk : Line) (k N : Nat) (hk : k < N) :
    nway_lines_read input junk k N
      = (nway_positions N k input.length).map (fun p => input.getD p []) := by
  rw [nway_lines_read_eq input junk k N hk, nway_pick_eq]
  simp [nway_positions]

/-- C11. For every number `N >= 1` of workers and every input, the lines that the workers
`k = 0 .. N-1` read (1000*k lines skipped, then `nway_line_gz` with `nway_lines = 1000` and
`nway_skips = 1000*(N-1)`) form a partition of the input: each worker reads the lines at an
increasing list of positions of the input, and every position of the input is in the list
of exactly one worker. -/
theorem nway_workers_partition (N : Nat) (hN : 1 ≤ N) (input : List Line) (junk : Line) :
    ∃ pos : Nat → List Nat,
      (∀ k, k < N → nway_lines_read input junk k N = (pos k).map (fun p => input.getD p [])) ∧
      (∀ k, k < N → (pos k).Sorted (fun a b => a < b)) ∧
      (∀ k, k < N → ∀ p ∈ pos k, p < input.length) ∧
      (∀ p, p < input.length → ∃! k, k < N ∧ p ∈ pos k) := by
  refine ⟨fun k => nway_positions N k input.length, ?_, ?_, ?_, ?_⟩
  · intro k hk
    exact nway_lines_read_positions input junk k N hk
  · intro k _
    exact (List.sorted_lt_range input.length).sublist (List.filter_sublist _)
  · intro k _ p hp
    simp only [nway_positions, List.mem_filter, List.mem_range] at hp
    exact hp.1
  · intro p hp
    refine ⟨p / 1000 % N, ⟨Nat.mod_lt _ (by omega), ?_⟩, ?_⟩
    · simp [nway_positions, hp]
    · rintro k ⟨_, hk⟩
      simp only [nway_positions, List.mem_filter, List.mem_range, decide_eq_true_eq] at hk
      exact hk.2.symm

/-- The theorem `nway_workers_partition` at two workers and an input of two lines. -/
theorem nway_workers_partition_witness :
    1 ≤ 2 ∧ ∃ pos : Nat → List Nat,
      (∀ k, k < 2 → nway_lines_read [[97], [98]] [] k 2
        = (pos k).map (fun p => ([[97], [98]] : List Line).getD p [])) ∧
      (∀ k, k < 2 → (pos k).Sorted (fun a b => a < b)) ∧
      (∀ k, k < 2 → ∀ p ∈ pos k, p < ([[97], [98]] : List Line).length) ∧
      (∀ p, p < ([[97], [98]] : List Line).length → ∃! k, k < 2 ∧ p ∈ pos k) :=
  ⟨by decide, nway_workers_partition 2 (by decide) [[97], [98]] []⟩

/-- C12, the claim at two workers and the input lines a, b. Worker 0 reads both lines (they
stand in block 0), where the lines at the positions `0 + j*2` are the line a alone. -/
theorem nway_reads_blocks_not_every_nth :
    nway_lines_read [[97], [98]] [] 0 2 = [[97], [98]] ∧
    every_nth_line [[97], [98]] 0 2 = [[97]] ∧
    nway_lines_read [[97], [98]] [] 0 2 ≠ every_nth_line [[97], [98]] 0 2 := by
  decide

/-- C12, amended. Worker `k` of `N` reads exactly the input lines at the positions `p` with
`(p / 1000) mod N = k`, in input order: the blocks of 1000 consecutive lines number `k`,
`k + N`, `k + 2N` and so on. -/
theorem nway_reads_blocks (N k : Nat) (hk : k < N) (input : List Line) (junk : Line) :
    nway_lines_read input junk k N
      = ((List.range input.length).filter (fun p => p / 1000 % N = k)).map
          (fun p => input.getD p []) ∧
    ∀ p, p < input.length → (p / 1000 % N = k ↔ ∃ j, j * N + k = p / 1000) := by
  refine ⟨nway_lines_read_positions input junk k N hk, ?_⟩
  intro p _
  constructor
  · intro h
    refine ⟨p / 1000 / N, ?_⟩
    have := Nat.mod_add_div (p / 1000) N
    rw [h, Nat.mul_comm] at this
    omega
  · rintro ⟨j, hj⟩
    rw [← hj, Nat.add_comm, block_mod_eq N k j hk]

/-- The theorem `nway_reads_blocks` at worker 0 of two and an input of two lines. -/
theorem nway_reads_blocks_witness :
    0 < 2 ∧ (nway_lines_read [[97], [98]] [] 0 2
      = ((List.range ([[97], [98]] : List Line).length).filter (fun p => p / 1000 % 2 = 0)).map
          (fun p => ([[97], [98]] : List Line).getD p []) ∧
    ∀ p, p < ([[97], [98]] : List Line).length →
      (p / 1000 % 2 = 0 ↔ ∃ j, j * 2 + 0 = p / 1000)) :=
  ⟨by decide, nway_reads_blocks 2 0 (by decide) [[97], [98]] []⟩

/-! ## The budget of `main` -/

/-- C15, the claim at a requested budget of 2G and two workers. `main` divides by the number
of workers first: 2*10^9 / 2 = 10^9 is not below 10^9, so 5*10^8 is subtracted and the budget
is 500 000 000. The order of the claim gives (2*10^9 - 5*10^8) / 2 = 750 000 000. -/
theorem budget_order_differs :
    main_presort_bytes 2000000000 2 = 500000000 ∧
    spec_presort_bytes 2000000000 2 = 750000000 ∧
    main_presort_bytes 2000000000 2 ≠ spec_presort_bytes 2000000000 2 := by
  decide

/-- C15, amended. For every requested budget `B > 0` and every `N >= 0`, the budget `main`
uses is obtained by first dividing `B` by `N` when `N > 0` and then replacing the result by
its half when it is below 10^9 and by itself minus 5*10^8 otherwise. For `B < 10^9` the
order of the two steps makes no difference. -/
theorem main_budget_divides_first (B N : Int) (hB : 0 < B) (hN : 0 ≤ N) :
    main_presort_bytes B N
      = (if (if 0 < N then B / N else B) < 1000000000 then (if 0 < N then B / N else B) / 2
         else (if 0 < N then B / N else B) - 500000000) ∧
    (B < 1000000000 → main_presort_bytes B N = spec_presort_bytes B N) := by
  have hdiv : (if N ≠ 0 then Int.tdiv B N else B) = (if 0 < N then B / N else B) := by
    by_cases h : N = 0
    · simp [h]
    · rw [if_pos h, if_pos (by omega), Int.tdiv_eq_ediv hB.le hN]
  have hnn : (0 : Int) ≤ (if 0 < N then B / N else B) := by
    split
    · exact Int.ediv_nonneg hB.le hN
    · exact hB.le
  have hmain : main_presort_bytes B N
      = (if (if 0 < N then B / N else B) < 1000000000 then (if 0 < N then B / N else B) / 2
         else (if 0 < N then B / N else B) - 500000000) := by
    unfold main_presort_bytes
    simp only [hdiv]
    rw [Int.tdiv_eq_ediv hnn (show (0 : Int) ≤ 2 by decide)]
  refine ⟨hmain, ?_⟩
  intro hlt
  rw [hmain]
  unfold spec_presort_bytes
  simp only [hlt, if_true, gt_iff_lt]
  by_cases h : 0 < N
  · have hle : B / N < 1000000000 := lt_of_le_of_lt (Int.ediv_le_self N hB.le) hlt
    simp only [h, if_true, hle]
    obtain ⟨b, rfl⟩ := Int.eq_ofNat_of_zero_le hB.le
    obtain ⟨n, rfl⟩ := Int.eq_ofNat_of_zero_le hN
    have : b / n / 2 = b / 2 / n := by
      rw [Nat.div_div_eq_div_mul, Nat.div_div_eq_div_mul, Nat.mul_comm]
    exact_mod_cast this
  · simp only [h, if_false, hlt, if_true]

/-- The theorem `main_budget_divides_first` at a budget of 3000 bytes and four workers. -/
theorem main_budget_divides_first_witness :
    (0 : Int) < 3000 ∧ (0 : Int) ≤ 4 ∧
    (main_presort_bytes 3000 4
      = (if (if (0 : Int) < 4 then (3000 : Int) / 4 else 3000) < 1000000000
         then (if (0 : Int) < 4 then (3000 : Int) / 4 else 3000) / 2
         else (if (0 : Int) < 4 then (3000 : Int) / 4 else 3000) - 500000000) ∧
    ((3000 : Int) < 1000000000 → main_presort_bytes 3000 4 = spec_presort_bytes 3000 4)) :=
  ⟨by decide, by decide, main_budget_divides_first 3000 4 (by decide) (by decide)⟩
/-! ## The writer of a deduplicating pass, the report and the edge cases of the presort -/

/-- When the lines of the source do not all fit in the presort buffer, the inner loop of
`presort_pass` stops at a line that does not fit. -/
theorem presort_fill_overflows (B : Int) : ∀ (fuel : Nat) (in1 : gzBucket) (buf_i : Int)
    (strings : List Line), in1.f.length < fuel → in1.f ≠ [] →
    B ≤ buf_i + buffer_bytes in1.f →
    ∃ l, (presort_fill load_line_gz B fuel in1 buf_i strings).1 = some l := by
  intro fuel
  induction fuel with
  | zero => intro in1 buf_i strings h; omega
  | succ n ih =>
    intro in1 buf_i strings hlen hne hfit
    cases hf : in1.f with
    | nil => exact absurd hf hne
    | cons l ls =>
      rw [hf] at hlen hfit
      simp only [buffer_bytes, List.map_cons, List.sum_cons] at hfit
      by_cases hb : buf_i + (l.length : Int) + 1 ≥ B
      · exact ⟨l, by simp only [presort_fill, load_line_gz, hf, hb, if_true]⟩
      · simp only [presort_fill, load_line_gz, hf, hb, if_false]
        apply ih
        · simpa using hlen
        · simp only []
          intro h
          rw [h] at hfit
          simp at hfit
          omega
        · simp only [buffer_bytes]; omega

theorem presort_start_two_runs (in1 out : gzBucket) (misc : miscBucket) (fuel : Nat)
    (hfuel : in1.f.length < fuel)
    (hlog : misc.line_log = List.replicate (misc.log_len + 1) (-1)) (hroom : 3 ≤ misc.log_len)
    (hne : in1.f ≠ []) (hfit : misc.presort_bytes ≤ buffer_bytes in1.f) :
    (presort_loop load_line_gz fuel
      { in1 := in1, out := out, misc := misc, log_i := 0, buf_i := 0, strings := [] }
      ).misc.line_log.getD 1 0 ≠ -1 := by
  obtain ⟨n, rfl⟩ : ∃ n, fuel = n + 1 := ⟨fuel - 1, by omega⟩
  obtain ⟨l, hl⟩ := presort_fill_overflows misc.presort_bytes (in1.f.length + 1) in1 0 []
    (by omega) hne (by simpa using hfit)
  obtain ⟨taken, e1, e2, _, _⟩ := presort_fill_spec load_line_gz_source misc.presort_bytes
    (in1.f.length + 1) in1 0 [] (by simp)
  rcases hr : presort_fill load_line_gz misc.presort_bytes (in1.f.length + 1) in1 0 []
    with ⟨str, in1', b', strs'⟩
  rw [hr] at hl e1 e2
  simp only [] at hl e1 e2
  subst hl
  rw [presort_loop_some n _ hr]
  obtain ⟨f1, _, f3, _⟩ := presort_flush_spec []
    { in1 := in1', out := out, misc := misc, log_i := 0, buf_i := b', strings := strs' }
    ⟨rfl, by simp [hlog], by simpa using hroom⟩
  generalize presort_flush
    { in1 := in1', out := out, misc := misc, log_i := 0, buf_i := b', strings := strs' } = s1
    at f1 f3 ⊢
  simp only [List.nil_append] at f1 f3
  obtain ⟨runs, g1, _, _, _, g5, _⟩ := presort_loop_spec load_line_gz_source n
    { s1 with buf_i := (l.length : Int) + 1, strings := [l] } [(strs'.length : Int)]
    (by
      simp only []
      rw [f3]
      have := congrArg List.length e2
      simp at this
      omega)
    ⟨f1.1, f1.2, f1.3⟩
  generalize presort_loop load_line_gz n
    { s1 with buf_i := (l.length : Int) + 1, strings := [l] } = sF at g5 ⊢
  rw [g5.2]
  cases runs with
  | nil => exact absurd rfl g1
  | cons r rs => simp [run_lengths]

theorem presort_pass_two_runs (in1 out : gzBucket) (misc : miscBucket)
    (hlen : misc.line_log.length = misc.log_len + 1) (hroom : 3 ≤ misc.log_len)
    (hne : in1.f ≠ []) (hfit : misc.presort_bytes ≤ buffer_bytes in1.f) :
    (presort_pass in1 out misc load_line_gz).2.2.line_log.getD 1 0 ≠ -1 := by
  have hclear : clear_log (misc.log_len + 1) misc.line_log 0
      = List.replicate (misc.log_len + 1) (-1) := by
    have := clear_log_spec (misc.log_len + 1) [] misc.line_log hlen
    simpa using this
  exact presort_start_two_runs { in1 with line_counter := 0 } out
    { misc with line_log := clear_log (misc.log_len + 1) misc.line_log 0 }
    (in1.f.length + 1) (Nat.lt_succ_self _) hclear hroom hne hfit

/-- When the lines do not all fit in the presort buffer, `first_pass` writes at least two
runs: slot 1 of the log is live. -/
theorem first_pass_two_runs (input : List Line) (misc : miscBucket) (junk : Line)
    (hne : input ≠ []) (hfit : misc.presort_bytes ≤ buffer_bytes input) :
    (first_pass input misc junk).2.line_log.getD 1 0 ≠ -1 :=
  presort_pass_two_runs { init_gz input junk with line_counter := 0 } (init_gz [] junk)
    { misc with log_len := 1024, line_log := List.replicate (1024 + 1) 0 }
    (List.length_replicate _ _) (by show 3 ≤ 1024; omega) hne hfit

set_option maxRecDepth 100000 in
/-- C16, the code at the lines "" and "a" offered to a deduplicating writer whose fresh
`line` holds the empty string (a zero-filled allocation): the first line offered, the empty
line, is not written. The second part runs the whole un-threaded sort with `-u` and a budget
of 2 bytes (`-S 4`): two runs, one deduplicating merge pass, and the output is the line
"a" alone. -/
theorem dedup_drops_empty_first_line :
    (merge_write_all 1 (init_gz [] []) [[], [97]]).f = [[97]] ∧
    main_unthreaded [[], [97]] 2 1 [] = [[97]] := by
  refine ⟨by decide, ?_⟩
  rw [main_unthreaded_eq _ _ _ _ (by decide),
    if_pos ⟨first_pass_two_runs _ _ _ (by decide) (by decide), by decide⟩]
  decide

set_option maxRecDepth 100000 in
/-- C17, the code at the lines b, a, c, a with `-u` and the default budget: one presort run,
no merge pass, `line_counter` keeps its initial 0 and `middle_passes` reports
`total_lines - 0 = 4` lines as removed, while the output holds the four input lines. -/
theorem removed_report_single_run :
    removed_report (middle_passes
      (first_pass [[98], [97], [99], [97]] (main_misc 500000 1) []).1
      (first_pass [[98], [97], [99], [97]] (main_misc 500000 1) []).2 []) = 4 ∧
    ((([[98], [97], [99], [97]] : List Line).length : Int)
      - (main_unthreaded [[98], [97], [99], [97]] 500000 1 []).length) = 0 := by
  constructor
  · unfold middle_passes
    rw [middle_loop_exit _ _ _ (first_pass_single_run _ _ _ (by decide))]
    obtain ⟨_, _, _, _, _, _, _, _, g7, _⟩ :=
      first_pass_spec [[98], [97], [99], [97]] (main_misc 500000 1) []
    simp only [removed_report, g7]
    decide
  · rw [main_unthreaded_eq _ _ _ _ (by decide), if_neg (by
      rw [first_pass_single_run _ _ _ (by decide)]
      simp)]
    decide


/-- When the presort wrote at least two runs, the number that `middle_passes` reports as
removed is the number of input lines minus the number of lines of the final file. -/
theorem removed_report_after_pass (input : List Line) (misc : miscBucket) (junk : Line)
    (h : (first_pass input misc junk).2.line_log.getD 1 0 ≠ -1)
    (hsmall : (input.length : Int) < 2147483648) :
    removed_report (middle_passes (first_pass input misc junk).1
        (first_pass input misc junk).2 junk)
      = (input.length : Int) - ((middle_passes (first_pass input misc junk).1
        (first_pass input misc junk).2 junk).file.length : Int) := by
  obtain ⟨runs, pad, g1, g2, g3, g4, g5, g6, g7, _, _⟩ := first_pass_spec input misc junk
  have hfuel : (runs.map qsort).length ≤ (first_pass input misc junk).2.line_log.length := by
    rw [g5]; simp [run_lengths]
  have h2 : 2 ≤ (runs.map qsort).length := by
    rw [List.length_map]
    exact (log_slot_one runs pad g1 (by omega)).mpr (by rw [← g5]; exact h)
  obtain ⟨_, k2, q, _, k3⟩ := middle_loop_spec junk
    (first_pass input misc junk).2.line_log.length (runs.map qsort) pad
    { file := (first_pass input misc junk).1, misc := (first_pass input misc junk).2,
      unique := 0, line_counter := 0 }
    hfuel (by simpa using g1) (by
      intro r hr
      obtain ⟨r', _, rfl⟩ := List.mem_map.mp hr
      exact qsort_sorted r')
    (by
      intro h2
      apply live_pairs_of_tail _ h2
      intro r hr
      rw [← List.map_tail] at hr
      obtain ⟨r', hr', rfl⟩ := List.mem_map.mp hr
      intro he
      have := qsort_length r'
      rw [he] at this
      exact g3 r' hr' (List.length_eq_zero.mp this.symm))
    (by omega) g6 (by rw [g5, run_lengths_map_qsort]) rfl
    (by rw [(flatten_map_qsort_perm runs).length_eq, g2]; exact hsmall)
  unfold middle_passes removed_report
  rw [k2, if_pos h2, k3]
  simp only []
  rw [g7]

/-- C20, the claim at two current lines "a" and "a": after the step reader A (`in1`) is
where it was and reader B (`in2`) has been advanced (its file is used up), and one line has
been written. -/
theorem merge_tie_advances_second_reader :
    strcmp [97] [97] = 0 ∧
    (merge_loop 0 1 (some [97]) (some [97])
      { init_gz [[98]] [] with subset_counter := 1 }
      { init_gz [[99]] [] with subset_counter := 1 } (init_gz [] [])).1
      = { init_gz [[98]] [] with subset_counter := 1 } ∧
    (merge_loop 0 1 (some [97]) (some [97])
      { init_gz [[98]] [] with subset_counter := 1 }
      { init_gz [[99]] [] with subset_counter := 1 } (init_gz [] [])).2.1.f = [] ∧
    (merge_loop 0 1 (some [97]) (some [97])
      { init_gz [[98]] [] with subset_counter := 1 }
      { init_gz [[99]] [] with subset_counter := 1 } (init_gz [] [])).2.2.f = [[97]] := by
  decide

/-- C20, amended. In the two-way merge step of `merge_pass`, when the current lines `str1`
and `str2` compare equal, the line written is `str2`, taken from B (`in2`), and it is
reader B that is advanced; A keeps its current line. The two-way merge of two runs whose
first lines are equal starts with the first line of the second run. -/
theorem merge_tie_emits_second (unique : Int) (fuel : Nat) (a b : Line)
    (in1 in2 out : gzBucket) (h : strcmp a b = 0) :
    merge_loop unique (fuel + 1) (some a) (some b) in1 in2 out
      = merge_loop unique fuel (some a) (subset_lines_gz in2).1 in1 (subset_lines_gz in2).2
          (merge_write unique out b) ∧
    ∀ as bs : List Line, merge2 (a :: as) (b :: bs) = b :: merge2 (a :: as) bs := by
  constructor
  · simp only [merge_loop, h, lt_self_iff_false, if_false]
  · intro as bs
    simp only [merge2, h, lt_self_iff_false, if_false]

/-- The theorem `merge_tie_emits_second` at two lines "a". -/
theorem merge_tie_emits_second_witness :
    strcmp [97] [97] = 0 ∧
    (merge_loop 0 (0 + 1) (some [97]) (some [97]) (init_gz [] []) (init_gz [] [])
        (init_gz [] [])
      = merge_loop 0 0 (some [97]) (subset_lines_gz (init_gz [] [])).1 (init_gz [] [])
          (subset_lines_gz (init_gz [] [])).2 (merge_write 0 (init_gz [] []) [97]) ∧
    ∀ as bs : List Line, merge2 ([97] :: as) ([97] :: bs) = [97] :: merge2 ([97] :: as) bs) :=
  ⟨by decide, merge_tie_emits_second 0 0 [97] [97] (init_gz [] []) (init_gz [] [])
    (init_gz [] []) (by decide)⟩

/-! ## Lines that do not fit in the presort buffer -/

/-- The lines that the inner loop of `presort_pass` adds to the buffer are shorter than the
budget, and it adds none when the buffer already holds `B` bytes or more. -/
theorem presort_fill_small {line_gz : gzBucket → Option Line × gzBucket}
    {view : gzBucket → List Line} {count : gzBucket → Int}
    (hs : LineSource line_gz view count) (B : Int) :
    ∀ (fuel : Nat) (in1 : gzBucket) (buf_i : Int) (strings : List Line),
      (view in1).length < fuel → 0 ≤ buf_i →
      ∃ taken : List Line,
        (presort_fill line_gz B fuel in1 buf_i strings).2.2.2 = strings ++ taken ∧
        (∀ l ∈ taken, (l.length : Int) + 1 < B) ∧ (B ≤ buf_i → taken = []) := by
  intro fuel
  induction fuel with
  | zero => intro in1 buf_i strings h; omega
  | succ n ih =>
    intro in1 buf_i strings hlen hb0
    cases hr : line_gz in1 with
    | mk o in1' =>
      cases o with
      | none =>
        refine ⟨[], ?_⟩
        simp only [presort_fill, hr]
        simp
      | some l =>
        have h1 := hs.some_view in1 l (by rw [hr])
        rw [hr] at h1
        by_cases hb : buf_i + l.length + 1 ≥ B
        · refine ⟨[], ?_⟩
          simp only [presort_fill, hr, hb, if_true]
          simp
        · obtain ⟨taken, e1, e2, e3⟩ := ih in1' (buf_i + l.length + 1) (strings ++ [l])
            (by rw [h1.1] at hlen; simp at hlen; omega) (by omega)
          refine ⟨l :: taken, ?_⟩
          simp only [presort_fill, hr, hb, if_false]
          refine ⟨by simp [e1], ?_, ?_⟩
          · intro x hx
            rcases List.mem_cons.mp hx with h | h
            · subst h; omega
            · exact e2 x h
          · intro h; omega


/-- The outer loop of `presort_pass` and the lines that do not fit: the runs that the loop
writes cut the buffered lines and the lines of the source into consecutive pieces, and a
line of `presort_bytes - 1` bytes or more is a run by itself. -/
theorem presort_loop_runs {line_gz : gzBucket → Option Line × gzBucket}
    {view : gzBucket → List Line} {count : gzBucket → Int}
    (hs : LineSource line_gz view count) :
    ∀ (fuel : Nat) (s : presortState) (done : List Int),
      (view s.in1).length < fuel → PresortLog done s → 0 ≤ s.buf_i →
      (∀ l ∈ s.strings, s.misc.presort_bytes ≤ (l.length : Int) + 1 →
        s.strings = [l] ∧ s.misc.presort_bytes ≤ s.buf_i) →
      ∃ runs : List (List Line),
        runs ≠ [] ∧ runs.flatten = s.strings ++ view s.in1 ∧
        PresortLog (done ++ run_lengths runs) (presort_loop line_gz fuel s) ∧
        (presort_loop line_gz fuel s).out.f = s.out.f ++ (runs.map qsort).flatten ∧
        (∀ r ∈ runs, ∀ l ∈ r, s.misc.presort_bytes ≤ (l.length : Int) + 1 → r = [l]) := by
  intro fuel
  induction fuel with
  | zero => intro s done h; omega
  | succ n ih =>
    intro s done hlen hlog hb0 hbig
    obtain ⟨taken, e1, e2, e3, _⟩ := presort_fill_spec hs s.misc.presort_bytes
      (s.in1.f.length + 1) s.in1 s.buf_i s.strings (by have := hs.bound s.in1; omega)
    obtain ⟨taken', t1, t2, t3⟩ := presort_fill_small hs s.misc.presort_bytes
      (s.in1.f.length + 1) s.in1 s.buf_i s.strings (by have := hs.bound s.in1; omega) hb0
    rcases hr : presort_fill line_gz s.misc.presort_bytes (s.in1.f.length + 1) s.in1
      s.buf_i s.strings with ⟨str, in1', b', strs'⟩
    rw [hr] at e1 e2 e3 t1
    simp only [] at e1 e2 e3 t1
    subst e1
    have htk : taken' = taken := (List.append_cancel_left t1).symm
    subst htk
    have hfirst : ∀ l ∈ s.strings ++ taken', s.misc.presort_bytes ≤ (l.length : Int) + 1 →
        s.strings ++ taken' = [l] := by
      intro l hl hbl
      rcases List.mem_append.mp hl with h | h
      · obtain ⟨h1, h2⟩ := hbig l h hbl
        rw [t3 h2, h1]; rfl
      · have := t2 l h
        omega
    obtain ⟨f1, f2, f3, f4⟩ := presort_flush_spec done
      { s with in1 := in1', buf_i := b', strings := s.strings ++ taken' }
      ⟨hlog.1, hlog.2, hlog.3⟩
    cases str with
    | none =>
      rw [presort_loop_none n s hr]
      generalize presort_flush
        { s with in1 := in1', buf_i := b', strings := s.strings ++ taken' } = s1
        at f1 f2 f3 f4
      simp only [] at f1 f2 f3 f4
      have hv : view s.in1 = taken' := by rw [e2, e3 rfl]; simp
      refine ⟨[s.strings ++ taken'], by simp, by simp [hv], ?_, ?_, ?_⟩
      · simpa [run_lengths] using f1
      · rw [f2]; simp
      · intro r hr' l hl hbl
        simp only [List.mem_singleton] at hr'
        subst hr'
        exact hfirst l hl hbl
    | some l =>
      rw [presort_loop_some n s hr]
      generalize presort_flush
        { s with in1 := in1', buf_i := b', strings := s.strings ++ taken' } = s1
        at f1 f2 f3 f4
      simp only [] at f1 f2 f3 f4
      have hv : view s.in1 = taken' ++ l :: view in1' := by rw [e2]; simp
      have hB : s1.misc.presort_bytes = s.misc.presort_bytes := by rw [f4]
      obtain ⟨runs, g1, g2, g5, g6, g7⟩ := ih
        { s1 with buf_i := (l.length : Int) + 1, strings := [l] }
        (done ++ [((s.strings ++ taken').length : Int)])
        (by simp only []; rw [f3]; rw [hv] at hlen; simp at hlen; omega)
        ⟨f1.1, f1.2, f1.3⟩ (by simp only []; omega)
        (by
          intro x hx hbx
          simp only [List.mem_singleton] at hx
          subst hx
          exact ⟨rfl, hbx⟩)
      generalize presort_loop line_gz n
        { s1 with buf_i := (l.length : Int) + 1, strings := [l] } = sF at g5 g6 ⊢
      simp only [] at g2 g6 g7
      rw [f3] at g2
      rw [hB] at g7
      refine ⟨(s.strings ++ taken') :: runs, by simp, ?_, ?_, ?_, ?_⟩
      · rw [hv]; simp [g2]
      · simpa [run_lengths] using g5
      · rw [g6, f2]; simp
      · intro r hr' x hx hbx
        rcases List.mem_cons.mp hr' with h | h
        · subst h; exact hfirst x hx hbx
        · exact g7 r h x hx hbx

/-- Where the oversized line is a run of one. For every input with no line longer than the
budget (the copies then stay in the buffer), `presort_pass` cuts the lines it reads into
consecutive runs in which every line of `presort_bytes - 1` or `presort_bytes` bytes
(length + 1 at least the budget) is a run by itself: the lines buffered before it are
flushed as the run before, the line is written as a run of exactly one line with a log
entry of 1, and the next line starts a new run. -/
theorem presort_oversized_line_alone (in1 out : gzBucket) (misc : miscBucket)
    (hlen : misc.line_log.length = misc.log_len + 1) (hroom : 3 ≤ misc.log_len)
    (hfit : ∀ l ∈ in1.f, (l.length : Int) ≤ misc.presort_bytes) :
    copies_fit misc.presort_bytes (presort_pass_copies in1 out misc load_line_gz) ∧
    ∃ (runs : List (List Line)) (pad : Nat),
      runs.flatten = in1.f ∧
      (presort_pass in1 out misc load_line_gz).2.1.f = out.f ++ (runs.map qsort).flatten ∧
      (presort_pass in1 out misc load_line_gz).2.2.line_log
        = run_lengths runs ++ List.replicate pad (-1) ∧
      ∀ r ∈ runs, ∀ l ∈ r, misc.presort_bytes ≤ (l.length : Int) + 1 →
        r = [l] ∧ qsort r = [l] ∧ run_lengths [r] = [1] := by
  have hclear : clear_log (misc.log_len + 1) misc.line_log 0
      = List.replicate (misc.log_len + 1) (-1) := by
    have := clear_log_spec (misc.log_len + 1) [] misc.line_log hlen
    simpa using this
  obtain ⟨runs, _, g2, g3, g4, g5⟩ := presort_loop_runs load_line_gz_source
    (in1.f.length + 1)
    { in1 := { in1 with line_counter := 0 }, out := out,
      misc := { misc with line_log := clear_log (misc.log_len + 1) misc.line_log 0 },
      log_i := 0, buf_i := 0, strings := [] } []
    (Nat.lt_succ_self _) ⟨rfl, by simp [hclear], by simpa using hroom⟩ (le_refl _)
    (by intro l hl; simp at hl)
  simp only [List.nil_append] at g2 g3 g4 g5
  refine ⟨(presort_pass_copies_fit load_line_gz_source in1 out misc rfl).mpr hfit,
    runs, _, g2, g4, g3.2, ?_⟩
  intro r hr l hl hbl
  have := g5 r hr l hl hbl
  subst this
  exact ⟨rfl, by simp [qsort], by simp [run_lengths]⟩

/-- The theorem `presort_oversized_line_alone` at the lines b, aaaaa, c with a budget of 5
bytes and a log of four slots: three runs of one line. -/
theorem presort_oversized_line_alone_witness :
    ([0, 0, 0, 0] : List Int).length = 3 + 1 ∧ 3 ≤ 3 ∧
    (∀ l ∈ (init_gz [[98], [97, 97, 97, 97, 97], [99]] []).f, (l.length : Int) ≤ 5) ∧
    copies_fit 5 (presort_pass_copies (init_gz [[98], [97, 97, 97, 97, 97], [99]] [])
      (init_gz [] [])
      { total_lines := 0, presort_bytes := 5, line_log := [0, 0, 0, 0], log_len := 3,
        unique := 0, nway := 0 } load_line_gz) ∧
    ∃ (runs : List (List Line)) (pad : Nat),
      runs.flatten = (init_gz [[98], [97, 97, 97, 97, 97], [99]] []).f ∧
      (presort_pass (init_gz [[98], [97, 97, 97, 97, 97], [99]] []) (init_gz [] [])
        { total_lines := 0, presort_bytes := 5, line_log := [0, 0, 0, 0], log_len := 3,
          unique := 0, nway := 0 } load_line_gz).2.1.f
        = (init_gz [] []).f ++ (runs.map qsort).flatten ∧
      (presort_pass (init_gz [[98], [97, 97, 97, 97, 97], [99]] []) (init_gz [] [])
        { total_lines := 0, presort_bytes := 5, line_log := [0, 0, 0, 0], log_len := 3,
          unique := 0, nway := 0 } load_line_gz).2.2.line_log
        = run_lengths runs ++ List.replicate pad (-1) ∧
      ∀ r ∈ runs, ∀ l ∈ r, (5 : Int) ≤ (l.length : Int) + 1 →
        r = [l] ∧ qsort r = [l] ∧ run_lengths [r] = [1] :=
  ⟨by decide, by decide, by decide,
    presort_oversized_line_alone (init_gz [[98], [97, 97, 97, 97, 97], [99]] [])
      (init_gz [] [])
      { total_lines := 0, presort_bytes := 5, line_log := [0, 0, 0, 0], log_len := 3,
        unique := 0, nway := 0 } (by decide) (by decide) (by decide)⟩

/-! ## The heap of `nway_merge_pass` -/

theorem getD_set_eq {α : Type} (l : List α) (i : Nat) (a d : α) (h : i < l.length) :
    (l.set i a).getD i d = a := by
  simp [List.getD_eq_getElem?_getD, h]

theorem getD_set_ne {α : Type} (l : List α) (i j : Nat) (a d : α) (h : i ≠ j) :
    (l.set i a).getD j d = l.getD j d := by
  simp [List.getD_eq_getElem?_getD, List.getElem?_set_ne h]

theorem heap_parent_lt (i : Nat) (h : 0 < i) : heap_parent i < i := by
  unfold heap_parent; omega

/-- Exchanging two slots below `t` permutes the entries. -/
theorem heap_entries_swap (heap : List (Option strRef)) (t c p : Nat) (hc : c < t)
    (hp : p < t) (hcp : c ≠ p) (hlen : t ≤ heap.length) :
    (heap_entries ((heap.set c (heap.getD p none)).set p (heap.getD c none)) t).Perm
      (heap_entries heap t) := by
  have hfun : ∀ i, ((heap.set c (heap.getD p none)).set p (heap.getD c none)).getD i none
      = heap.getD (if i = c then p else if i = p then c else i) none := by
    intro i
    by_cases h1 : i = p
    · subst h1
      rw [getD_set_eq _ _ _ _ (by simp; omega)]
      simp [Ne.symm hcp]
    · rw [getD_set_ne _ _ _ _ _ (Ne.symm h1)]
      by_cases h2 : i = c
      · subst h2
        rw [getD_set_eq _ _ _ _ (by omega)]
        simp
      · rw [getD_set_ne _ _ _ _ _ (Ne.symm h2)]
        simp [h1, h2]
  unfold heap_entries
  have e : (List.range t).map
      (fun i => ((heap.set c (heap.getD p none)).set p (heap.getD c none)).getD i none)
      = ((List.range t).map (fun i => if i = c then p else if i = p then c else i)).map
          (fun i => heap.getD i none) := by
    rw [List.map_map]
    apply List.map_congr_left
    intro i _
    exact hfun i
  rw [e]
  apply List.Perm.map
  rw [List.perm_ext_iff_of_nodup]
  · intro a
    simp only [List.mem_map, List.mem_range]
    constructor
    · rintro ⟨i, hi, rfl⟩
      split
      · exact hp
      · split
        · exact hc
        · exact hi
    · intro ha
      refine ⟨if a = c then p else if a = p then c else a, ?_, ?_⟩
      · split
        · exact hp
        · split
          · exact hc
          · exact ha
      · by_cases h1 : a = c
        · subst h1; simp [Ne.symm hcp]
        · by_cases h2 : a = p
          · subst h2; simp [h1]
          · simp [h1, h2]
  · apply List.Nodup.map _ (List.nodup_range t)
    have hinv : ∀ x : Nat, (fun i => if i = c then p else if i = p then c else i)
        ((fun i => if i = c then p else if i = p then c else i) x) = x := by
      intro x
      simp only
      split_ifs <;> omega
    intro a b hab
    have := congrArg (fun i => if i = c then p else if i = p then c else i) hab
    rwa [hinv a, hinv b] at this
  · exact List.nodup_range t


theorem strcmp_of_not_le {a b : Line} (h : ¬ strcmp a b ≤ 0) : strcmp b a ≤ 0 := by
  rw [strcmp_swap]; omega

/-- The loop of `heap_add` (sift-up): started at slot `c` that holds the new pointer, in an
array that is a heap everywhere but at `c`, it leaves a heap with the same entries. -/
theorem heap_add_loop_spec (r : strRef) (t cap : Nat) :
    ∀ (fuel : Nat) (h : List (Option strRef)) (c : Nat),
      c < fuel → c < t → t ≤ cap → cap ≤ h.length → h.getD c none = some r →
      (∀ i, i < t → h.getD i none ≠ none) →
      (∀ i, t ≤ i → i < cap → h.getD i none = none) →
      (∀ i, 0 < i → i < t → i ≠ c →
        strcmp (slot_key (h.getD (heap_parent i) none)) (slot_key (h.getD i none)) ≤ 0) →
      (∀ i, 0 < i → i < t → heap_parent i = c → 0 < c →
        strcmp (slot_key (h.getD (heap_parent c) none)) (slot_key (h.getD i none)) ≤ 0) →
      ∃ h', heap_add_loop (some r) fuel h c = some h' ∧ HeapOK h' t cap ∧
        (heap_entries h' t).Perm (heap_entries h t) := by
  intro fuel
  induction fuel with
  | zero => intro h c hf; omega
  | succ n ih =>
    intro h c hf hct htc hlen hc hfull hclear hord hgrand
    by_cases hc0 : c > 0
    · have hp := heap_parent_lt c hc0
      obtain ⟨x, hx⟩ := Option.ne_none_iff_exists'.mp (hfull (heap_parent c) (by omega))
      by_cases hcmp : strcmp x.str r.str ≤ 0
      · refine ⟨h, ?_, ⟨hlen, hfull, hclear, ?_⟩, List.Perm.refl _⟩
        · simp only [heap_add_loop, hc0, if_true, hx, strcmp_ptr, hcmp]
        · intro i hi0 hit
          by_cases hic : i = c
          · subst hic
            rw [hx, hc]
            exact hcmp
          · exact hord i hi0 hit hic
      · have hget : ∀ i, ((h.set c (some x)).set (heap_parent c) (some r)).getD i none
            = if i = heap_parent c then some r else if i = c then some x
              else h.getD i none := by
          intro i
          by_cases h1 : i = heap_parent c
          · rw [h1, getD_set_eq _ _ _ _ (by simp; omega)]
            simp
          · rw [getD_set_ne _ _ _ _ _ (Ne.symm h1)]
            by_cases h2 : i = c
            · rw [h2, getD_set_eq _ _ _ _ (by omega)]
              simp [Ne.symm (Nat.ne_of_lt hp)]
            · rw [getD_set_ne _ _ _ _ _ (Ne.symm h2)]
              simp [h1, h2]
        have hrx : strcmp r.str x.str ≤ 0 := strcmp_of_not_le hcmp
        obtain ⟨h', e1, e2, e3⟩ := ih ((h.set c (some x)).set (heap_parent c) (some r))
          (heap_parent c) (by omega) (by omega) htc (by simpa using hlen)
          (by rw [hget]; simp)
          (by
            intro i hi
            rw [hget]
            split
            · simp
            · split
              · simp
              · exact hfull i hi)
          (by
            intro i hi1 hi2
            rw [hget, if_neg (by omega), if_neg (by omega)]
            exact hclear i hi1 hi2)
          (by
            intro i hi0 hit hip
            rw [hget, hget i, if_neg hip]
            by_cases hic : i = c
            · subst hic
              simp only [if_true, slot_key]
              exact hrx
            · rw [if_neg hic]
              by_cases hpp : heap_parent i = heap_parent c
              · rw [if_pos hpp]
                have := hord i hi0 hit hic
                rw [hpp, hx] at this
                exact strcmp_trans hrx this
              · rw [if_neg hpp]
                by_cases hpc : heap_parent i = c
                · rw [if_pos hpc]
                  have := hgrand i hi0 hit hpc hc0
                  rw [hx] at this
                  exact this
                · rw [if_neg hpc]
                  exact hord i hi0 hit hic)
          (by
            intro i hi0 hit hip hp0
            have hpp := heap_parent_lt (heap_parent c) hp0
            have hpi := heap_parent_lt i hi0
            rw [hget, hget i, if_neg (by omega), if_neg (by omega), if_neg (by omega)]
            have h1 := hord (heap_parent c) hp0 (by omega) (by omega)
            rw [hx] at h1
            by_cases hic : i = c
            · subst hic
              simp only [if_true]
              exact h1
            · rw [if_neg hic]
              have h2 := hord i hi0 hit hic
              rw [hip, hx] at h2
              exact strcmp_trans h1 h2)
        refine ⟨h', ?_, e2, e3.trans ?_⟩
        · simp only [heap_add_loop, hc0, if_true, hx, strcmp_ptr, hcmp, if_false]
          exact e1
        · have := heap_entries_swap h t c (heap_parent c) hct (by omega) (by omega) (by omega)
          rw [hx, hc] at this
          exact this
    · have hc0' : c = 0 := by omega
      subst hc0'
      refine ⟨h, ?_, ⟨hlen, hfull, hclear, ?_⟩, List.Perm.refl _⟩
      · simp [heap_add_loop]
      · intro i hi0 hit
        exact hord i hi0 hit (by omega)


/-- The function `heap_add` on a heap of `t` entries with a free slot: it returns, and the
array is a heap of `t + 1` entries, the old ones and the new pointer. -/
theorem heap_add_spec (h : List (Option strRef)) (t cap : Nat) (r : strRef)
    (hok : HeapOK h t cap) (ht : t < cap) :
    ∃ h', heap_add h (some r) t = some h' ∧ HeapOK h' (t + 1) cap ∧
      (heap_entries h' (t + 1)).Perm (some r :: heap_entries h t) := by
  have hlen := hok.len
  have hget : ∀ i, i ≠ t → (h.set t (some r)).getD i none = h.getD i none :=
    fun i hi => getD_set_ne _ _ _ _ _ (Ne.symm hi)
  obtain ⟨h', e1, e2, e3⟩ := heap_add_loop_spec r (t + 1) cap (t + 1) (h.set t (some r)) t
    (by omega) (by omega) (by omega) (by simpa using hlen)
    (getD_set_eq _ _ _ _ (by omega))
    (by
      intro i hi
      by_cases hit : i = t
      · rw [hit, getD_set_eq _ _ _ _ (by omega)]; simp
      · rw [hget i hit]; exact hok.full i (by omega))
    (by
      intro i hi1 hi2
      rw [hget i (by omega)]
      exact hok.clear i (by omega) hi2)
    (by
      intro i hi0 hit hne
      have := heap_parent_lt i hi0
      rw [hget i hne, hget _ (by omega)]
      exact hok.order i hi0 (by omega))
    (by
      intro i hi0 hit hp
      have := heap_parent_lt i hi0
      omega)
  refine ⟨h', e1, e2, e3.trans ?_⟩
  unfold heap_entries
  rw [List.range_succ, List.map_append]
  simp only [List.map_cons, List.map_nil]
  rw [getD_set_eq _ _ _ _ (by omega)]
  have : (List.range t).map (fun i => (h.set t (some r)).getD i none)
      = (List.range t).map (fun i => h.getD i none) := by
    apply List.map_congr_left
    intro i hi
    exact hget i (by have := List.mem_range.mp hi; omega)
  rw [this]
  exact List.perm_append_comm

theorem heap_children (i p : Nat) (hi : 0 < i) (h : heap_parent i = p) :
    i = heap_child1 p ∨ i = heap_child2 p := by
  unfold heap_parent at h
  unfold heap_child1 heap_child2
  omega

theorem heap_parent_child1 (p : Nat) : heap_parent (heap_child1 p) = p := by
  unfold heap_parent heap_child1; omega

theorem heap_parent_child2 (p : Nat) : heap_parent (heap_child2 p) = p := by
  unfold heap_parent heap_child2; omega


/-- The loop of `heap_pop` (sift-down): started at slot `p` that holds the pointer `last`,
in an array that is a heap everywhere but below `p`, it leaves a heap with the same entries.
`T` is `heap_tail`, `t = T - 1` the number of entries left; the children read lie below
`cap`. -/
theorem heap_pop_loop_spec (last : strRef) (T t cap : Nat) (hT : T = t + 1)
    (hcap : 2 * T ≤ cap + 1) :
    ∀ (fuel : Nat) (h : List (Option strRef)) (p : Nat),
      T < fuel + p → p < t → cap ≤ h.length → h.getD p none = some last →
      (∀ i, i < t → h.getD i none ≠ none) →
      (∀ i, t ≤ i → i < cap → h.getD i none = none) →
      (∀ i, 0 < i → i < t → heap_parent i ≠ p →
        strcmp (slot_key (h.getD (heap_parent i) none)) (slot_key (h.getD i none)) ≤ 0) →
      (∀ i, 0 < i → i < t → heap_parent i = p → 0 < p →
        strcmp (slot_key (h.getD (heap_parent p) none)) (slot_key (h.getD i none)) ≤ 0) →
      ∃ h', heap_pop_loop (some last) T fuel h p = some h' ∧ HeapOK h' t cap ∧
        (heap_entries h' t).Perm (heap_entries h t) := by
  intro fuel
  induction fuel with
  | zero => intro h p hf hp; omega
  | succ n ih =>
    intro h p hf hpt hlen hp hfull hclear hord hgrand
    have hpT : p < T := by omega
    have stop : (∀ i, 0 < i → i < t → heap_parent i = p →
        strcmp last.str (slot_key (h.getD i none)) ≤ 0) → HeapOK h t cap := by
      intro hmin
      refine ⟨hlen, hfull, hclear, ?_⟩
      intro i hi0 hit
      by_cases hip : heap_parent i = p
      · rw [hip, hp]
        exact hmin i hi0 hit hip
      · exact hord i hi0 hit hip
    have step : ∀ (c : Nat) (z : strRef), heap_parent c = p → 0 < c → c < t →
        h.getD c none = some z → ¬ strcmp last.str z.str ≤ 0 →
        (∀ i, 0 < i → i < t → heap_parent i = p →
          strcmp z.str (slot_key (h.getD i none)) ≤ 0) →
        ∃ h', heap_pop_loop (some last) T n ((h.set p (some z)).set c (some last)) c
            = some h' ∧ HeapOK h' t cap ∧ (heap_entries h' t).Perm (heap_entries h t) := by
      intro c z hpc hc0 hct hc hcmp hmin
      have hpltc : p < c := by rw [← hpc]; exact heap_parent_lt c hc0
      have hget : ∀ i, ((h.set p (some z)).set c (some last)).getD i none
          = if i = c then some last else if i = p then some z else h.getD i none := by
        intro i
        by_cases h1 : i = c
        · rw [h1, getD_set_eq _ _ _ _ (by simp; omega)]
          simp
        · rw [getD_set_ne _ _ _ _ _ (Ne.symm h1)]
          by_cases h2 : i = p
          · rw [h2, getD_set_eq _ _ _ _ (by omega)]
            simp [Nat.ne_of_lt hpltc]
          · rw [getD_set_ne _ _ _ _ _ (Ne.symm h2)]
            simp [h1, h2]
      have hzl : strcmp z.str last.str ≤ 0 := strcmp_of_not_le hcmp
      obtain ⟨h', e1, e2, e3⟩ := ih ((h.set p (some z)).set c (some last)) c
        (by omega) hct (by simpa using hlen) (by rw [hget]; simp)
        (by
          intro i hi
          rw [hget]
          split
          · simp
          · split
            · simp
            · exact hfull i hi)
        (by
          intro i hi1 hi2
          rw [hget, if_neg (by omega), if_neg (by omega)]
          exact hclear i hi1 hi2)
        (by
          intro i hi0 hit hipc
          have hpi := heap_parent_lt i hi0
          rw [hget, hget i, if_neg hipc]
          by_cases hic : i = c
          · subst hic
            rw [if_pos hpc, if_pos rfl]
            exact hzl
          · rw [if_neg hic]
            by_cases hip : i = p
            · subst hip
              rw [if_neg (by omega), if_pos rfl]
              have := hgrand c hc0 hct hpc hi0
              rw [hc] at this
              exact this
            · rw [if_neg hip]
              by_cases hpp : heap_parent i = p
              · rw [if_pos hpp]
                exact hmin i hi0 hit hpp
              · rw [if_neg hpp]
                exact hord i hi0 hit hpp)
        (by
          intro i hi0 hit hipc _
          have hpi := heap_parent_lt i hi0
          rw [hget, hget i, if_neg (by omega), if_pos hpc, if_neg (by omega),
            if_neg (by omega)]
          have := hord i hi0 hit (by omega)
          rw [hipc, hc] at this
          exact this)
      refine ⟨h', e1, e2, e3.trans ?_⟩
      have := heap_entries_swap h t p c hpt hct (by omega) (by omega)
      rw [hc, hp] at this
      exact this
    have hk1cap : heap_child1 p < cap := by unfold heap_child1; omega
    have hk2cap : heap_child2 p < cap := by unfold heap_child2; omega
    have hk12 : heap_child2 p = heap_child1 p + 1 := by unfold heap_child1 heap_child2; omega
    have hk1p : p < heap_child1 p := by unfold heap_child1; omega
    by_cases h1 : heap_child1 p < t
    · obtain ⟨x, hx⟩ := Option.ne_none_iff_exists'.mp (hfull _ h1)
      by_cases h2 : heap_child2 p < t
      · obtain ⟨y, hy⟩ := Option.ne_none_iff_exists'.mp (hfull _ h2)
        by_cases hxy : strcmp x.str y.str > 0
        · by_cases hly : strcmp last.str y.str ≤ 0
          · refine ⟨h, ?_, stop ?_, List.Perm.refl _⟩
            · simp only [heap_pop_loop, hpT, if_true, if_false, Option.some_ne_none, hx, hy, hp, strcmp_ptr, hxy, hly]
            · intro i hi0 hit hip
              rcases heap_children i p hi0 hip with h | h
              · rw [h, hx]
                exact strcmp_trans hly (strcmp_of_not_le (by simp only [slot_key]; omega))
              · rw [h, hy]; exact hly
          · obtain ⟨h', e1, e2, e3⟩ := step (heap_child2 p) y (heap_parent_child2 p)
              (by omega) h2 hy hly (by
                intro i hi0 hit hip
                rcases heap_children i p hi0 hip with h | h
                · rw [h, hx]
                  exact strcmp_of_not_le (by simp only [slot_key]; omega)
                · rw [h, hy]; exact le_of_eq (strcmp_self _))
            refine ⟨h', ?_, e2, e3⟩
            simp only [heap_pop_loop, hpT, if_true, if_false, Option.some_ne_none, hx, hy, hp, strcmp_ptr, hxy, hly]
            exact e1
        · by_cases hlx : strcmp last.str x.str ≤ 0
          · refine ⟨h, ?_, stop ?_, List.Perm.refl _⟩
            · simp only [heap_pop_loop, hpT, if_true, if_false, Option.some_ne_none, hx, hy, hp, strcmp_ptr, hxy, hlx]
            · intro i hi0 hit hip
              rcases heap_children i p hi0 hip with h | h
              · rw [h, hx]; exact hlx
              · rw [h, hy]
                exact strcmp_trans hlx (by simp only [slot_key]; omega)
          · obtain ⟨h', e1, e2, e3⟩ := step (heap_child1 p) x (heap_parent_child1 p)
              (by omega) h1 hx hlx (by
                intro i hi0 hit hip
                rcases heap_children i p hi0 hip with h | h
                · rw [h, hx]; exact le_of_eq (strcmp_self _)
                · rw [h, hy]; simp only [slot_key]; omega)
            refine ⟨h', ?_, e2, e3⟩
            simp only [heap_pop_loop, hpT, if_true, if_false, Option.some_ne_none, hx, hy, hp, strcmp_ptr, hxy, hlx]
            exact e1
      · have hy : h.getD (heap_child2 p) none = none := hclear _ (by omega) hk2cap
        by_cases hxl : strcmp x.str last.str > 0
        · refine ⟨h, ?_, stop ?_, List.Perm.refl _⟩
          · simp only [heap_pop_loop, hpT, if_true, if_false, Option.some_ne_none, hx, hy, hp, strcmp_ptr, hxl, strcmp_self, le_refl]
          · intro i hi0 hit hip
            rcases heap_children i p hi0 hip with h | h
            · rw [h, hx]
              exact strcmp_of_not_le (by simp only [slot_key]; omega)
            · omega
        · by_cases hlx : strcmp last.str x.str ≤ 0
          · refine ⟨h, ?_, stop ?_, List.Perm.refl _⟩
            · simp only [heap_pop_loop, hpT, if_true, if_false, Option.some_ne_none, hx, hy, hp, strcmp_ptr, hxl, hlx]
            · intro i hi0 hit hip
              rcases heap_children i p hi0 hip with h | h
              · rw [h, hx]; exact hlx
              · omega
          · obtain ⟨h', e1, e2, e3⟩ := step (heap_child1 p) x (heap_parent_child1 p)
              (by omega) h1 hx hlx (by
                intro i hi0 hit hip
                rcases heap_children i p hi0 hip with h | h
                · rw [h, hx]; exact le_of_eq (strcmp_self _)
                · omega)
            refine ⟨h', ?_, e2, e3⟩
            simp only [heap_pop_loop, hpT, if_true, if_false, Option.some_ne_none, hx, hy, hp, strcmp_ptr, hxl, hlx]
            exact e1
    · have hx : h.getD (heap_child1 p) none = none := hclear _ (by omega) hk1cap
      have hy : h.getD (heap_child2 p) none = none := hclear _ (by omega) hk2cap
      refine ⟨h, ?_, stop ?_, List.Perm.refl _⟩
      · simp only [heap_pop_loop, hpT, if_true, if_false, Option.some_ne_none, hx, hy, hp, strcmp_ptr, strcmp_self, le_refl, lt_self_iff_false, gt_iff_lt]
      · intro i hi0 hit hip
        rcases heap_children i p hi0 hip with h | h <;> omega


/-- The function `heap_pop` on a heap of `T >= 1` entries whose child slots lie below `cap`
(`2*T - 1 <= cap`): it returns, the array is a heap of `T - 1` entries in which slot `T - 1`
is NULL, and the old entries are the old root and the entries left. -/
theorem heap_pop_spec (h : List (Option strRef)) (T cap : Nat) (hok : HeapOK h T cap)
    (hT : 1 ≤ T) (hcap : 2 * T ≤ cap + 1) :
    ∃ h', heap_pop h T = some h' ∧ HeapOK h' (T - 1) cap ∧
      (heap_entries h T).Perm (h.getD 0 none :: heap_entries h' (T - 1)) := by
  have hlen := hok.len
  obtain ⟨l, hl⟩ := Option.ne_none_iff_exists'.mp (hok.full (T - 1) (by omega))
  by_cases h1 : T = 1
  · subst h1
    refine ⟨(h.set 0 (some l)).set 0 none, ?_, ⟨by simpa using hlen, ?_, ?_, ?_⟩, ?_⟩
    · simp [heap_pop, hl]
    · intro i hi; omega
    · intro i _ hi
      by_cases hi0 : i = 0
      · rw [hi0, getD_set_eq _ _ _ _ (by simp; omega)]
      · rw [getD_set_ne _ _ _ _ _ (Ne.symm hi0), getD_set_ne _ _ _ _ _ (Ne.symm hi0)]
        exact hok.clear i (by omega) hi
    · intro i hi0 hi; omega
    · simp [heap_entries, List.range_succ]
  · obtain ⟨t, rfl⟩ : ∃ t, T = t + 1 := ⟨T - 1, by omega⟩
    simp only [Nat.add_sub_cancel] at hl ⊢
    have hget : ∀ i, ((h.set 0 (some l)).set t none).getD i none
        = if i = t then none else if i = 0 then some l else h.getD i none := by
      intro i
      by_cases h1 : i = t
      · rw [h1, getD_set_eq _ _ _ _ (by simp; omega)]
        simp
      · rw [getD_set_ne _ _ _ _ _ (Ne.symm h1)]
        by_cases h2 : i = 0
        · rw [h2, getD_set_eq _ _ _ _ (by omega)]
          simp [show ¬ (0 = t) by omega]
        · rw [getD_set_ne _ _ _ _ _ (Ne.symm h2)]
          simp [h1, h2]
    obtain ⟨h', e1, e2, e3⟩ := heap_pop_loop_spec l (t + 1) t cap rfl hcap (t + 1 + 1)
      ((h.set 0 (some l)).set t none) 0 (by omega) (by omega) (by simpa using hlen)
      (by rw [hget, if_neg (by omega), if_pos rfl])
      (by
        intro i hi
        rw [hget, if_neg (by omega)]
        split
        · simp
        · exact hok.full i (by omega))
      (by
        intro i hi1 hi2
        rw [hget]
        split
        · rfl
        · rw [if_neg (by omega)]
          exact hok.clear i (by omega) hi2)
      (by
        intro i hi0 hit hip
        have := heap_parent_lt i hi0
        rw [hget, hget i, if_neg (by omega), if_neg hip, if_neg (by omega), if_neg (by omega)]
        exact hok.order i hi0 (by omega))
      (by intro i _ _ _ h0; omega)
    refine ⟨h', ?_, e2, ?_⟩
    · simp only [heap_pop, Nat.add_sub_cancel, hl]
      rw [if_neg (by omega), if_neg h1]
      exact e1
    · refine List.Perm.trans ?_ (List.Perm.cons _ e3.symm)
      obtain ⟨u, rfl⟩ : ∃ u, t = u + 1 := ⟨t - 1, by omega⟩
      have hA : heap_entries h (u + 1 + 1)
          = h.getD 0 none :: ((List.range u).map (fun i => h.getD (i + 1) none) ++ [some l]) := by
        unfold heap_entries
        rw [List.range_succ, List.map_append, List.range_succ_eq_map]
        simp only [List.map_cons, List.map_map, List.map_nil, hl, List.cons_append]
        rfl
      have hB : heap_entries ((h.set 0 (some l)).set (u + 1) none) (u + 1)
          = some l :: (List.range u).map (fun i => h.getD (i + 1) none) := by
        unfold heap_entries
        rw [List.range_succ_eq_map, List.map_cons, List.map_map]
        rw [hget, if_neg (by omega), if_pos rfl]
        congr 1
        apply List.map_congr_left
        intro i hi
        have := List.mem_range.mp hi
        simp only [Function.comp, Nat.succ_eq_add_one]
        rw [hget, if_neg (by omega), if_neg (by omega)]
      rw [hA, hB]
      apply List.Perm.cons
      exact List.perm_append_comm.trans (by simp)

/-- The root of a heap is a minimum of its entries. -/
theorem heap_root_min (h : List (Option strRef)) (t cap : Nat) (hok : HeapOK h t cap) :
    ∀ i, i < t → strcmp (slot_key (h.getD 0 none)) (slot_key (h.getD i none)) ≤ 0 := by
  intro i
  induction i using Nat.strong_induction_on with
  | _ i ih =>
    intro hi
    by_cases h0 : i = 0
    · subst h0; exact le_of_eq (strcmp_self _)
    · have hp := heap_parent_lt i (by omega)
      exact strcmp_trans (ih (heap_parent i) hp (by omega)) (hok.order i (by omega) hi)

/-! ## The loop of `nway_merge_pass` -/

theorem nway_heads_append : ∀ (A B : List (List Line)) (o : Nat),
    nway_heads o (A ++ B) = nway_heads o A ++ nway_heads (o + A.length) B
  | [], B, o => by simp [nway_heads]
  | [] :: A, B, o => by
    have ih := nway_heads_append A B (o + 1)
    have e : o + 1 + A.length = o + (A.length + 1) := by omega
    rw [e] at ih
    show nway_heads o ([] :: (A ++ B)) = nway_heads o ([] :: A) ++ _
    simp only [nway_heads, List.length_cons]
    exact ih
  | (l :: p) :: A, B, o => by
    have ih := nway_heads_append A B (o + 1)
    have e : o + 1 + A.length = o + (A.length + 1) := by omega
    rw [e] at ih
    show nway_heads o ((l :: p) :: (A ++ B)) = nway_heads o ((l :: p) :: A) ++ _
    simp only [nway_heads, List.length_cons, List.cons_append]
    rw [ih]

theorem nway_heads_length_le : ∀ (P : List (List Line)) (o : Nat),
    (nway_heads o P).length ≤ P.length
  | [], o => by simp [nway_heads]
  | [] :: P, o => by
    have := nway_heads_length_le P (o + 1)
    simp only [nway_heads, List.length_cons]; omega
  | (l :: p) :: P, o => by
    have := nway_heads_length_le P (o + 1)
    simp only [nway_heads, List.length_cons]; omega

theorem nway_heads_nil : ∀ (P : List (List Line)) (o : Nat), nway_heads o P = [] →
    P.flatten = []
  | [], o, _ => rfl
  | [] :: P, o, h => by
    simp only [nway_heads] at h
    simpa using nway_heads_nil P (o + 1) h
  | (l :: p) :: P, o, h => by simp [nway_heads] at h

theorem nway_heads_mem : ∀ (P : List (List Line)) (o : Nat) (a : Option strRef),
    a ∈ nway_heads o P →
    ∃ i l rest, a = some { src := o + i, str := l } ∧ i < P.length ∧ P.getD i [] = l :: rest
  | [], o, a, h => by simp [nway_heads] at h
  | [] :: P, o, a, h => by
    simp only [nway_heads] at h
    obtain ⟨i, l, rest, e1, e2, e3⟩ := nway_heads_mem P (o + 1) a h
    exact ⟨i + 1, l, rest, by rw [e1]; congr 2; omega, by simp; omega, by simpa using e3⟩
  | (l :: p) :: P, o, a, h => by
    simp only [nway_heads, List.mem_cons] at h
    rcases h with h | h
    · exact ⟨0, l, p, by rw [h]; rfl, by simp, by simp⟩
    · obtain ⟨i, l', rest, e1, e2, e3⟩ := nway_heads_mem P (o + 1) a h
      exact ⟨i + 1, l', rest, by rw [e1]; congr 2; omega, by simp; omega, by simpa using e3⟩

theorem mem_nway_heads : ∀ (P : List (List Line)) (o i : Nat) (l : Line) (rest : List Line),
    i < P.length → P.getD i [] = l :: rest → some { src := o + i, str := l } ∈ nway_heads o P
  | [], o, i, l, rest, h, _ => by simp at h
  | p :: P, o, 0, l, rest, _, hp => by
    simp only [List.getD_cons_zero] at hp
    subst hp
    simp [nway_heads]
  | p :: P, o, i + 1, l, rest, h, hp => by
    have ih := mem_nway_heads P (o + 1) i l rest (by simpa using h) (by simpa using hp)
    have e : o + 1 + i = o + (i + 1) := by omega
    rw [e] at ih
    cases p with
    | nil => simpa [nway_heads] using ih
    | cons x xs => simp only [nway_heads, List.mem_cons]; exact Or.inr ih

/-- The pointer of reader `i` when `p` holds its lines. -/
theorem nway_heads_set : ∀ (P : List (List Line)) (o i : Nat) (p : List Line),
    i < P.length →
    (nway_heads o (P.set i p)).Perm (nway_heads (o + i) [p] ++ nway_heads o (P.set i []))
  | [], o, i, p, h => by simp at h
  | q :: P, o, 0, p, _ => by
    cases p with
    | nil => simp [nway_heads]
    | cons x xs => simp [nway_heads]
  | q :: P, o, i + 1, p, h => by
    have ih := nway_heads_set P (o + 1) i p (by simpa using h)
    have e : o + 1 + i = o + (i + 1) := by omega
    rw [e] at ih
    cases q with
    | nil => simpa [nway_heads] using ih
    | cons x xs =>
      simp only [List.set_cons_succ, nway_heads]
      exact (List.Perm.cons _ ih).trans List.perm_middle.symm

theorem flatten_set_perm : ∀ (P : List (List Line)) (i : Nat) (l : Line) (rest : List Line),
    i < P.length → P.getD i [] = l :: rest → P.flatten.Perm (l :: (P.set i rest).flatten)
  | [], i, l, rest, h, _ => by simp at h
  | p :: P, 0, l, rest, _, hp => by
    simp only [List.getD_cons_zero] at hp
    subst hp
    simp
  | p :: P, i + 1, l, rest, h, hp => by
    have ih := flatten_set_perm P i l rest (by simpa using h) (by simpa using hp)
    simp only [List.flatten_cons, List.set_cons_succ]
    exact (List.Perm.append_left p ih).trans List.perm_middle


theorem nway_find_spec (table : List nwayReader) (r : strRef) (i : Nat) (rd : nwayReader)
    (hi : table.get? i = some rd) (hr : rd.str = some r) (hri : r.src = i)
    (hsrc : ∀ j rd' x, table.get? j = some rd' → rd'.str = some x → x.src = j) :
    ∀ (n k : Nat), k ≤ i → i < k + n → nway_find (some r) table n k = some i := by
  intro n
  induction n with
  | zero => intro k h1 h2; omega
  | succ n ih =>
    intro k h1 h2
    have hilen : i < table.length := by
      by_contra hc
      rw [List.get?_eq_none.mpr (by omega)] at hi
      exact Option.noConfusion hi
    by_cases hk : k = i
    · subst hk
      simp only [nway_find, hi, hr, ne_eq, not_true_eq_false, if_false]
    · obtain ⟨rdk, hrdk⟩ : ∃ rdk, table.get? k = some rdk :=
        ⟨table.get ⟨k, by omega⟩, List.get?_eq_get _⟩
      have hne : some r ≠ rdk.str := by
        intro hc
        have := hsrc k rdk r hrdk hc.symm
        omega
      simp only [nway_find, hrdk, hne, ne_eq, not_false_eq_true, if_true]
      exact ih (k + 1) (by omega) (by omega)

theorem nway_write_all_f (unique : Int) (out : gzBucket) (L : List Line) :
    (nway_write_all unique out L).f
      = out.f ++ (if unique = 0 then L else uniq_from out.line L) := by
  induction L generalizing out with
  | nil => simp [nway_write_all, uniq_from]
  | cons x xs ih =>
    have h := ih (nway_write unique out x)
    simp only [nway_write_all, List.foldl_cons] at h ⊢
    rw [h]
    by_cases hu : unique = 0
    · simp [nway_write, hu]
    · by_cases hx : strcmp x out.line = 0
      · simp [nway_write, hu, hx, uniq_from]
      · simp [nway_write, hu, hx, uniq_from]


theorem heap_entries_length (h : List (Option strRef)) (t : Nat) :
    (heap_entries h t).length = t := by
  simp [heap_entries]

/-- In the loop of `nway_merge_pass` the line at the root of the heap is a minimum of all
the lines not written yet. -/
theorem nway_root_le (P : List (List Line)) (cap : Nat) (s : nwayState) (inv : NwayInv P cap s)
    (r : strRef) (h0 : s.strs.getD 0 none = some r) :
    ∀ x ∈ P.flatten, strcmp r.str x ≤ 0 := by
  intro x hx
  obtain ⟨p, hp, hxp⟩ := List.mem_flatten.mp hx
  obtain ⟨j, hj, rfl⟩ := List.getElem_of_mem hp
  cases hpj : P[j] with
  | nil => rw [hpj] at hxp; simp at hxp
  | cons lj restj =>
    have hgetD : P.getD j [] = lj :: restj := by
      rw [List.getD_eq_getElem _ _ hj, hpj]
    have hmem := mem_nway_heads P 0 j lj restj hj hgetD
    have hmem2 := inv.entries.mem_iff.mpr hmem
    simp only [heap_entries, List.mem_map, List.mem_range] at hmem2
    obtain ⟨k, hk, hk2⟩ := hmem2
    have hmin := heap_root_min s.strs s.heap_tail cap inv.heap k hk
    rw [h0, hk2] at hmin
    simp only [slot_key] at hmin
    have hs := inv.sorted _ hp
    rw [hpj] at hs hxp
    rcases List.mem_cons.mp hxp with h | h
    · rw [h]; exact hmin
    · exact strcmp_trans hmin (List.rel_of_sorted_cons hs x h)

theorem nwayReader_eta (rd : nwayReader) : ({ g := rd.g, str := rd.str } : nwayReader) = rd := by
  cases rd; rfl

theorem getD_set_self_list (P : List (List Line)) (i : Nat) (p : List Line) (h : i < P.length) :
    (P.set i p).getD i [] = p := getD_set_eq P i p [] h

theorem set_getD_self : ∀ (P : List (List Line)) (i : Nat), i < P.length →
    P.set i (P.getD i []) = P
  | [], i, h => by simp at h
  | p :: P, 0, _ => by simp
  | p :: P, i + 1, h => by
    have ih := set_getD_self P i (by simpa using h)
    simpa using ih

/-- One iteration of the loop of `nway_merge_pass`: the line at the root of the heap is the
first pending line of the reader `r.src`; it is written, the reader found by the search is
that reader, and the invariant holds again with that line taken off its pending lines. -/
theorem nway_step_spec (unique : Int) (cap : Nat) (P : List (List Line)) (s : nwayState)
    (hcap : 2 * P.length ≤ cap + 1) (hcap0 : 0 < cap) (inv : NwayInv P cap s)
    (r : strRef) (h0 : s.strs.getD 0 none = some r) :
    ∃ (i : Nat) (rest : List Line) (s1 : nwayState),
      i < P.length ∧ P.getD i [] = r.str :: rest ∧ r.src = i ∧
      nway_step P.length unique s r = some s1 ∧ NwayInv (P.set i rest) cap s1 ∧
      s1.out = nway_write unique s.out r.str := by
  have hlenE := heap_entries_length s.strs s.heap_tail
  have ht1 : 1 ≤ s.heap_tail := by
    by_contra hc
    have := inv.heap.clear 0 (by omega) hcap0
    rw [h0] at this
    exact Option.noConfusion this
  have htN : s.heap_tail ≤ P.length := by
    have h1 := inv.entries.length_eq
    have h2 := nway_heads_length_le P 0
    omega
  have hmem : some r ∈ heap_entries s.strs s.heap_tail := by
    simp only [heap_entries, List.mem_map, List.mem_range]
    exact ⟨0, by omega, h0⟩
  obtain ⟨i, l, rest, e1, hi, hPi⟩ := nway_heads_mem P 0 _ (inv.entries.mem_iff.mp hmem)
  simp only [Nat.zero_add, Option.some.injEq] at e1
  subst e1
  simp only [] at *
  obtain ⟨rd, hrd⟩ : ∃ rd, s.table.get? i = some rd :=
    ⟨s.table.get ⟨i, by rw [inv.len]; exact hi⟩, List.get?_eq_get _⟩
  have hstr := inv.cur i rd l rest hrd hPi
  have hfile := inv.file i rd hrd
  rw [hPi] at hfile
  simp only [List.tail_cons] at hfile
  have hfind := nway_find_spec s.table { src := i, str := l } i rd hrd hstr rfl inv.src
    P.length 0 (by omega) (by omega)
  obtain ⟨h1, p1, ok1, perm1⟩ := heap_pop_spec s.strs s.heap_tail cap inv.heap ht1 (by omega)
  rw [h0] at perm1
  have hP : P = P.set i (l :: rest) := by
    rw [← hPi]; exact (set_getD_self P i hi).symm
  have hheads : (nway_heads 0 P).Perm
      (some { src := i, str := l } :: nway_heads 0 (P.set i [])) := by
    have := nway_heads_set P 0 i (l :: rest) hi
    rw [← hP] at this
    simpa [nway_heads] using this
  have hrestE : (heap_entries h1 (s.heap_tail - 1)).Perm (nway_heads 0 (P.set i [])) :=
    List.Perm.cons_inv ((perm1.symm.trans inv.entries).trans hheads)
  have hsortedP : ∀ q, ∀ p ∈ P.set i q, q.Sorted LineLE → p.Sorted LineLE := by
    intro q p hp hq
    rcases List.mem_or_eq_of_mem_set hp with h | h
    · exact inv.sorted p h
    · rw [h]; exact hq
  have hPil : (l :: rest).Sorted LineLE := by
    rw [← hPi, List.getD_eq_getElem _ _ hi]
    exact inv.sorted _ (List.getElem_mem hi)
  refine ⟨i, rest, ?_⟩
  cases hrest : rest with
  | nil =>
    subst hrest
    have hload : load_line_ptr i rd = (none, rd) := by
      simp [load_line_ptr, load_line_gz, hfile, nwayReader_eta]
    refine ⟨{ strs := h1, heap_tail := s.heap_tail - 1, table := s.table.set i rd,
              out := nway_write unique s.out l }, hi, hPi, rfl, ?_, ?_, rfl⟩
    · simp only [nway_step, hfind, p1, hrd, hload]
    · refine ⟨by simp [inv.len], ok1, hrestE, ?_, ?_, ?_, ?_⟩
      · intro j rdj hj
        by_cases hji : j = i
        · subst hji
          rw [List.get?_eq_getElem?, List.getElem?_set_self (by rw [inv.len]; exact hi)] at hj
          simp only [Option.some.injEq] at hj
          subst hj
          rw [getD_set_self_list P j [] hi, hfile]; rfl
        · rw [List.get?_eq_getElem?, List.getElem?_set_ne (Ne.symm hji),
            ← List.get?_eq_getElem?] at hj
          rw [getD_set_ne _ _ _ _ _ (Ne.symm hji)]
          exact inv.file j rdj hj
      · intro j rdj l' rest' hj hPj
        by_cases hji : j = i
        · subst hji
          rw [getD_set_self_list P j [] hi] at hPj
          exact List.noConfusion hPj
        · rw [List.get?_eq_getElem?, List.getElem?_set_ne (Ne.symm hji),
            ← List.get?_eq_getElem?] at hj
          rw [getD_set_ne _ _ _ _ _ (Ne.symm hji)] at hPj
          exact inv.cur j rdj l' rest' hj hPj
      · intro j rdj x hj hx
        by_cases hji : j = i
        · subst hji
          rw [List.get?_eq_getElem?, List.getElem?_set_self (by rw [inv.len]; exact hi)] at hj
          simp only [Option.some.injEq] at hj
          subst hj
          exact inv.src j rd x hrd hx
        · rw [List.get?_eq_getElem?, List.getElem?_set_ne (Ne.symm hji),
            ← List.get?_eq_getElem?] at hj
          exact inv.src j rdj x hj hx
      · intro p hp
        exact hsortedP [] p hp List.sorted_nil
  | cons l2 rest2 =>
    subst hrest
    have hload : load_line_ptr i rd
        = (some { src := i, str := l2 },
           { g := { rd.g with f := rest2, line_counter := rd.g.line_counter + 1 },
             str := some { src := i, str := l2 } }) := by
      simp [load_line_ptr, load_line_gz, hfile]
    obtain ⟨h2, p2, ok2, perm2⟩ := heap_add_spec h1 (s.heap_tail - 1) cap
      { src := i, str := l2 } ok1 (by omega)
    refine ⟨{ strs := h2, heap_tail := s.heap_tail - 1 + 1,
              table := s.table.set i (load_line_ptr i rd).2,
              out := nway_write unique s.out l }, hi, hPi, rfl, ?_, ?_, rfl⟩
    · simp only [nway_step, hfind, p1, hrd, hload, p2]
    · rw [hload]
      simp only []
      refine ⟨by simp [inv.len], ok2, ?_, ?_, ?_, ?_, ?_⟩
      · refine perm2.trans ?_
        have := nway_heads_set P 0 i (l2 :: rest2) hi
        refine List.Perm.trans ?_ this.symm
        simpa [nway_heads] using hrestE
      · intro j rdj hj
        by_cases hji : j = i
        · subst hji
          rw [List.get?_eq_getElem?, List.getElem?_set_self (by rw [inv.len]; exact hi)] at hj
          simp only [Option.some.injEq] at hj
          subst hj
          rw [getD_set_self_list P j _ hi]
          rfl
        · rw [List.get?_eq_getElem?, List.getElem?_set_ne (Ne.symm hji),
            ← List.get?_eq_getElem?] at hj
          rw [getD_set_ne _ _ _ _ _ (Ne.symm hji)]
          exact inv.file j rdj hj
      · intro j rdj l' rest' hj hPj
        by_cases hji : j = i
        · subst hji
          rw [List.get?_eq_getElem?, List.getElem?_set_self (by rw [inv.len]; exact hi)] at hj
          simp only [Option.some.injEq] at hj
          subst hj
          rw [getD_set_self_list P j _ hi] at hPj
          simp only [List.cons.injEq] at hPj
          rw [hPj.1]
        · rw [List.get?_eq_getElem?, List.getElem?_set_ne (Ne.symm hji),
            ← List.get?_eq_getElem?] at hj
          rw [getD_set_ne _ _ _ _ _ (Ne.symm hji)] at hPj
          exact inv.cur j rdj l' rest' hj hPj
      · intro j rdj x hj hx
        by_cases hji : j = i
        · subst hji
          rw [List.get?_eq_getElem?, List.getElem?_set_self (by rw [inv.len]; exact hi)] at hj
          simp only [Option.some.injEq] at hj
          subst hj
          simp only [Option.some.injEq] at hx
          rw [← hx]
        · rw [List.get?_eq_getElem?, List.getElem?_set_ne (Ne.symm hji),
            ← List.get?_eq_getElem?] at hj
          exact inv.src j rdj x hj hx
      · intro p hp
        exact hsortedP _ p hp (List.Sorted.of_cons hPil)


/-- The loop of `nway_merge_pass`: it ends within as many iterations as lines are left, with
`strs[0]` NULL, and it has offered to the writer the lines left, sorted. -/
theorem nway_loop_spec (unique : Int) (cap N : Nat) (hcap : 2 * N ≤ cap + 1)
    (hcap0 : 0 < cap) :
    ∀ (fuel : Nat) (P : List (List Line)) (s : nwayState), P.length = N → NwayInv P cap s →
      P.flatten.length < fuel →
      ∃ s1, nway_loop N unique fuel s = some s1 ∧ s1.strs.getD 0 none = none ∧
        s1.out = nway_write_all unique s.out (qsort P.flatten) := by
  intro fuel
  induction fuel with
  | zero => intro P s _ _ h; omega
  | succ n ih =>
    intro P s hN inv hfuel
    cases h0 : s.strs.getD 0 none with
    | none =>
      have ht : s.heap_tail = 0 := by
        by_contra hc
        exact inv.heap.full 0 (by omega) h0
      have hheads : nway_heads 0 P = [] := by
        apply List.eq_nil_of_length_eq_zero
        rw [← inv.entries.length_eq, heap_entries_length, ht]
      have hflat := nway_heads_nil P 0 hheads
      refine ⟨s, by simp only [nway_loop, h0], h0, ?_⟩
      rw [hflat]
      simp [qsort, nway_write_all]
    | some r =>
      subst hN
      obtain ⟨i, rest, s1, hi, hPi, _, hstep, inv1, hout⟩ :=
        nway_step_spec unique cap P s hcap hcap0 inv r h0
      have hperm := flatten_set_perm P i r.str rest hi hPi
      obtain ⟨s2, e1, e2, e3⟩ := ih (P.set i rest) s1 (by simp) inv1 (by
        have := hperm.length_eq
        simp only [List.length_cons] at this
        omega)
      refine ⟨s2, ?_, e2, ?_⟩
      · simp only [nway_loop, h0, hstep]
        simpa using e1
      · rw [e3, hout]
        have hq : qsort P.flatten = r.str :: qsort (P.set i rest).flatten := by
          symm
          apply sorted_perm_eq_qsort
          · refine List.sorted_cons.mpr ⟨?_, qsort_sorted _⟩
            · intro x hx
              have hx1 : x ∈ (P.set i rest).flatten := (qsort_perm _).mem_iff.mp hx
              have hx2 : x ∈ P.flatten := hperm.mem_iff.mpr (List.mem_cons_of_mem _ hx1)
              exact nway_root_le P cap s inv r h0 x hx2
          · exact ((qsort_perm _).cons _).trans hperm.symm
        rw [hq]
        simp [nway_write_all]


theorem take_succ_getD (files : List (List Line)) (k : Nat) (h : k < files.length) :
    files.take (k + 1) = files.take k ++ [files.getD k []] := by
  rw [List.take_succ, List.getD_eq_getElem _ _ h, List.getElem?_eq_getElem h]
  rfl

/-- The seeding loop of `nway_merge_pass` on files that all hold a line: it returns, and the
heap holds a pointer to the first line of every file. -/
theorem nway_seed_spec (files : List (List Line)) (junk : Line) (cap : Nat)
    (hcap : files.length ≤ cap) (hne : ∀ f ∈ files, f ≠ [])
    (hsorted : ∀ f ∈ files, f.Sorted LineLE) :
    ∀ (n k : Nat) (s : nwayState), k + n = files.length →
      s.table.length = files.length → HeapOK s.strs k cap → s.heap_tail = k →
      (heap_entries s.strs k).Perm (nway_heads 0 (files.take k)) →
      (∀ j rd, j < k → s.table.get? j = some rd → rd.g.f = (files.getD j []).tail ∧
        ∀ l rest, files.getD j [] = l :: rest → rd.str = some { src := j, str := l }) →
      (∀ j rd x, s.table.get? j = some rd → rd.str = some x → x.src = j) →
      (∀ j, k ≤ j → j < files.length →
        s.table.get? j = some { g := init_gz (files.getD j []) junk, str := none }) →
      ∃ s1, nway_seed n k s = some s1 ∧ s1.out = s.out ∧ NwayInv files cap s1 := by
  intro n
  induction n with
  | zero =>
    intro k s hk hlen hheap htail hent hdone hsrc _
    simp only [Nat.add_zero] at hk
    subst hk
    rw [List.take_length] at hent
    have hlt : ∀ j rd, s.table.get? j = some rd → j < files.length := by
      intro j rd hj
      by_contra hc
      rw [List.get?_eq_none.mpr (by omega)] at hj
      exact Option.noConfusion hj
    refine ⟨s, rfl, rfl, ⟨hlen, by rw [htail]; exact hheap, by rw [htail]; exact hent, ?_, ?_,
      hsrc, hsorted⟩⟩
    · intro j rd hj
      exact (hdone j rd (hlt j rd hj) hj).1
    · intro j rd l rest hj hP
      exact (hdone j rd (hlt j rd hj) hj).2 l rest hP
  | succ n ih =>
    intro k s hk hlen hheap htail hent hdone hsrc htodo
    have hklt : k < files.length := by omega
    have hrd := htodo k (le_refl _) hklt
    cases hfk : files.getD k [] with
    | nil =>
      have := hne (files.getD k []) (by
        rw [List.getD_eq_getElem _ _ hklt]; exact List.getElem_mem hklt)
      exact absurd hfk this
    | cons l rest =>
      rw [hfk] at hrd
      have hload : load_line_ptr k { g := init_gz (l :: rest) junk, str := none }
          = (some { src := k, str := l },
             { g := { init_gz (l :: rest) junk with f := rest, line_counter := 0 + 1 },
               str := some { src := k, str := l } }) := by
        simp [load_line_ptr, load_line_gz, init_gz]
      obtain ⟨h2, p2, ok2, perm2⟩ := heap_add_spec s.strs k cap { src := k, str := l } hheap
        (by omega)
      obtain ⟨s1, e1, e2, e3⟩ := ih (k + 1)
        { s with strs := h2, heap_tail := s.heap_tail + 1,
                 table := s.table.set k (load_line_ptr k
                   { g := init_gz (l :: rest) junk, str := none }).2 }
        (by omega) (by simpa using hlen) ok2 (by simp only []; omega)
        (by
          refine perm2.trans ?_
          rw [take_succ_getD files k hklt, nway_heads_append, hfk]
          simp only [List.length_take, Nat.zero_add, min_eq_left (Nat.le_of_lt hklt),
            nway_heads]
          exact (@List.perm_append_comm _ [_] _).trans
            (List.Perm.append_right _ hent))
        (by
          intro j rd hj hget
          simp only [] at hget
          by_cases hjk : j = k
          · subst hjk
            rw [List.get?_eq_getElem?, List.getElem?_set_self (by rw [hlen]; exact hklt)]
              at hget
            simp only [Option.some.injEq] at hget
            subst hget
            rw [hload, hfk]
            refine ⟨rfl, ?_⟩
            intro l' rest' hl'
            simp only [List.cons.injEq] at hl'
            rw [hl'.1]
          · rw [List.get?_eq_getElem?, List.getElem?_set_ne (Ne.symm hjk),
              ← List.get?_eq_getElem?] at hget
            exact hdone j rd (by omega) hget)
        (by
          intro j rd x hget hx
          simp only [] at hget
          by_cases hjk : j = k
          · subst hjk
            rw [List.get?_eq_getElem?, List.getElem?_set_self (by rw [hlen]; exact hklt)]
              at hget
            simp only [Option.some.injEq] at hget
            subst hget
            rw [hload] at hx
            simp only [Option.some.injEq] at hx
            rw [← hx]
          · rw [List.get?_eq_getElem?, List.getElem?_set_ne (Ne.symm hjk),
              ← List.get?_eq_getElem?] at hget
            exact hsrc j rd x hget hx)
        (by
          intro j hj1 hj2
          simp only []
          rw [List.get?_eq_getElem?, List.getElem?_set_ne (by omega), ← List.get?_eq_getElem?]
          exact htodo j (by omega) hj2)
      refine ⟨s1, ?_, e2, e3⟩
      simp only [nway_seed, hrd, hload, htail, p2]
      rw [htail] at e1
      exact e1


theorem getD_replicate_append_none (n : Nat) (rest : List (Option strRef)) (i : Nat)
    (h : i < n) : (List.replicate n (none : Option strRef) ++ rest).getD i none = none := by
  rw [List.getD_eq_getElem?_getD, List.getElem?_append_left (by simpa using h)]
  simp [h]

/-- The function `nway_merge_pass` on sorted files that all hold a line, when the slots of
`strs` that `heap_pop` may read hold NULL (the `m` slots from `strs[MAX_THREADS]` on, with
`2 * count <= 65 + m`): it returns, its loop has ended, and the destination file holds the
lines of all the files, sorted (and deduplicated by the writer when `unique` is set). -/
theorem nway_merge_pass_clean (files : List (List Line)) (unique : Int) (junk : Line)
    (m : Nat) (rest : List (Option strRef)) (hne : ∀ f ∈ files, f ≠ [])
    (hsorted : ∀ f ∈ files, f.Sorted LineLE) (hN : 2 * files.length ≤ 65 + m) :
    ∃ s, nway_merge_pass files unique junk (List.replicate m none ++ rest) = some s ∧
      s.strs.getD 0 none = none ∧
      s.out.f = (if unique = 0 then qsort files.flatten
        else uniq_from junk (qsort files.flatten)) := by
  have hstrs : (nway_start files junk (List.replicate m none ++ rest)).strs
      = List.replicate (64 + m) none ++ rest := by
    simp only [nway_start, MAX_THREADS, ← List.append_assoc, List.append_replicate_replicate]
  have hok : HeapOK (nway_start files junk (List.replicate m none ++ rest)).strs 0 (64 + m) := by
    rw [hstrs]
    refine ⟨by simp, fun i hi => by omega, ?_, fun i h0 hi => by omega⟩
    intro i _ hi
    exact getD_replicate_append_none _ _ i hi
  obtain ⟨s0, e1, e2, inv⟩ := nway_seed_spec files junk (64 + m) (by omega) hne hsorted
    files.length 0 (nway_start files junk (List.replicate m none ++ rest)) (by omega)
    (by simp [nway_start]) hok rfl (by simp [heap_entries, nway_heads])
    (fun j rd hj => by omega)
    (by
      intro j rd x hj hx
      simp only [nway_start, List.get?_eq_getElem?, List.getElem?_map] at hj
      cases hf : files[j]? with
      | none => rw [hf] at hj; exact Option.noConfusion hj
      | some f =>
        rw [hf] at hj
        simp only [Option.map_some', Option.some.injEq] at hj
        rw [← hj] at hx
        exact Option.noConfusion hx)
    (by
      intro j _ hj
      simp only [nway_start, List.get?_eq_getElem?, List.getElem?_map,
        List.getElem?_eq_getElem hj, Option.map_some', List.getD_eq_getElem _ _ hj])
  obtain ⟨s1, f1, f2, f3⟩ := nway_loop_spec unique (64 + m) files.length (by omega)
    (by omega) (files.flatten.length + 1) files s0 rfl inv (Nat.lt_succ_self _)
  refine ⟨s1, ?_, f2, ?_⟩
  · simp only [nway_merge_pass, e1]
    exact f1
  · rw [f3, nway_write_all_f, e2]
    simp [nway_start, init_gz]

/-- The function `nway_merge_pass` on at most 32 sorted files that all hold a line, whatever
the memory from `strs[MAX_THREADS]` on holds. -/
theorem nway_merge_pass_spec (files : List (List Line)) (unique : Int) (junk : Line)
    (beyond : List (Option strRef)) (hne : ∀ f ∈ files, f ≠ [])
    (hsorted : ∀ f ∈ files, f.Sorted LineLE) (hN : files.length ≤ 32) :
    ∃ s, nway_merge_pass files unique junk beyond = some s ∧
      s.strs.getD 0 none = none ∧
      s.out.f = (if unique = 0 then qsort files.flatten
        else uniq_from junk (qsort files.flatten)) := by
  have := nway_merge_pass_clean files unique junk 0 beyond hne hsorted (by omega)
  simpa using this

/-! ## The workers of the parallel sort -/

theorem load_line_gz_shrinks (g : gzBucket) (l : Line) (h : (load_line_gz g).1 = some l) :
    (load_line_gz g).2.f.length + 1 = g.f.length := by
  cases hf : g.f with
  | nil => simp [load_line_gz, hf] at h
  | cons x xs => simp [load_line_gz, hf]

theorem subset_lines_gz_shrinks (g : gzBucket) (l : Line)
    (h : (subset_lines_gz g).1 = some l) :
    (subset_lines_gz g).2.f.length + 1 = g.f.length := by
  unfold subset_lines_gz at h ⊢
  split at h
  · exact Option.noConfusion h
  · rename_i hc
    rw [if_neg hc]
    exact load_line_gz_shrinks _ l h

theorem nway_line_gz_shrinks (g : gzBucket) (l : Line) (h : (nway_line_gz g).1 = some l) :
    (nway_line_gz g).2.f.length < g.f.length := by
  unfold nway_line_gz at h ⊢
  split
  · rename_i hc
    rw [if_pos hc] at h
    have h1 := subset_lines_gz_shrinks _ l h
    have h2 : (skip_lines_gz g g.nway_skips).f.length ≤ g.f.length := by
      rw [skip_lines_gz_f]; simp
    exact Nat.lt_of_lt_of_le (Nat.lt_of_succ_le (Nat.le_of_eq h1)) h2
  · rename_i hc
    rw [if_neg hc] at h
    have := subset_lines_gz_shrinks _ l h
    omega

/-- The lines that successive calls of a reader return do not depend on the number of calls
allowed, once it exceeds the number of lines left in the file. -/
theorem read_lines_fuel (line_gz : gzBucket → Option Line × gzBucket)
    (hsh : ∀ g l, (line_gz g).1 = some l → (line_gz g).2.f.length < g.f.length) :
    ∀ (n m : Nat) (g : gzBucket), g.f.length < n → g.f.length < m →
      read_lines line_gz n g = read_lines line_gz m g := by
  intro n
  induction n with
  | zero => intro m g h; omega
  | succ n ih =>
    intro m g hn hm
    obtain ⟨m', rfl⟩ : ∃ m', m = m' + 1 := ⟨m - 1, by omega⟩
    rcases hr : line_gz g with ⟨o, g'⟩
    cases o with
    | none => simp only [read_lines, hr]
    | some l =>
      have := hsh g l (by rw [hr])
      rw [hr] at this
      simp only [read_lines, hr]
      rw [ih m' g' (by simp only [] at this; omega) (by simp only [] at this; omega)]

theorem read_lines_length (line_gz : gzBucket → Option Line × gzBucket)
    (hsh : ∀ g l, (line_gz g).1 = some l → (line_gz g).2.f.length < g.f.length) :
    ∀ (n : Nat) (g : gzBucket), (read_lines line_gz n g).length ≤ g.f.length := by
  intro n
  induction n with
  | zero => intro g; simp [read_lines]
  | succ n ih =>
    intro g
    rcases hr : line_gz g with ⟨o, g'⟩
    cases o with
    | none => simp [read_lines, hr]
    | some l =>
      have := hsh g l (by rw [hr])
      rw [hr] at this
      have h2 := ih g'
      simp only [read_lines, hr, List.length_cons]
      simp only [] at this
      omega

theorem skip_lines_gz_nway (g : gzBucket) (skip : Int) :
    (skip_lines_gz g skip).nway_lines = g.nway_lines ∧
    (skip_lines_gz g skip).nway_skips = g.nway_skips :=
  skip_loop_nway _ g

/-- Once `nway_line_gz` has returned NULL it returns NULL at every later call. -/
theorem nway_line_gz_none (g : gzBucket) (h : (nway_line_gz g).1 = none) :
    (nway_line_gz (nway_line_gz g).2).1 = none := by
  have dead : ∀ g' : gzBucket,
      (g'.f = [] ∨ (g'.subset_counter ≤ 0 ∧ g'.nway_lines ≤ 0)) →
      (nway_line_gz g').1 = none := by
    intro g' hd
    unfold nway_line_gz
    split
    · rcases hd with hd | hd
      · by_cases hl : g'.nway_lines ≤ 0
        · simp [subset_lines_gz, hl]
        · simp [subset_lines_gz, hl, load_line_gz, skip_lines_gz_f, hd]
      · simp [subset_lines_gz, hd.2]
    · rename_i hc
      rcases hd with hd | hd
      · simp [subset_lines_gz, hc, load_line_gz, hd]
      · exact absurd hd.1 hc
  apply dead
  unfold nway_line_gz at h ⊢
  split
  · rename_i hc
    rw [if_pos hc] at h
    by_cases hl : g.nway_lines ≤ 0
    · right
      simp [subset_lines_gz, hl, (skip_lines_gz_nway g g.nway_skips).1]
    · left
      simp only [subset_lines_gz, hl, if_false] at h ⊢
      cases hf : (skip_lines_gz g g.nway_skips).f with
      | nil => simp [load_line_gz, hf]
      | cons x xs => simp [load_line_gz, hf] at h
  · rename_i hc
    rw [if_neg hc] at h
    left
    simp only [subset_lines_gz, hc, if_false] at h ⊢
    cases hf : g.f with
    | nil => simp [load_line_gz, hf]
    | cons x xs => simp [load_line_gz, hf] at h

/-- The reader `nway_line_gz` is a line source for `presort_pass`: its view of a bucket is
the list of the lines that successive calls return. -/
theorem nway_line_gz_source :
    LineSource nway_line_gz (fun g => read_lines nway_line_gz (g.f.length + 1) g)
      (fun g => - ((read_lines nway_line_gz (g.f.length + 1) g).length : Int)) where
  bound := fun g => read_lines_length nway_line_gz nway_line_gz_shrinks _ g
  none_view := by
    intro g h
    have h2 := nway_line_gz_none g h
    rcases hr : nway_line_gz g with ⟨o, g'⟩
    rw [hr] at h h2
    simp only [] at h h2
    subst h
    rcases hr2 : nway_line_gz g' with ⟨o2, g2⟩
    rw [hr2] at h2
    simp only [] at h2
    subst h2
    simp [read_lines, hr, hr2]
  some_view := by
    intro g l h
    have hsh := nway_line_gz_shrinks g l h
    rcases hr : nway_line_gz g with ⟨o, g'⟩
    rw [hr] at h hsh
    simp only [] at h hsh
    subst h
    have hfu := read_lines_fuel nway_line_gz nway_line_gz_shrinks g.f.length
      (g'.f.length + 1) g' hsh (Nat.lt_succ_self _)
    simp only [read_lines, hr, hfu, List.length_cons]
    refine ⟨trivial, ?_⟩
    push_cast
    omega


/-- The function `nway_chop_and_presort` of worker `k` of `N`: the lines of its partition are
cut into consecutive runs, the temporary file holds the runs sorted and the log their
lengths. -/
theorem nway_chop_and_presort_spec (input : List Line) (junk : Line) (k N : Nat)
    (misc : miscBucket) (hN : misc.nway = (N : Int)) :
    ∃ (runs : List (List Line)) (pad : Nat),
      runs ≠ [] ∧ runs.flatten = nway_lines_read input junk k N ∧
      (∀ r ∈ runs.tail, r ≠ []) ∧ 4 ≤ pad ∧
      (nway_chop_and_presort input junk (k : Int) misc).2.line_log
        = run_lengths runs ++ List.replicate pad (-1) ∧
      (nway_chop_and_presort input junk (k : Int) misc).1 = (runs.map qsort).flatten ∧
      (nway_chop_and_presort input junk (k : Int) misc).2.unique = misc.unique := by
  obtain ⟨runs, pad, g1, g2, g3, g4, g5, g6, _, g8⟩ := presort_pass_spec nway_line_gz_source
    (nway_reader input junk (k : Int) misc.nway) (init_gz [] junk)
    { misc with log_len := 1024, line_log := List.replicate (1024 + 1) 0 }
    (List.length_replicate _ _) (by show 3 ≤ 1024; omega)
  have hview : read_lines nway_line_gz
      (({ nway_reader input junk (k : Int) misc.nway with line_counter := 0 } :
        gzBucket).f.length + 1)
      { nway_reader input junk (k : Int) misc.nway with line_counter := 0 }
      = nway_lines_read input junk k N := by
    unfold nway_lines_read
    rw [hN]
    have hlen : (nway_reader input junk (k : Int) (N : Int)).f.length < input.length + 1 := by
      simp only [nway_reader, skip_lines_gz_f, init_gz, List.length_drop]
      omega
    exact read_lines_fuel nway_line_gz nway_line_gz_shrinks _ _ _ (Nat.lt_succ_self _) hlen
  simp only [] at g2
  rw [hview] at g2
  refine ⟨runs, pad, g1, g2, g3, g4, g5, ?_, ?_⟩
  · simp only [nway_chop_and_presort]
    rw [g6]
    simp [init_gz]
  · simp only [nway_chop_and_presort]
    rw [g8]

/-- The worker in closed form, for a partition of fewer than `2^31` lines: the file it
leaves holds its partition sorted, deduplicated by its last merge pass when the stale
`unique` of its `misc` is not 0 and its presort wrote at least two runs. -/
theorem sort_thread_fn_eq (input : List Line) (junk : Line) (k N : Nat) (misc : miscBucket)
    (hN : misc.nway = (N : Int))
    (hsmall : ((nway_lines_read input junk k N).length : Int) < 2147483648) :
    sort_thread_fn input junk (k : Int) misc = qsort (nway_lines_read input junk k N) ∨
    (misc.unique ≠ 0 ∧
      sort_thread_fn input junk (k : Int) misc
        = uniq_from junk (qsort (nway_lines_read input junk k N))) := by
  obtain ⟨runs, pad, g1, g2, g3, g4, g5, g6, g8⟩ := nway_chop_and_presort_spec input junk k N
    { misc with total_lines := 0 } hN
  have hfuel : (runs.map qsort).length
      ≤ (nway_chop_and_presort input junk (k : Int)
          { misc with total_lines := 0 }).2.line_log.length := by
    rw [g5]; simp [run_lengths]
  obtain ⟨h1, _, _⟩ := middle_loop_spec junk
    (nway_chop_and_presort input junk (k : Int) { misc with total_lines := 0 }).2.line_log.length
    (runs.map qsort) pad
    { file := (nway_chop_and_presort input junk (k : Int) { misc with total_lines := 0 }).1,
      misc := (nway_chop_and_presort input junk (k : Int) { misc with total_lines := 0 }).2,
      unique := 0, line_counter := 0 }
    hfuel (by simpa using g1) (by
      intro r hr
      obtain ⟨r', _, rfl⟩ := List.mem_map.mp hr
      exact qsort_sorted r')
    (by
      intro h2
      apply live_pairs_of_tail _ h2
      intro r hr
      rw [← List.map_tail] at hr
      obtain ⟨r', hr', rfl⟩ := List.mem_map.mp hr
      intro he
      have := qsort_length r'
      rw [he] at this
      exact g3 r' hr' (List.length_eq_zero.mp this.symm))
    (by omega) g6 (by rw [g5, run_lengths_map_qsort]) rfl
    (by rw [(flatten_map_qsort_perm runs).length_eq, g2]; exact hsmall)
  have hq : qsort (runs.map qsort).flatten = qsort (nway_lines_read input junk k N) :=
    qsort_congr ((flatten_map_qsort_perm runs).trans (by rw [g2]))
  simp only [hq, g8] at h1
  have hfile : sort_thread_fn input junk (k : Int) misc = (middle_loop junk
      (nway_chop_and_presort input junk (k : Int)
        { misc with total_lines := 0 }).2.line_log.length
      { file := (nway_chop_and_presort input junk (k : Int) { misc with total_lines := 0 }).1,
        misc := (nway_chop_and_presort input junk (k : Int) { misc with total_lines := 0 }).2,
        unique := 0, line_counter := 0 }).file := rfl
  rw [hfile, h1]
  split
  · rename_i hc
    exact Or.inr ⟨hc.2, rfl⟩
  · exact Or.inl rfl

/-- A worker whose partition is empty leaves an empty file. -/
theorem sort_thread_fn_empty (input : List Line) (junk : Line) (k N : Nat) (misc : miscBucket)
    (hN : misc.nway = (N : Int)) (he : nway_lines_read input junk k N = []) :
    sort_thread_fn input junk (k : Int) misc = [] := by
  rcases sort_thread_fn_eq input junk k N misc hN (by rw [he]; decide) with h | ⟨_, h⟩
  · rw [h, he]; rfl
  · rw [h, he]; rfl

theorem strcmp_ptr_none (a : Option strRef) : strcmp_ptr a none = none := by
  cases a <;> rfl

/-- The call `heap_add(strs, NULL, heap_tail)` with `heap_tail >= 1` compares a string with
NULL. -/
theorem heap_add_null (h : List (Option strRef)) (t : Nat) (ht : 1 ≤ t) :
    heap_add h none t = none := by
  simp only [heap_add, heap_add_loop, show t > 0 from ht, if_true, strcmp_ptr_none]

/-- The seeding loop of `nway_merge_pass` runs into `strcmp` on NULL when a reader other
than the first one has no line. -/
theorem nway_seed_null (j : Nat) (hj : 1 ≤ j) (rd : nwayReader) (hrd : rd.g.f = []) :
    ∀ (n i : Nat) (s : nwayState), i ≤ j → j < i + n → s.heap_tail = i →
      s.table.get? j = some rd → nway_seed n i s = none := by
  intro n
  induction n with
  | zero => intro i s h1 h2; omega
  | succ n ih =>
    intro i s h1 h2 ht hget
    by_cases hij : i = j
    · subst hij
      have hload : load_line_ptr i rd = (none, rd) := by
        simp [load_line_ptr, load_line_gz, hrd, nwayReader_eta]
      simp only [nway_seed, hget, hload, ht, heap_add_null _ i hj]
    · simp only [nway_seed]
      cases hgi : s.table.get? i with
      | none => rfl
      | some r =>
        simp only []
        cases hadd : heap_add s.strs (load_line_ptr i r).1 s.heap_tail with
        | none => rfl
        | some strs =>
          simp only []
          apply ih (i + 1) _ (by omega) (by omega) (by simp only []; omega)
          simp only []
          rw [List.get?_eq_getElem?, List.getElem?_set_ne hij, ← List.get?_eq_getElem?]
          exact hget

/-- The function `nway_merge_pass` meets undefined behaviour when a file other than the
first one is empty. -/
theorem nway_merge_pass_null (files : List (List Line)) (unique : Int) (junk : Line)
    (beyond : List (Option strRef)) (j : Nat) (hj : 1 ≤ j) (hlt : j < files.length)
    (he : files.getD j [] = []) :
    nway_merge_pass files unique junk beyond = none := by
  have hseed := nway_seed_null j hj { g := init_gz [] junk, str := none } rfl files.length 0
    (nway_start files junk beyond) (by omega) (by omega) rfl (by
      simp only [nway_start, List.get?_eq_getElem?, List.getElem?_map,
        List.getElem?_eq_getElem hlt, Option.map_some']
      rw [List.getD_eq_getElem _ _ hlt] at he
      rw [he])
  simp only [nway_merge_pass, hseed]


/-- With `N >= 2` workers and an input of at most `1000*(N-1)` lines the partition of the
last worker is empty, its file is empty, and the seeding loop of `nway_merge_pass` calls
`heap_add` with NULL: the parallel sort meets undefined behaviour. -/
theorem main_threaded_short_input (input : List Line) (presort_bytes unique : Int) (N : Nat)
    (junk : Line) (stale : Nat → Int) (beyond : List (Option strRef)) (hN : 2 ≤ N)
    (hshort : input.length ≤ 1000 * (N - 1)) :
    main_threaded input presort_bytes unique N junk stale beyond = none := by
  have hpart : nway_lines_read input junk (N - 1) N = [] := by
    rw [nway_lines_read_positions input junk (N - 1) N (by omega)]
    have : nway_positions N (N - 1) input.length = [] := by
      unfold nway_positions
      rw [List.filter_eq_nil_iff]
      intro p hp
      have hp' := List.mem_range.mp hp
      have h1 : p / 1000 < N - 1 := by omega
      simp only [decide_eq_true_eq]
      rw [Nat.mod_eq_of_lt (by omega)]
      omega
    rw [this]; rfl
  have hfile := sort_thread_fn_empty input junk (N - 1) N
    (thread_misc presort_bytes (N : Int) (stale (N - 1))) rfl hpart
  unfold main_threaded
  apply nway_merge_pass_null _ unique junk beyond (N - 1) (by omega) (by simp; omega)
  rw [List.getD_eq_getElem _ _ (by simp; omega)]
  simp only [List.getElem_map, List.getElem_range]
  exact hfile

/-- When the pointer at the root of the heap is the `str` of none of the readers, an
iteration of the loop of `nway_merge_pass` writes the line and changes nothing else: the loop
does not end, whatever the number of iterations. -/
theorem nway_loop_stuck (count : Nat) (r : strRef) :
    ∀ (fuel : Nat) (s : nwayState), s.strs.getD 0 none = some r →
      nway_find (some r) s.table count 0 = none →
      ∃ s1, nway_loop count 0 fuel s = some s1 ∧ s1.strs.getD 0 none = some r ∧
        s1.out.f = s.out.f ++ List.replicate fuel r.str := by
  intro fuel
  induction fuel with
  | zero => intro s h0 _; exact ⟨s, rfl, h0, by simp⟩
  | succ n ih =>
    intro s h0 hfind
    obtain ⟨s1, e1, e2, e3⟩ := ih { s with out := nway_write 0 s.out r.str } h0 hfind
    refine ⟨s1, ?_, e2, ?_⟩
    · simp only [nway_loop, h0, nway_step, hfind]
      exact e1
    · rw [e3]
      simp [nway_write, List.replicate_succ]


set_option maxRecDepth 100000 in
/-- C13, the code at 33 sorted sources of one line each (source `i` holds the line whose only
byte is `i + 1`), without `-u`, when `strs[64]`, which `nway_merge_pass` does not clear,
holds a stale pointer to an empty string. The first `heap_pop` walks the last pointer down
to slot 31 and reads its child slot 64; the stale pointer enters the heap and reaches the
root after two lines. From there on every iteration writes an empty line and pops nothing:
after the 34 iterations that 33 lines need, the output is the lines 1, 2 and 32 empty lines
and `strs[0]` is still the stale pointer. -/
theorem nway_merge_reads_stale_slot :
    (nway_merge_pass ((List.range 33).map (fun i => [[i + 1]])) 0 []
        [some { src := 64, str := [] }]).map (fun s => (s.out.f, s.strs.getD 0 none))
      = some ([[1], [2]] ++ List.replicate 32 [], some { src := 64, str := [] }) := by
  decide

/-- C14, the code at the input of one line "a" with two workers and the default budget: the
partition of worker 1 is empty, `nway_merge_pass` calls `heap_add(strs, NULL, 1)`, which
calls `strcmp` on NULL, so the parallel sort does not complete, while the single-threaded
sort of the same input writes the line "a". -/
theorem parallel_sort_null_seed :
    main_threaded [[97]] (main_presort_bytes 1000000 2) 0 2 [] (fun _ => 0) [] = none ∧
    main_unthreaded [[97]] (main_presort_bytes 1000000 0) 0 [] = [[97]] := by
  constructor
  · exact main_threaded_short_input _ _ _ 2 _ _ _ (by decide) (by decide)
  · rw [main_unthreaded_eq _ _ _ _ (by decide)]
    simp only [ne_eq, not_true_eq_false, and_false, if_false]
    decide

/-! ## The parallel sort on its good inputs -/

/-- The partitions of the workers, one after the other, hold the lines of the input. -/
theorem nway_pick_perm (N : Nat) (hN : 1 ≤ N) : ∀ (l : List Line) (o : Nat),
    ((List.range N).map (fun k => nway_pick N k o l)).flatten.Perm l
  | [], o => by
    have : ((List.range N).map (fun k => nway_pick N k o [])) = List.replicate N [] := by
      simp [nway_pick]
    rw [this]
    simp
  | x :: l, o => by
    have ih := nway_pick_perm N hN l (o + 1)
    have hlt : o / 1000 % N < N := Nat.mod_lt _ (by omega)
    have hget : ((List.range N).map (fun k => nway_pick N k o (x :: l))).getD (o / 1000 % N) []
        = x :: nway_pick N (o / 1000 % N) (o + 1) l := by
      rw [List.getD_eq_getElem _ _ (by simpa using hlt)]
      simp [nway_pick]
    have hset : ((List.range N).map (fun k => nway_pick N k o (x :: l))).set (o / 1000 % N)
        (nway_pick N (o / 1000 % N) (o + 1) l)
        = (List.range N).map (fun k => nway_pick N k (o + 1) l) := by
      apply List.ext_getElem
      · simp
      · intro i h1 h2
        simp only [List.length_set, List.length_map, List.length_range] at h1
        by_cases hi : o / 1000 % N = i
        · subst hi
          simp
        · rw [List.getElem_set_ne hi]
          simp [nway_pick, hi]
    have := flatten_set_perm _ (o / 1000 % N) x _ (by simpa using hlt) hget
    rw [hset] at this
    exact this.trans (List.Perm.cons x ih)

theorem nway_partition_perm (N : Nat) (hN : 1 ≤ N) (input : List Line) (junk : Line) :
    ((List.range N).map (fun k => nway_lines_read input junk k N)).flatten.Perm input := by
  have e : (List.range N).map (fun k => nway_lines_read input junk k N)
      = (List.range N).map (fun k => nway_pick N k 0 input) := by
    apply List.map_congr_left
    intro k hk
    exact nway_lines_read_eq input junk k N (List.mem_range.mp hk)
  rw [e]
  exact nway_pick_perm N hN input 0


/-- The parallel sort on its good inputs: with at most 32 workers, an input of fewer than
`2^31` lines from which every worker gets a line (more than `1000*(N-1)` lines), no line
longer than the budget of a worker (so that no presort overruns its buffer,
`presort_pass_copies_fit`) and workers whose stale `unique` is 0, it completes and the
destination file holds the sorted input (deduplicated by the writer of `nway_merge_pass`
when `unique` is set), whatever the memory after `strs` holds. -/
theorem main_threaded_eq (input : List Line) (presort_bytes unique : Int) (N : Nat)
    (junk : Line) (stale : Nat → Int) (beyond : List (Option strRef)) (hN1 : 1 ≤ N)
    (hN : N ≤ 32) (hlong : 1000 * (N - 1) < input.length) (hstale : ∀ i, i < N → stale i = 0)
    (_hfit : ∀ l ∈ input, (l.length : Int) ≤ presort_bytes)
    (hsmall : (input.length : Int) < 2147483648) :
    ∃ s, main_threaded input presort_bytes unique N junk stale beyond = some s ∧
      s.strs.getD 0 none = none ∧
      s.out.f = (if unique = 0 then qsort input else uniq_from junk (qsort input)) := by
  have hfiles : (List.range N).map (fun (i : Nat) =>
        sort_thread_fn input junk (i : Int) (thread_misc presort_bytes (N : Int) (stale i)))
      = (List.range N).map (fun k => qsort (nway_lines_read input junk k N)) := by
    apply List.map_congr_left
    intro k hk
    have hpart : ((nway_lines_read input junk k N).length : Int) < 2147483648 := by
      rw [nway_lines_read_positions input junk k N (List.mem_range.mp hk), List.length_map]
      have : (nway_positions N k input.length).length ≤ input.length := by
        unfold nway_positions
        exact (List.length_filter_le _ _).trans (by simp)
      omega
    rcases sort_thread_fn_eq input junk k N (thread_misc presort_bytes (N : Int) (stale k)) rfl
      hpart with h | ⟨h, _⟩
    · exact h
    · exact absurd (hstale k (List.mem_range.mp hk)) h
  have hperm : ((List.range N).map
      (fun k => qsort (nway_lines_read input junk k N))).flatten.Perm input := by
    have h1 := flatten_map_qsort_perm
      ((List.range N).map (fun k => nway_lines_read input junk k N))
    rw [List.map_map] at h1
    exact h1.trans (nway_partition_perm N hN1 input junk)
  obtain ⟨s, e1, e2, e3⟩ := nway_merge_pass_spec
    ((List.range N).map (fun k => qsort (nway_lines_read input junk k N))) unique junk beyond
    (by
      intro f hf
      obtain ⟨k, hk, rfl⟩ := List.mem_map.mp hf
      have hk' := List.mem_range.mp hk
      intro he
      have hlen := qsort_length (nway_lines_read input junk k N)
      rw [he, nway_lines_read_positions input junk k N hk'] at hlen
      have hmem : 1000 * k ∈ nway_positions N k input.length := by
        simp only [nway_positions, List.mem_filter, List.mem_range, decide_eq_true_eq]
        refine ⟨by omega, ?_⟩
        have : 1000 * k / 1000 = k := by omega
        rw [this, Nat.mod_eq_of_lt hk']
      have := List.length_pos_of_mem hmem
      simp at hlen
      omega)
    (by
      intro f hf
      obtain ⟨k, _, rfl⟩ := List.mem_map.mp hf
      exact qsort_sorted _)
    (by simpa using hN)
  refine ⟨s, ?_, e2, ?_⟩
  · unfold main_threaded
    rw [hfiles]
    exact e1
  · rw [e3, qsort_congr hperm]


/-- On the same inputs and without `-u` the parallel sort writes what the single-threaded
sort writes, whatever the budgets (no line being longer than either) and the content of the
fresh `line` buffers. -/
theorem main_threaded_agrees (input : List Line) (presort_bytes presort_bytes0 : Int)
    (N : Nat) (junk junk0 : Line) (stale : Nat → Int) (beyond : List (Option strRef))
    (hN1 : 1 ≤ N) (hN : N ≤ 32) (hlong : 1000 * (N - 1) < input.length)
    (hstale : ∀ i, i < N → stale i = 0)
    (hfit : ∀ l ∈ input, (l.length : Int) ≤ presort_bytes)
    (_hfit0 : ∀ l ∈ input, (l.length : Int) ≤ presort_bytes0)
    (hsmall : (input.length : Int) < 2147483648) :
    ∃ s, main_threaded input presort_bytes 0 N junk stale beyond = some s ∧
      s.strs.getD 0 none = none ∧
      s.out.f = main_unthreaded input presort_bytes0 0 junk0 := by
  obtain ⟨s, e1, e2, e3⟩ := main_threaded_eq input presort_bytes 0 N junk stale beyond hN1 hN
    hlong hstale hfit hsmall
  refine ⟨s, e1, e2, ?_⟩
  rw [e3, main_unthreaded_eq _ _ _ _ hsmall]
  simp

/-! ## The heap operations on any heap -/

theorem getD_append_none (h : List (Option strRef)) (k i : Nat) :
    (h ++ List.replicate k none).getD i none = h.getD i none := by
  by_cases hi : i < h.length
  · rw [List.getD_append _ _ _ _ hi]
  · rw [List.getD_append_right _ _ _ _ (by omega), List.getD_eq_default h none (by omega)]
    by_cases hk : i - h.length < k
    · rw [List.getD_eq_getElem _ _ (by simpa using hk)]
      simp
    · rw [List.getD_eq_default _ _ (by simp; omega)]

theorem getD_ne_none_lt (h : List (Option strRef)) (i : Nat) (hne : h.getD i none ≠ none) :
    i < h.length := by
  by_contra hge
  exact hne (List.getD_eq_default _ _ (by omega))

/-- The loop of `heap_pop` neither reads a pointer in NULL slots that follow the array nor
writes to them. -/
theorem heap_pop_loop_pad (last : Option strRef) (T k : Nat) :
    ∀ (fuel : Nat) (h : List (Option strRef)) (p : Nat), p < h.length →
      heap_pop_loop last T fuel (h ++ List.replicate k none) p
        = (heap_pop_loop last T fuel h p).map (fun x => x ++ List.replicate k none) := by
  intro fuel
  induction fuel with
  | zero => intro h p _; simp [heap_pop_loop]
  | succ n ih =>
    intro h p hp
    simp only [heap_pop_loop, getD_append_none]
    by_cases hpT : p < T
    · simp only [hpT, if_true]
      have hc1 : (if h.getD (heap_child1 p) none = none then p else heap_child1 p) < h.length := by
        split
        · exact hp
        · rename_i hne; exact getD_ne_none_lt _ _ hne
      have hc2 : (if h.getD (heap_child2 p) none = none then p else heap_child2 p) < h.length := by
        split
        · exact hp
        · rename_i hne; exact getD_ne_none_lt _ _ hne
      generalize (if h.getD (heap_child1 p) none = none then p else heap_child1 p) = c1 at hc1 ⊢
      generalize (if h.getD (heap_child2 p) none = none then p else heap_child2 p) = c2 at hc2 ⊢
      cases h12 : strcmp_ptr (h.getD c1 none) (h.getD c2 none) with
      | none => simp
      | some cmp12 =>
        simp only
        have hc : (if cmp12 > 0 then c2 else c1) < h.length := by split <;> assumption
        generalize (if cmp12 > 0 then c2 else c1) = c at hc ⊢
        cases hpc : strcmp_ptr (h.getD p none) (h.getD c none) with
        | none => simp
        | some cmp =>
          simp only
          by_cases hcmp : cmp ≤ 0
          · simp [hcmp]
          · simp only [hcmp, if_false]
            rw [List.set_append_left _ _ hp,
              List.set_append_left _ _ (by rw [List.length_set]; exact hc)]
            exact ih _ c (by rw [List.length_set, List.length_set]; exact hc)
    · simp [hpT]

/-- The function `heap_pop` neither reads a pointer in NULL slots that follow the array nor
writes to them. -/
theorem heap_pop_pad (h : List (Option strRef)) (T k : Nat) (hT : 1 ≤ T) (hlen : T ≤ h.length) :
    heap_pop (h ++ List.replicate k none) T
      = (heap_pop h T).map (fun x => x ++ List.replicate k none) := by
  have hT0 : T ≠ 0 := by omega
  simp only [heap_pop, hT0, if_false, getD_append_none]
  rw [List.set_append_left _ _ (by omega),
    List.set_append_left _ _ (by rw [List.length_set]; omega)]
  by_cases h1 : T = 1
  · simp [h1]
  · simp only [h1, if_false]
    exact heap_pop_loop_pad _ _ _ _ _ 0 (by rw [List.length_set, List.length_set]; omega)

theorem heap_add_loop_length (str : Option strRef) :
    ∀ (fuel : Nat) (h h' : List (Option strRef)) (c : Nat),
      heap_add_loop str fuel h c = some h' → h'.length = h.length := by
  intro fuel
  induction fuel with
  | zero => intro h h' c e; simp [heap_add_loop] at e; rw [← e]
  | succ n ih =>
    intro h h' c e
    simp only [heap_add_loop] at e
    by_cases hc : c > 0
    · simp only [hc, if_true] at e
      cases hx : strcmp_ptr (h.getD (heap_parent c) none) str with
      | none => rw [hx] at e; simp at e
      | some cmp =>
        rw [hx] at e
        simp only at e
        by_cases hcmp : cmp ≤ 0
        · simp only [hcmp, if_true, Option.some.injEq] at e; rw [← e]
        · simp only [hcmp, if_false] at e
          rw [ih _ _ _ e, List.length_set, List.length_set]
    · simp only [hc, if_false, Option.some.injEq] at e; rw [← e]

/-- The function `heap_add` leaves the extent of the memory as it is. -/
theorem heap_add_length (h h' : List (Option strRef)) (str : Option strRef) (t : Nat)
    (e : heap_add h str t = some h') : h'.length = h.length := by
  unfold heap_add at e
  rw [heap_add_loop_length _ _ _ _ _ e, List.length_set]

theorem heap_pop_loop_length (last : Option strRef) (T : Nat) :
    ∀ (fuel : Nat) (h h' : List (Option strRef)) (p : Nat),
      heap_pop_loop last T fuel h p = some h' → h'.length = h.length := by
  intro fuel
  induction fuel with
  | zero => intro h h' c e; simp [heap_pop_loop] at e; rw [← e]
  | succ n ih =>
    intro h h' p e
    simp only [heap_pop_loop] at e
    by_cases hpT : p < T
    · simp only [hpT, if_true] at e
      generalize (if h.getD (heap_child1 p) none = none then p else heap_child1 p) = c1 at e
      generalize (if h.getD (heap_child2 p) none = none then p else heap_child2 p) = c2 at e
      cases h12 : strcmp_ptr (h.getD c1 none) (h.getD c2 none) with
      | none => rw [h12] at e; simp at e
      | some cmp12 =>
        rw [h12] at e
        simp only at e
        generalize (if cmp12 > 0 then c2 else c1) = c at e
        cases hpc : strcmp_ptr (h.getD p none) (h.getD c none) with
        | none => rw [hpc] at e; simp at e
        | some cmp =>
          rw [hpc] at e
          simp only at e
          by_cases hcmp : cmp ≤ 0
          · simp only [hcmp, if_true, Option.some.injEq] at e; rw [← e]
          · simp only [hcmp, if_false] at e
            rw [ih _ _ _ e, List.length_set, List.length_set]
    · simp only [hpT, if_false, Option.some.injEq] at e; rw [← e]

/-- The function `heap_pop` leaves the extent of the memory as it is. -/
theorem heap_pop_length (h h' : List (Option strRef)) (T : Nat)
    (e : heap_pop h T = some h') : h'.length = h.length := by
  unfold heap_pop at e
  by_cases h0 : T = 0
  · simp [h0] at e
  · simp only [h0, if_false] at e
    by_cases h1 : T = 1
    · simp only [h1, if_true, Option.some.injEq] at e
      rw [← e, List.length_set, List.length_set]
    · simp only [h1, if_false] at e
      rw [heap_pop_loop_length _ _ _ _ _ _ e, List.length_set, List.length_set]

/-- C22. The heap array invariant is kept by both heap operations. Let the memory `strs`
hold non-NULL pointers in min-heap order in the slots below `tail` and NULL in every slot
from `tail` on. Then `heap_add(strs, s, tail)` with a non-NULL `s`, when slot `tail`
exists, returns and leaves a min-heap on the slots below `tail + 1` that holds the old
pointers and `s`, with NULL from `tail + 1` on; and `heap_pop(strs, tail)` with
`tail >= 1` returns and leaves a min-heap on the slots below `tail - 1` that holds the old
pointers without the old root, with NULL from `tail - 1` on, slot `tail - 1` included. -/
theorem heap_operations_keep_invariant (strs : List (Option strRef)) (tail : Nat)
    (hok : HeapOK strs tail strs.length) :
    (∀ s : strRef, tail < strs.length →
      ∃ h', heap_add strs (some s) tail = some h' ∧ h'.length = strs.length ∧
        HeapOK h' (tail + 1) h'.length ∧
        (heap_entries h' (tail + 1)).Perm (some s :: heap_entries strs tail)) ∧
    (1 ≤ tail →
      ∃ h', heap_pop strs tail = some h' ∧ h'.length = strs.length ∧
        HeapOK h' (tail - 1) h'.length ∧
        (heap_entries strs tail).Perm (strs.getD 0 none :: heap_entries h' (tail - 1)) ∧
        h'.getD (tail - 1) none = none) := by
  constructor
  · intro s ht
    obtain ⟨h', e1, e2, e3⟩ := heap_add_spec strs tail strs.length s hok ht
    have hl := heap_add_length _ _ _ _ e1
    exact ⟨h', e1, hl, by rw [hl]; exact e2, e3⟩
  · intro ht
    have htl : tail ≤ strs.length := by
      have := getD_ne_none_lt strs (tail - 1) (hok.full (tail - 1) (by omega))
      omega
    have hpad : HeapOK (strs ++ List.replicate (2 * tail) none) tail
        (strs.length + 2 * tail) := by
      refine ⟨by simp, ?_, ?_, ?_⟩
      · intro i hi
        rw [getD_append_none]
        exact hok.full i hi
      · intro i hi _
        rw [getD_append_none]
        by_cases hil : i < strs.length
        · exact hok.clear i hi hil
        · exact List.getD_eq_default _ _ (by omega)
      · intro i hi0 hit
        rw [getD_append_none, getD_append_none]
        exact hok.order i hi0 hit
    obtain ⟨h2, e1, e2, e3⟩ := heap_pop_spec _ tail _ hpad ht (by omega)
    rw [heap_pop_pad strs tail _ ht htl] at e1
    cases hp : heap_pop strs tail with
    | none => rw [hp] at e1; simp at e1
    | some h' =>
      rw [hp] at e1
      simp only [Option.map_some', Option.some.injEq] at e1
      subst e1
      have hl := heap_pop_length _ _ _ hp
      have hent : ∀ (l : List (Option strRef)) (n : Nat),
          heap_entries (l ++ List.replicate (2 * tail) none) n = heap_entries l n := by
        intro l n
        unfold heap_entries
        apply List.map_congr_left
        intro i _
        exact getD_append_none _ _ _
      have hclear : ∀ i, tail - 1 ≤ i → h'.getD i none = none := by
        intro i hi
        by_cases hil : i < strs.length + 2 * tail
        · have := e2.clear i hi hil
          rwa [getD_append_none] at this
        · exact List.getD_eq_default _ _ (by omega)
      refine ⟨h', rfl, hl, ⟨le_refl _, ?_, ?_, ?_⟩, ?_, hclear _ (le_refl _)⟩
      · intro i hi
        have := e2.full i hi
        rwa [getD_append_none] at this
      · intro i hi _
        exact hclear i hi
      · intro i hi0 hit
        have := e2.order i hi0 hit
        rwa [getD_append_none, getD_append_none] at this
      · rw [hent, hent, getD_append_none] at e3
        exact e3

/-- The theorem `heap_operations_keep_invariant` at a heap of three pointers, to the strings
with the bytes 1, 3 and 2, in memory of five slots. -/
theorem heap_operations_keep_invariant_witness :
    HeapOK [some { src := 0, str := [1] }, some { src := 1, str := [3] },
        some { src := 2, str := [2] }, none, none] 3 5 ∧
    (∀ s : strRef, 3 < 5 →
      ∃ h', heap_add [some { src := 0, str := [1] }, some { src := 1, str := [3] },
          some { src := 2, str := [2] }, none, none] (some s) 3 = some h' ∧
        h'.length = 5 ∧ HeapOK h' (3 + 1) h'.length ∧
        (heap_entries h' (3 + 1)).Perm
          (some s :: heap_entries [some { src := 0, str := [1] }, some { src := 1, str := [3] },
            some { src := 2, str := [2] }, none, none] 3)) ∧
    (1 ≤ 3 →
      ∃ h', heap_pop [some { src := 0, str := [1] }, some { src := 1, str := [3] },
          some { src := 2, str := [2] }, none, none] 3 = some h' ∧
        h'.length = 5 ∧ HeapOK h' (3 - 1) h'.length ∧
        (heap_entries [some { src := 0, str := [1] }, some { src := 1, str := [3] },
            some { src := 2, str := [2] }, none, none] 3).Perm
          (some { src := 0, str := [1] } :: heap_entries h' (3 - 1)) ∧
        h'.getD (3 - 1) none = none) :=
  have hok : HeapOK [some { src := 0, str := [1] }, some { src := 1, str := [3] },
      some { src := 2, str := [2] }, none, none] 3 5 :=
    ⟨by decide, by intro i hi; interval_cases i <;> simp,
      by intro i h1 h2; interval_cases i <;> simp,
      by intro i h1 h2; interval_cases i <;> decide⟩
  ⟨hok, heap_operations_keep_invariant _ 3 hok⟩

/-- The two operations at the heap of the pointers to 1, 3, 2: adding a pointer to the
string with the byte 0 walks it up to the root, and a pop moves the pointer to 2 to the
root and clears slot 2. -/
theorem heap_operations_example :
    heap_add [some { src := 0, str := [1] }, some { src := 1, str := [3] },
        some { src := 2, str := [2] }, none, none] (some { src := 3, str := [0] }) 3
      = some [some { src := 3, str := [0] }, some { src := 0, str := [1] },
          some { src := 2, str := [2] }, some { src := 1, str := [3] }, none] ∧
    heap_pop [some { src := 0, str := [1] }, some { src := 1, str := [3] },
        some { src := 2, str := [2] }, none, none] 3
      = some [some { src := 2, str := [2] }, some { src := 1, str := [3] }, none, none,
          none] := by
  decide

/-! ## The slots that `heap_pop` reads -/

/-- The slots that the loop of `heap_pop` reads lie below `2 * heap_tail - 1`, when the slots
from `heap_tail - 1` up to there hold NULL. -/
theorem heap_pop_loop_reads_bound (last : Option strRef) (T t cap : Nat) (hT : T = t + 1)
    (hcap : 2 * T ≤ cap + 1) :
    ∀ (fuel : Nat) (h : List (Option strRef)) (p : Nat), p < t →
      (∀ i, t ≤ i → i < cap → h.getD i none = none) →
      ∀ i ∈ heap_pop_loop_reads last T fuel h p, i + 1 < 2 * T := by
  intro fuel
  induction fuel with
  | zero => intro h p _ _ i hi; simp [heap_pop_loop_reads] at hi
  | succ n ih =>
    intro h p hp hclear i hi
    have hpT : p < T := by omega
    have e1 : heap_child1 p = p * 2 + 1 := rfl
    have e2 : heap_child2 p = p * 2 + 2 := rfl
    simp only [heap_pop_loop_reads, hpT, if_true] at hi
    have hc1 : (if h.getD (heap_child1 p) none = none then p else heap_child1 p) < t := by
      split
      · exact hp
      · rename_i hne
        by_contra hge
        exact hne (hclear _ (by omega) (by omega))
    have hc2 : (if h.getD (heap_child2 p) none = none then p else heap_child2 p) < t := by
      split
      · exact hp
      · rename_i hne
        by_contra hge
        exact hne (hclear _ (by omega) (by omega))
    generalize (if h.getD (heap_child1 p) none = none then p else heap_child1 p) = c1 at hi hc1
    generalize (if h.getD (heap_child2 p) none = none then p else heap_child2 p) = c2 at hi hc2
    cases h12 : strcmp_ptr (h.getD c1 none) (h.getD c2 none) with
    | none =>
      rw [h12] at hi
      simp only [List.mem_cons, List.mem_singleton, List.not_mem_nil, or_false] at hi
      omega
    | some cmp12 =>
      rw [h12] at hi
      simp only at hi
      have hc : (if cmp12 > 0 then c2 else c1) < t := by split <;> assumption
      generalize (if cmp12 > 0 then c2 else c1) = c at hi hc
      cases hpc : strcmp_ptr (h.getD p none) (h.getD c none) with
      | none =>
        rw [hpc] at hi
        simp only [List.mem_cons, List.mem_singleton, List.not_mem_nil, or_false] at hi
        omega
      | some cmp =>
        rw [hpc] at hi
        simp only at hi
        by_cases hcmp : cmp ≤ 0
        · simp only [hcmp, if_true, List.mem_cons, List.mem_singleton, List.not_mem_nil,
            or_false] at hi
          omega
        · simp only [hcmp, if_false, List.cons_append, List.nil_append, List.mem_cons] at hi
          rcases hi with hi | hi | hi | hi | hi | hi | hi | hi
          any_goals omega
          refine ih _ c hc ?_ i hi
          intro j hj1 hj2
          rw [getD_set_ne _ _ _ _ _ (by omega), getD_set_ne _ _ _ _ _ (by omega)]
          exact hclear j hj1 hj2

/-- The slots that `heap_pop` reads in a heap of `T` entries lie below `2 * T - 1`, when the
slots from `T` up to there hold NULL. -/
theorem heap_pop_reads_bound (h : List (Option strRef)) (T cap : Nat)
    (hclear : ∀ i, T ≤ i → i < cap → h.getD i none = none) (hlen : cap ≤ h.length)
    (hT : 1 ≤ T) (hcap : 2 * T ≤ cap + 1) :
    ∀ i ∈ heap_pop_reads h T, i + 1 < 2 * T := by
  intro i hi
  have hT0 : T ≠ 0 := by omega
  simp only [heap_pop_reads, hT0, if_false] at hi
  by_cases h1 : T = 1
  · simp only [h1, if_true, List.mem_singleton] at hi
    omega
  · simp only [h1, if_false, List.mem_cons] at hi
    rcases hi with hi | hi
    · omega
    · refine heap_pop_loop_reads_bound _ T (T - 1) cap (by omega) hcap _ _ 0 (by omega) ?_ i hi
      intro j hj1 hj2
      by_cases hj : j = T - 1
      · subst hj
        exact getD_set_eq _ _ _ _ (by simp; omega)
      · rw [getD_set_ne _ _ _ _ _ (by omega), getD_set_ne _ _ _ _ _ (by omega)]
        exact hclear j (by omega) hj2

/-- In the array of `nway_merge_pass`, whose slots 0 to 63 are cleared, `heap_pop` on a heap
of at most 32 entries reads slots below 64 only. -/
theorem heap_pop_reads_below_64 (h : List (Option strRef)) (T : Nat)
    (hclear : ∀ i, T ≤ i → i < MAX_THREADS → h.getD i none = none)
    (hlen : MAX_THREADS ≤ h.length) (hT : 1 ≤ T) (hT32 : T ≤ 32) :
    ∀ i ∈ heap_pop_reads h T, i < MAX_THREADS := by
  intro i hi
  have := heap_pop_reads_bound h T MAX_THREADS hclear hlen hT
    (by unfold MAX_THREADS; omega) i hi
  unfold MAX_THREADS
  omega

set_option maxRecDepth 100000 in
/-- C23, the code at two heaps that `nway_merge_pass` builds in its array `strs` of 65 slots.
With 33 sources whose first lines are the bytes 1 to 33, the heap has 33 entries after the
seeding and the first `heap_pop(strs, 33)` walks the last pointer down to slot 31, whose
child slots are 63 and 64: it reads slot 64, which no one has initialised (here it holds
NULL). With 34 sources whose first lines are the bytes 1 to 31, 33, 32, 34, the heap has 34
entries, the pointer walks down to slot 32 and `heap_pop(strs, 34)` reads the slots 65 and
66, past the end of the array. The lists are the indices of 64 and more among the slots
read. -/
theorem heap_pop_reads_slot_64 :
    (nway_seed 33 0 (nway_start ((List.range 33).map (fun i => [[i + 1]])) [] [none])).map
        (fun s => (s.heap_tail, (heap_pop_reads s.strs s.heap_tail).filter (fun i => 64 ≤ i)))
      = some (33, [64]) ∧
    (nway_seed 34 0 (nway_start
        ((List.range 31).map (fun i => [[i + 1]]) ++ [[[33]], [[32]], [[34]]]) []
        [none])).map
        (fun s => (s.heap_tail, (heap_pop_reads s.strs s.heap_tail).filter (fun i => 64 ≤ i)))
      = some (34, [65, 66]) := by
  decide

end GzSort
